import Mathlib

/-!
Verification of the content-model container-tree engine of the musicscore
repository against its specification.

The engine's entry points live in `musicxml/xmlelement/xmlelement.py`
(`add_child`, `remove`, `replace_child`, `possible_children_names`); the
container tree they drive (`xmlchildcontainer`) is modelled from the spec
where its code is not available, as marked on the individual definitions.
Document-node references are opaque naturals; a container tree is a `CNode`;
the child-management state of one document node is an `XState`.

Deliberately out of model (unused by the properties below): the
`requirements_not_fulfilled` flag (consumed only by required-names
backtracking) and the value/attribute validation of generated element types.
-/

set_option maxHeartbeats 1000000

namespace MusicXml

/-- Container-tree node. -/
inductive CNode where
  | leafE (name : String) (minOcc : Nat) (maxOcc : Option Nat) (attached : List Nat)
  | seqC (minOcc : Nat) (maxOcc : Option Nat) (children : List CNode)
  | choiceC (minOcc : Nat) (maxOcc : Option Nat) (chosen : Option Nat) (children : List CNode)
  | groupC (gname : String) (minOcc : Nat) (maxOcc : Option Nat) (child : CNode)
  | dupC (children : List CNode)
  deriving Repr

namespace CNode

def maxLt (k : Nat) : Option Nat → Bool
  | none => true
  | some m => k < m

mutual
def total : CNode → Nat
  | leafE _ _ _ rs => rs.length
  | seqC _ _ cs => totalL cs
  | choiceC _ _ _ cs => totalL cs
  | groupC _ _ _ c => total c
  | dupC cs => totalL cs

def totalL : List CNode → Nat
  | [] => 0
  | c :: cs => total c + totalL cs
end

mutual
def refsOf : CNode → List Nat
  | leafE _ _ _ rs => rs
  | seqC _ _ cs => refsL cs
  | choiceC _ _ _ cs => refsL cs
  | groupC _ _ _ c => refsOf c
  | dupC cs => refsL cs

def refsL : List CNode → List Nat
  | [] => []
  | c :: cs => refsOf c ++ refsL cs
end

mutual
def leafData : CNode → List (String × Nat)
  | leafE n _ _ rs => [(n, rs.length)]
  | seqC _ _ cs => leafDataL cs
  | choiceC _ _ _ cs => leafDataL cs
  | groupC _ _ _ c => leafData c
  | dupC cs => leafDataL cs

def leafDataL : List CNode → List (String × Nat)
  | [] => []
  | c :: cs => leafData c ++ leafDataL cs
end

mutual
def chosenData : CNode → List (Option Nat)
  | leafE _ _ _ _ => []
  | seqC _ _ cs => chosenDataL cs
  | choiceC _ _ ch cs => ch :: chosenDataL cs
  | groupC _ _ _ c => chosenData c
  | dupC cs => chosenDataL cs

def chosenDataL : List CNode → List (Option Nat)
  | [] => []
  | c :: cs => chosenData c ++ chosenDataL cs
end

mutual
def firstLeafCount : CNode → Option Nat
  | leafE _ _ _ rs => some rs.length
  | seqC _ _ cs => firstLeafCountL cs
  | choiceC _ _ _ cs => firstLeafCountL cs
  | groupC _ _ _ c => firstLeafCount c
  | dupC cs => firstLeafCountL cs

def firstLeafCountL : List CNode → Option Nat
  | [] => none
  | c :: cs =>
    match firstLeafCount c with
    | some k => some k
    | none => firstLeafCountL cs
end

mutual
def hasLeafNamed (tag : String) : CNode → Bool
  | leafE n _ _ _ => n == tag
  | seqC _ _ cs => hasLeafNamedL tag cs
  | choiceC _ _ _ cs => hasLeafNamedL tag cs
  | groupC _ _ _ c => hasLeafNamed tag c
  | dupC cs => hasLeafNamedL tag cs

def hasLeafNamedL (tag : String) : List CNode → Bool
  | [] => false
  | c :: cs => hasLeafNamed tag c || hasLeafNamedL tag cs
end

mutual
/-- Fresh (empty) structural clone of a node: empty leaves, no chosen
alternative, duplication wrappers collapsed to a fresh copy of their first
repetition. -/
def freshOf : CNode → CNode
  | leafE n mi ma _ => leafE n mi ma []
  | seqC mi ma cs => seqC mi ma (freshOfL cs)
  | choiceC mi ma _ cs => choiceC mi ma none (freshOfL cs)
  | groupC g mi ma c => groupC g mi ma (freshOf c)
  | dupC cs =>
    match cs with
    | [] => dupC []
    | c :: _ => freshOf c

def freshOfL : List CNode → List CNode
  | [] => []
  | c :: cs => freshOf c :: freshOfL cs
end

/-- The effective minOccurs of a node, as seen by its parent sequence for the
left-to-right closedness rule; a duplication wrapper stands in the position of
its (cloned) repetitions. -/
def minOccOf : CNode → Nat
  | leafE _ mi _ _ => mi
  | seqC mi _ _ => mi
  | choiceC mi _ _ _ => mi
  | groupC _ mi _ _ => mi
  | dupC cs =>
    match cs with
    | [] => 0
    | c :: _ => minOccOf c

/-- The maxOccurs bound of a node (for repetition counting). -/
def maxOccOf : CNode → Option Nat
  | leafE _ _ ma _ => ma
  | seqC _ ma _ => ma
  | choiceC _ ma _ _ => ma
  | groupC _ _ ma _ => ma
  | dupC cs =>
    match cs with
    | [] => some 0
    | c :: _ => maxOccOf c

mutual
/-- Reachable-leaf candidates: the ordered list of (path, name) of every Leaf
that is currently able to accept an attachment, per the reachability rule of
`add`: (b) not saturated, (c) every ancestor Choice unchosen or chosen on the
branch containing the Leaf, (d) an earlier sibling with minOccurs = 0 is
closed once a later sibling of the same sequence holds an attachment. -/
def cands : CNode → List (List Nat × String)
  | leafE n _ ma rs => if maxLt rs.length ma then [([], n)] else []
  | seqC _ _ cs => candsSeq cs 0
  | choiceC _ _ ch cs =>
    match ch with
    | none => candsAll cs 0
    | some k => (candsAll cs 0).filter (fun pn => pn.1.head? == some k)
  | groupC _ _ _ c => (cands c).map (fun pn => (0 :: pn.1, pn.2))
  | dupC cs => candsSeq cs 0

def candsSeq : List CNode → Nat → List (List Nat × String)
  | [], _ => []
  | c :: rest, i =>
    (if minOccOf c == 0 && totalL rest > 0 then []
     else (cands c).map (fun pn => (i :: pn.1, pn.2)))
    ++ candsSeq rest (i + 1)

def candsAll : List CNode → Nat → List (List Nat × String)
  | [], _ => []
  | c :: rest, i =>
    (cands c).map (fun pn => (i :: pn.1, pn.2)) ++ candsAll rest (i + 1)
end

/-- Replace the element at index i of a list (out of range: unchanged). -/
def setNth : List CNode → Nat → CNode → List CNode
  | [], _, _ => []
  | _ :: cs, 0, x => x :: cs
  | c :: cs, n + 1, x => c :: setNth cs n x

/-- Path lookup: the node at a child-index path. -/
def getAt : CNode → List Nat → Option CNode
  | t, [] => some t
  | leafE _ _ _ _, _ :: _ => none
  | seqC _ _ cs, i :: p => (cs.get? i).bind (fun c => getAt c p)
  | choiceC _ _ _ cs, i :: p => (cs.get? i).bind (fun c => getAt c p)
  | groupC _ _ _ c, i :: p => if i = 0 then getAt c p else none
  | dupC cs, i :: p => (cs.get? i).bind (fun c => getAt c p)

/-- Append a reference to a leaf's attachment list. -/
def appendRef (r : Nat) : CNode → CNode
  | leafE n mi ma rs => leafE n mi ma (rs ++ [r])
  | t => t

/-- Remove a reference from a leaf's attachment list. -/
def eraseRef (r : Nat) : CNode → CNode
  | leafE n mi ma rs => leafE n mi ma (rs.erase r)
  | t => t

/-- Attach r at the leaf addressed by path p; if the leaf's immediate parent
is a Choice with no chosen alternative, record the leaf's index as chosen
(mirrors the `add` step of the Attachment Engine). -/
def attachAt (r : Nat) : CNode → List Nat → CNode
  | t, [] => appendRef r t
  | seqC mi ma cs, i :: p =>
    seqC mi ma (match cs.get? i with
      | some c => setNth cs i (attachAt r c p)
      | none => cs)
  | choiceC mi ma ch cs, i :: p =>
    choiceC mi ma
      (match p, ch with
       | [], none => some i
       | _, _ => ch)
      (match cs.get? i with
       | some c => setNth cs i (attachAt r c p)
       | none => cs)
  | groupC g mi ma c, i :: p => if i = 0 then groupC g mi ma (attachAt r c p) else groupC g mi ma c
  | dupC cs, i :: p =>
    dupC (match cs.get? i with
      | some c => setNth cs i (attachAt r c p)
      | none => cs)
  | leafE n mi ma rs, _ :: _ => leafE n mi ma rs

/-- Detach r at the leaf addressed by path p; if the leaf's immediate parent
is a Choice whose chosen child is that leaf, reset chosen (the source resets
`chosen_child` whenever it equals the removed child's leaf container,
regardless of remaining attachments). -/
def detachAt (r : Nat) : CNode → List Nat → CNode
  | t, [] => eraseRef r t
  | seqC mi ma cs, i :: p =>
    seqC mi ma (match cs.get? i with
      | some c => setNth cs i (detachAt r c p)
      | none => cs)
  | choiceC mi ma ch cs, i :: p =>
    choiceC mi ma
      (match p with
       | [] => if ch = some i then none else ch
       | _ :: _ => ch)
      (match cs.get? i with
       | some c => setNth cs i (detachAt r c p)
       | none => cs)
  | groupC g mi ma c, i :: p => if i = 0 then groupC g mi ma (detachAt r c p) else groupC g mi ma c
  | dupC cs, i :: p =>
    dupC (match cs.get? i with
      | some c => setNth cs i (detachAt r c p)
      | none => cs)
  | leafE n mi ma rs, _ :: _ => leafE n mi ma rs

/-- Substitute oldR by newR inside the leaf addressed by p, in place (same
index in the attachment list); chosen and repetition state untouched
(mirrors `replace_child`). -/
def substAt (oldR newR : Nat) : CNode → List Nat → CNode
  | leafE n mi ma rs, [] => leafE n mi ma (rs.map (fun x => if x = oldR then newR else x))
  | t, [] => t
  | seqC mi ma cs, i :: p =>
    seqC mi ma (match cs.get? i with
      | some c => setNth cs i (substAt oldR newR c p)
      | none => cs)
  | choiceC mi ma ch cs, i :: p =>
    choiceC mi ma ch (match cs.get? i with
      | some c => setNth cs i (substAt oldR newR c p)
      | none => cs)
  | groupC g mi ma c, i :: p => if i = 0 then groupC g mi ma (substAt oldR newR c p) else groupC g mi ma c
  | dupC cs, i :: p =>
    dupC (match cs.get? i with
      | some c => setNth cs i (substAt oldR newR c p)
      | none => cs)
  | leafE n mi ma rs, _ :: _ => leafE n mi ma rs

/-- The upward duplication-pruning walk of `remove`: along the path from the
removed leaf's parent up to the root, a node whose parent is a duplication
wrapper with more than one repetition is dropped when its first leaf (in
document order) is empty — the faithful translation of the source's loop,
whose `leaf != parent_container` guard is vacuous and whose flag survives the
break, so only the first leaf decides. -/
def pruneUp : CNode → List Nat → CNode
  | t, [] => t
  | dupC cs, i :: q =>
    match cs.get? i with
    | none => dupC cs
    | some c =>
      let c2 := pruneUp c q
      if cs.length > 1 && (firstLeafCount c2 == some 0) then dupC (cs.eraseIdx i)
      else dupC (setNth cs i c2)
  | seqC mi ma cs, i :: q =>
    seqC mi ma (match cs.get? i with
      | some c => setNth cs i (pruneUp c q)
      | none => cs)
  | choiceC mi ma ch cs, i :: q =>
    choiceC mi ma ch (match cs.get? i with
      | some c => setNth cs i (pruneUp c q)
      | none => cs)
  | groupC g mi ma c, i :: q => if i = 0 then groupC g mi ma (pruneUp c q) else groupC g mi ma c
  | leafE n mi ma rs, _ :: _ => leafE n mi ma rs

mutual
/-- Path of the leaf holding reference r (document order, first hit). -/
def pathOfRef (r : Nat) : CNode → Option (List Nat)
  | leafE _ _ _ rs => if r ∈ rs then some [] else none
  | seqC _ _ cs => pathOfRefL r cs 0
  | choiceC _ _ _ cs => pathOfRefL r cs 0
  | groupC _ _ _ c => (pathOfRef r c).map (fun p => 0 :: p)
  | dupC cs => pathOfRefL r cs 0

def pathOfRefL (r : Nat) : List CNode → Nat → Option (List Nat)
  | [], _ => none
  | c :: cs, i =>
    match pathOfRef r c with
    | some p => some (i :: p)
    | none => pathOfRefL r cs (i + 1)
end

mutual
/-- Modelled from the spec: the duplication targets of `add` (the code that
selects and materializes a new repetition lives in xmlchildcontainer, which is
not in src). Per the spec, a new repetition may be materialized when "the tag
matches an Element under a Sequence/Group whose repetition bound is not
exhausted"; prospective targets are collected in document order, in positions
compatible with the current chosen alternatives and the left-to-right
closedness rule. A target is either a Sequence/Group not yet wrapped (one
materialized repetition, so eligible when 1 < maxOccurs) or an existing
duplication wrapper (eligible when its repetition count is below the cloned
node's maxOccurs); a repetition inside a wrapper is never wrapped again. -/
def dupTs (tag : String) (selfOK : Bool) : CNode → List (List Nat)
  | leafE _ _ _ _ => []
  | seqC mi ma cs =>
    (if selfOK && maxLt 1 ma && hasLeafNamed tag (seqC mi ma cs) then [[]] else [])
    ++ dupTsSeq tag cs 0
  | groupC _ _ ma c =>
    (if selfOK && maxLt 1 ma && hasLeafNamed tag c then [[]] else [])
    ++ (dupTs tag true c).map (fun p => 0 :: p)
  | choiceC _ _ ch cs =>
    match ch with
    | none => dupTsAll tag cs 0
    | some k => (dupTsAll tag cs 0).filter (fun p => p.head? == some k)
  | dupC cs =>
    (match cs with
     | [] => []
     | c :: _ => if maxLt cs.length (maxOccOf c) && hasLeafNamed tag c then [[]] else [])
    ++ dupTsDup tag cs 0

def dupTsSeq (tag : String) : List CNode → Nat → List (List Nat)
  | [], _ => []
  | c :: rest, i =>
    (if minOccOf c == 0 && totalL rest > 0 then []
     else (dupTs tag true c).map (fun p => i :: p))
    ++ dupTsSeq tag rest (i + 1)

def dupTsDup (tag : String) : List CNode → Nat → List (List Nat)
  | [], _ => []
  | c :: rest, i =>
    (if minOccOf c == 0 && totalL rest > 0 then []
     else (dupTs tag false c).map (fun p => i :: p))
    ++ dupTsDup tag rest (i + 1)

def dupTsAll (tag : String) : List CNode → Nat → List (List Nat)
  | [], _ => []
  | c :: rest, i =>
    (dupTs tag true c).map (fun p => i :: p) ++ dupTsAll tag rest (i + 1)
end

/-- Materialize a new repetition at path p: an existing duplication wrapper
gets a fresh clone of its first repetition appended; a bare Sequence/Group is
replaced by a wrapper holding it and a fresh clone of itself. -/
def duplicateAt : CNode → List Nat → CNode
  | t, [] =>
    match t with
    | dupC cs =>
      (match cs with
       | [] => dupC []
       | c :: _ => dupC (cs ++ [freshOf c]))
    | n => dupC [n, freshOf n]
  | seqC mi ma cs, i :: p =>
    seqC mi ma (match cs.get? i with
      | some c => setNth cs i (duplicateAt c p)
      | none => cs)
  | choiceC mi ma ch cs, i :: p =>
    choiceC mi ma ch (match cs.get? i with
      | some c => setNth cs i (duplicateAt c p)
      | none => cs)
  | groupC g mi ma c, i :: p => if i = 0 then groupC g mi ma (duplicateAt c p) else groupC g mi ma c
  | dupC cs, i :: p =>
    dupC (match cs.get? i with
      | some c => setNth cs i (duplicateAt c p)
      | none => cs)
  | leafE n mi ma rs, _ :: _ => leafE n mi ma rs

/-- The candidates able to accept this tag. -/
def candsFor (t : CNode) (tag : String) : List (List Nat × String) :=
  (cands t).filter (fun pn => pn.2 == tag)

/-- Modelled from the spec: `add_element` of the container tree
(xmlchildcontainer is not in src). Computes the reachable Leaves for the tag;
with no candidate it tries to materialize one new repetition and retries; the
forward hint selects the i-th candidate (0-based, defaulting to the first);
failure returns none and commits nothing. Returns the new tree and the path
of the Leaf that received the reference. -/
def addEl (t : CNode) (tag : String) (fwd : Option Nat) (r : Nat) :
    Option (CNode × List Nat) :=
  match candsFor t tag with
  | [] =>
    match dupTs tag true t with
    | [] => none
    | q :: _ =>
      match (candsFor (duplicateAt t q) tag).get? (fwd.getD 0) with
      | some pn => some (attachAt r (duplicateAt t q) pn.1, pn.1)
      | none => none
  | pns =>
    match pns.get? (fwd.getD 0) with
    | some pn => some (attachAt r t pn.1, pn.1)
    | none => none

/-- Tree-level part of `remove` (xmlelement.py): locate the Leaf holding r,
reset the parent's chosen child if it is that Leaf, detach r, then run the
upward duplication-pruning walk. -/
def removeEl (t : CNode) (r : Nat) : Option CNode :=
  match pathOfRef r t with
  | none => none
  | some p => some (pruneUp (detachAt r t p) p.dropLast)

end CNode

/-- Errors surfaced by the child-management operations. -/
inductive XErr where
  | cannotHaveChildren
  | noMatchingSlot
  | notAttached
  | notFound
  deriving Repr, DecidableEq

/-- The child-management state of one XMLElement: its container tree (none for
simple/empty content), its _unordered_children (as opaque references), and its
attributes and value (opaque here; carried to state frame conditions). -/
structure XState where
  container : Option CNode
  unordered : List Nat
  attrs : List (String × String)
  val : Option String
  deriving Repr

namespace XState

/-- `XMLElement.add_child`: fails when the element's type admits no children;
otherwise delegates to the container tree and appends to
_unordered_children. -/
def addChild (s : XState) (r : Nat) (tag : String) (fwd : Option Nat) :
    XState × Option XErr :=
  match s.container with
  | none => (s, some XErr.cannotHaveChildren)
  | some t =>
    match CNode.addEl t tag fwd r with
    | none => (s, some XErr.noMatchingSlot)
    | some (t2, _) =>
      ({ s with container := some t2, unordered := s.unordered ++ [r] }, none)

/-- `XMLElement.remove`: `_unordered_children.remove` raises first (before any
mutation) when the child is absent; otherwise the reference is dropped from
its leaf (a leaf no longer in the tree leaves the tree unchanged), the
chosen child of the Leaf's parent is reset when it is that Leaf, and empty
duplicated repetitions are pruned on the way up. -/
def removeChild (s : XState) (r : Nat) : XState × Option XErr :=
  if r ∈ s.unordered then
    let u := s.unordered.erase r
    match s.container with
    | none => ({ s with unordered := u }, none)
    | some t =>
      match CNode.removeEl t r with
      | none => ({ s with unordered := u }, none)
      | some t2 => ({ s with unordered := u, container := some t2 }, none)
  else (s, some XErr.notAttached)

/-- Replace the first occurrence of old by new in a list. -/
def replaceOne (old new : Nat) : List Nat → List Nat
  | [] => []
  | x :: xs => if x = old then new :: xs else x :: replaceOne old new xs

/-- `XMLElement.replace_child`: old is searched among the ordered children
(the container-tree leaves); when absent the call fails before any mutation;
otherwise new is substituted for old in _unordered_children (same index) and
inside old's leaf (same position), chosen and repetition state untouched. -/
def replaceChild (s : XState) (old new : Nat) : XState × Option XErr :=
  match s.container with
  | none => (s, some XErr.notFound)
  | some t =>
    match CNode.pathOfRef old t with
    | none => (s, some XErr.notFound)
    | some p =>
      if old ∈ s.unordered then
        ({ s with container := some (CNode.substAt old new t p),
                  unordered := replaceOne old new s.unordered }, none)
      else (s, some XErr.notFound)

end XState

/-- One child-management operation, for stating whole-trace properties. -/
inductive Op where
  | add (r : Nat) (tag : String) (fwd : Option Nat)
  | rem (r : Nat)
  | repl (old new : Nat)
  deriving Repr

/-- Apply one operation, returning the (possibly unchanged) state and the
error, mirroring the exception behaviour of the source. -/
def applyOp (s : XState) : Op → XState × Option XErr
  | Op.add r tag fwd => s.addChild r tag fwd
  | Op.rem r => s.removeChild r
  | Op.repl old new => s.replaceChild old new

def stepOp (s : XState) (op : Op) : XState := (applyOp s op).1

def runOps (s : XState) (ops : List Op) : XState := ops.foldl stepOp s

/-- Run a sequence of add_child calls, all of which must succeed. -/
def runAdds : XState → List (Nat × String × Option Nat) → Option XState
  | s, [] => some s
  | s, (r, tag, fwd) :: rest =>
    match s.addChild r tag fwd with
    | (s2, none) => runAdds s2 rest
    | (_, some _) => none

/-- Run a sequence of remove calls, all of which must succeed. -/
def runRems : XState → List Nat → Option XState
  | s, [] => some s
  | s, r :: rest =>
    match s.removeChild r with
    | (s2, none) => runRems s2 rest
    | (_, some _) => none

/-- A fresh document node of a structured type: its Container Tree is the
(per-instance clone of the) compiled grammar g, with no children attached. -/
def initSt (g : CNode) : XState :=
  { container := some g, unordered := [], attrs := [], val := none }


namespace CNode

/-- `XMLElement.possible_children_names` on a structured node: the set of
names of the Leaves produced by `iterate_leaves` of the container tree — all
Leaves, with no tag filtering (membership in this list is the set). -/
def possibleChildrenNames (t : CNode) : List String :=
  (leafData t).map Prod.fst

/-- Written from the spec's words, for comparison with the source's
`possible_children_names`: "The set of tags reachable right now (same
reachability rule as in `add`, evaluated for every Leaf without requiring a
concrete tag match)". -/
def reachableNames (t : CNode) : List String :=
  (cands t).map Prod.snd

/-- Structural equality in the sense of the round-trip property: the same
attached count in every Leaf and the same chosen value in every Choice (both
read in document order). -/
def structEq (t1 t2 : CNode) : Prop :=
  leafData t1 = leafData t2 ∧ chosenData t1 = chosenData t2

mutual
/-- The tree with every Leaf's attachment list dropped: everything except
attachments (names, bounds, chosen alternatives, repetition structure). -/
def skel : CNode → CNode
  | leafE n mi ma _ => leafE n mi ma []
  | seqC mi ma cs => seqC mi ma (skelL cs)
  | choiceC mi ma ch cs => choiceC mi ma ch (skelL cs)
  | groupC g mi ma c => groupC g mi ma (skel c)
  | dupC cs => dupC (skelL cs)

def skelL : List CNode → List CNode
  | [] => []
  | c :: cs => skel c :: skelL cs
end

mutual
/-- Invariant 1 of the data model: no Leaf holds more attachments than its
bound's max. -/
def satOKb : CNode → Bool
  | leafE _ _ ma rs =>
    (match ma with
     | none => true
     | some m => rs.length ≤ m)
  | seqC _ _ cs => satOKbL cs
  | choiceC _ _ _ cs => satOKbL cs
  | groupC _ _ _ c => satOKb c
  | dupC cs => satOKbL cs

def satOKbL : List CNode → Bool
  | [] => true
  | c :: cs => satOKb c && satOKbL cs
end

mutual
/-- A compiled grammar tree as cached per declared type: no duplication
wrappers, empty leaves, no chosen alternatives. -/
def grammarOKb : CNode → Bool
  | leafE _ _ _ rs => rs.isEmpty
  | seqC _ _ cs => grammarOKbL cs
  | choiceC _ _ ch cs => ch.isNone && grammarOKbL cs
  | groupC _ _ _ c => grammarOKb c
  | dupC _ => false

def grammarOKbL : List CNode → Bool
  | [] => true
  | c :: cs => grammarOKb c && grammarOKbL cs
end

mutual
/-- No duplication wrapper anywhere in the tree. -/
def dupFreeb : CNode → Bool
  | leafE _ _ _ _ => true
  | seqC _ _ cs => dupFreebL cs
  | choiceC _ _ _ cs => dupFreebL cs
  | groupC _ _ _ c => dupFreeb c
  | dupC _ => false

def dupFreebL : List CNode → Bool
  | [] => true
  | c :: cs => dupFreeb c && dupFreebL cs
end

/-- The local chosen condition of one Choice: no chosen alternative, or the
chosen index denotes a Leaf child currently holding an attachment. -/
def chosenOKat (cs : List CNode) : Option Nat → Bool
  | none => true
  | some i =>
    match cs.get? i with
    | some (leafE _ _ _ rs) => !rs.isEmpty
    | _ => false

mutual
/-- The chosen-alternative invariant that actually holds on reachable states:
whenever a Choice has a chosen alternative, that alternative is a Leaf child
currently holding at least one attachment. -/
def chosenOKb : CNode → Bool
  | leafE _ _ _ _ => true
  | seqC _ _ cs => chosenOKbL cs
  | choiceC _ _ ch cs => chosenOKat cs ch && chosenOKbL cs
  | groupC _ _ _ c => chosenOKb c
  | dupC cs => chosenOKbL cs

def chosenOKbL : List CNode → Bool
  | [] => true
  | c :: cs => chosenOKb c && chosenOKbL cs
end

/-- Whether a node is a Leaf (an element slot). -/
def isLeafb : CNode → Bool
  | leafE _ _ _ _ => true
  | _ => false

/-- The number of repetitions of a duplication wrapper currently holding no
attachment at all. -/
def countEmpties (cs : List CNode) : Nat :=
  (cs.filter (fun c => total c == 0)).length

mutual
/-- Health of the duplication wrappers: a wrapper always has at least one
repetition, every repetition contains at least one Leaf, and at most one
repetition is completely empty (the single current one being filled). -/
def dupOKb : CNode → Bool
  | leafE _ _ _ _ => true
  | seqC _ _ cs => dupOKbL cs
  | choiceC _ _ _ cs => dupOKbL cs
  | groupC _ _ _ c => dupOKb c
  | dupC cs =>
    !cs.isEmpty && cs.all (fun c => !(leafData c).isEmpty) &&
      decide (countEmpties cs ≤ 1) && dupOKbL cs

def dupOKbL : List CNode → Bool
  | [] => true
  | c :: cs => dupOKb c && dupOKbL cs
end

mutual
/-- Conformance of a container-tree state to the compiled grammar it was
instantiated from: same names, bounds and shape, with duplication wrappers
holding one or more repetitions each conforming to the node they clone. -/
def confb : CNode → CNode → Bool
  | leafE n mi ma _, leafE n2 mi2 ma2 _ => n == n2 && mi == mi2 && ma == ma2
  | seqC mi ma cs, seqC mi2 ma2 gs => mi == mi2 && ma == ma2 && confbL cs gs
  | choiceC mi ma _ cs, choiceC mi2 ma2 _ gs => mi == mi2 && ma == ma2 && confbL cs gs
  | groupC g mi ma c, groupC g2 mi2 ma2 c2 =>
    g == g2 && mi == mi2 && ma == ma2 && confb c c2
  | dupC cs, g => confbDup cs g
  | _, _ => false

def confbL : List CNode → List CNode → Bool
  | [], [] => true
  | c :: cs, g :: gs => confb c g && confbL cs gs
  | _, _ => false

def confbDup : List CNode → CNode → Bool
  | [], _ => false
  | [c], g => confb c g
  | c :: cs, g => confb c g && confbDup cs g
end

/-- Whether a node is a duplication wrapper. -/
def isDupb : CNode → Bool
  | dupC _ => true
  | _ => false

mutual
/-- Shape of the repetitions: every repetition of a duplication wrapper is a
materialized clone of a Sequence, Choice or Group — never a bare Leaf and
never itself a wrapper (duplication wraps XSDSequence/Group nodes and appends
clones of the first repetition). -/
def repOK : CNode → Bool
  | leafE _ _ _ _ => true
  | seqC _ _ cs => repOKL cs
  | choiceC _ _ _ cs => repOKL cs
  | groupC _ _ _ c => repOK c
  | dupC cs => cs.all (fun c => !isLeafb c && !isDupb c) && repOKL cs

def repOKL : List CNode → Bool
  | [] => true
  | c :: cs => repOK c && repOKL cs
end

/-- The child index of the repetition materialized by `duplicateAt t q`: an
existing wrapper at q gets the clone appended (index = old length), a bare
Sequence/Group is wrapped so the clone sits at index 1. -/
def newRepIx (t : CNode) (q : List Nat) : Nat :=
  match getAt t q with
  | some (dupC cs) => cs.length
  | _ => 1

end CNode

/-- Two document nodes instantiated from the same cached grammar: the pair of
their child-management states. -/
def WorldPair := XState × XState

/-- Both nodes clone the same compiled container tree at instantiation. -/
def initPair (g : CNode) : WorldPair := (initSt g, initSt g)

/-- Apply an operation to the first or to the second document node. -/
def applyAt (w : WorldPair) (onFst : Bool) (op : Op) : WorldPair :=
  if onFst then (stepOp w.1 op, w.2) else (w.1, stepOp w.2 op)

def runAt (w : WorldPair) (ops : List (Bool × Op)) : WorldPair :=
  ops.foldl (fun w bo => applyAt w bo.1 bo.2) w

/-- Whether a state's container tree (when present) satisfies invariant 1. -/
def stateSatOK (s : XState) : Bool :=
  match s.container with
  | none => true
  | some t => CNode.satOKb t

/-- Whether a state's container tree (when present) satisfies the
chosen-alternative invariant. -/
def stateChosenOK (s : XState) : Bool :=
  match s.container with
  | none => true
  | some t => CNode.chosenOKb t

namespace Gram

open CNode

/-- Grammar Sequence(1..1){ a(1..1) }. -/
def gSat : CNode := seqC 1 (some 1) [leafE "a" 1 (some 1) []]

/-- gSat after one successful attach: its only Leaf saturated. -/
def tSat1 : CNode := seqC 1 (some 1) [leafE "a" 1 (some 1) [1]]

/-- Grammar Choice(1..1){ a(0..2), b(0..1) }. -/
def gCho : CNode := choiceC 1 (some 1) none [leafE "a" 0 (some 2) [], leafE "b" 0 (some 1) []]

/-- The spec's own scenario grammar:
Sequence(1..1){ a(1..1), Choice(0..1){ b(1..1), c(1..1) } }. -/
def gScen : CNode :=
  seqC 1 (some 1)
    [leafE "a" 1 (some 1) [],
     choiceC 0 (some 1) none [leafE "b" 1 (some 1) [], leafE "c" 1 (some 1) []]]

/-- gCho after attaching references 1 and 2 to alternative a. -/
def tCho2 : CNode :=
  choiceC 1 (some 1) (some 0) [leafE "a" 0 (some 2) [1, 2], leafE "b" 0 (some 1) []]

/-- Grammar Sequence(1..unbounded){ a(1..1), b(0..1) }. -/
def gDupAB : CNode := seqC 1 none [leafE "a" 1 (some 1) [], leafE "b" 0 (some 1) []]

/-- Grammar Sequence(1..unbounded){ a(1..1) }. -/
def gDupA : CNode := seqC 1 none [leafE "a" 1 (some 1) []]

end Gram

/-- The document-node state reaching Gram.tCho2 (references 1 and 2 attached). -/
def sCho2 : XState :=
  { container := some Gram.tCho2, unordered := [1, 2], attrs := [], val := none }

end MusicXml



namespace MusicXml

/-- A document node whose declared type has no child container tree. -/
def sPlain : XState := { container := none, unordered := [], attrs := [], val := none }

/-- C10: on a document node whose declared type has no child container tree,
add_child fails with XMLElementCannotHaveChildrenError for every child, and
the element's state (children, attributes, value) is unchanged. -/
theorem addChild_without_container_fails (s : XState) (r : Nat) (tag : String)
    (fwd : Option Nat) (h : s.container = none) :
    s.addChild r tag fwd = (s, some XErr.cannotHaveChildren) := by
  unfold XState.addChild
  rw [h]

theorem addChild_without_container_fails_wit :
    sPlain.container = none ∧
    sPlain.addChild 1 "a" none = (sPlain, some XErr.cannotHaveChildren) :=
  ⟨rfl, addChild_without_container_fails sPlain 1 "a" none rfl⟩

/-- C5: a failing operation (add_child with no matching slot, remove of a
node that is not attached, replace_child of an absent node, add_child on a
childless type) leaves the document node's state exactly as it was: all
operations are atomic. -/
theorem failing_ops_leave_state_unchanged (s : XState) (op : Op) (e : XErr)
    (h : (applyOp s op).2 = some e) : (applyOp s op).1 = s := by
  cases op with
  | add r tag fwd =>
    rcases hc : s.container with _ | t
    · simp [applyOp, XState.addChild, hc]
    · rcases ha : CNode.addEl t tag fwd r with _ | ⟨t2, pl⟩
      · simp [applyOp, XState.addChild, hc, ha]
      · exfalso
        simp [applyOp, XState.addChild, hc, ha] at h
  | rem r =>
    by_cases hm : r ∈ s.unordered
    · exfalso
      rcases hc : s.container with _ | t
      · simp [applyOp, XState.removeChild, hm, hc] at h
      · rcases hr : CNode.removeEl t r with _ | t2 <;>
          simp [applyOp, XState.removeChild, hm, hc, hr] at h
    · simp [applyOp, XState.removeChild, hm]
  | repl old new =>
    rcases hc : s.container with _ | t
    · simp [applyOp, XState.replaceChild, hc]
    · rcases hp : CNode.pathOfRef old t with _ | p
      · simp [applyOp, XState.replaceChild, hc, hp]
      · by_cases hu : old ∈ s.unordered
        · exfalso
          simp [applyOp, XState.replaceChild, hc, hp, hu] at h
        · simp [applyOp, XState.replaceChild, hc, hp, hu]

theorem failing_ops_leave_state_unchanged_wit :
    (applyOp (initSt Gram.gSat) (Op.rem 5)).2 = some XErr.notAttached ∧
    (applyOp (initSt Gram.gSat) (Op.rem 5)).1 = initSt Gram.gSat :=
  ⟨rfl, failing_ops_leave_state_unchanged (initSt Gram.gSat) (Op.rem 5) XErr.notAttached rfl⟩

theorem runAt_true_frame (ops : List Op) : ∀ w : WorldPair,
    (runAt w (ops.map (fun op => (true, op)))).2 = w.2 := by
  induction ops with
  | nil => intro w; rfl
  | cons o l ih => intro w; exact ih (applyAt w true o)

theorem runAt_false_frame (ops : List Op) : ∀ w : WorldPair,
    (runAt w (ops.map (fun op => (false, op)))).1 = w.1 := by
  induction ops with
  | nil => intro w; rfl
  | cons o l ih => intro w; exact ih (applyAt w false o)

/-- C8: two document nodes instantiated from the same cached compiled
container tree share no mutable state: any sequence of child operations
performed on the one leaves the other's container state (attached children,
chosen values, repetitions) unchanged. -/
theorem no_shared_mutable_state (g : CNode) (ops : List Op) :
    (runAt (initPair g) (ops.map (fun op => (true, op)))).2 = initSt g ∧
    (runAt (initPair g) (ops.map (fun op => (false, op)))).1 = initSt g :=
  ⟨runAt_true_frame ops (initPair g), runAt_false_frame ops (initPair g)⟩

/-- C1 counterexample: after the only Leaf of Sequence{ a(1..1) } is
saturated, no Leaf is reachable any more ("a" is not in the reachable set of
the spec's reachability rule), yet possible_children_names still returns
{"a"}: the source iterates all leaves without the reachability filter. -/
theorem possible_names_not_reachability_filtered_cex :
    (runOps (initSt Gram.gSat) [Op.add 1 "a" none]).container = some Gram.tSat1 ∧
    "a" ∈ CNode.possibleChildrenNames Gram.tSat1 ∧
    "a" ∉ CNode.reachableNames Gram.tSat1 := by
  refine ⟨rfl, ?_, ?_⟩ <;> decide

/-- C2 counterexample: Choice{ a(0..2), b(0..1) }; attach two children to a
(chosen becomes a), remove one of them: the source resets chosen to None
although one attachment remains under the chosen alternative. -/
theorem remove_resets_chosen_with_remaining_cex :
    (runOps (initSt Gram.gCho) [Op.add 1 "a" none, Op.add 2 "a" none]).container =
      some (CNode.choiceC 1 (some 1) (some 0)
        [CNode.leafE "a" 0 (some 2) [1, 2], CNode.leafE "b" 0 (some 1) []]) ∧
    (runOps (initSt Gram.gCho) [Op.add 1 "a" none, Op.add 2 "a" none, Op.rem 1]).container =
      some (CNode.choiceC 1 (some 1) none
        [CNode.leafE "a" 0 (some 2) [2], CNode.leafE "b" 0 (some 1) []]) :=
  ⟨rfl, rfl⟩

/-- C7 counterexample: in the same state, chosen = None coexists with a
remaining attachment under alternative a (the claimed iff fails), and an add
targeting the other alternative b then succeeds although a's attachments were
never fully removed. -/
theorem choice_reopened_while_attached_cex :
    (runOps (initSt Gram.gCho) [Op.add 1 "a" none, Op.add 2 "a" none, Op.rem 1]).container =
      some (CNode.choiceC 1 (some 1) none
        [CNode.leafE "a" 0 (some 2) [2], CNode.leafE "b" 0 (some 1) []]) ∧
    (applyOp (runOps (initSt Gram.gCho) [Op.add 1 "a" none, Op.add 2 "a" none, Op.rem 1])
        (Op.add 3 "b" none)).2 = none :=
  ⟨rfl, rfl⟩

/-- C9: the pruning walk of remove is decided by the first leaf of a
repetition alone (the source's emptiness loop breaks with a stale flag and
its `leaf != parent_container` guard is vacuous), so removing "a" from the
second repetition of Sequence(1..unbounded){ a(1..1), b(0..1) } prunes that
repetition while its "b" Leaf still holds reference 4: an attached child
disappears from the tree (4 stays in _unordered_children), contradicting the
documented rule that only completely empty repetitions are pruned. The
spec's own all-leaves-empty scenario (last conjunct) behaves as documented. -/
theorem pruning_drops_nonempty_repetition :
    (runOps (initSt Gram.gDupAB)
        [Op.add 1 "a" none, Op.add 2 "b" none, Op.add 3 "a" none, Op.add 4 "b" none]).container =
      some (CNode.dupC
        [CNode.seqC 1 none [CNode.leafE "a" 1 (some 1) [1], CNode.leafE "b" 0 (some 1) [2]],
         CNode.seqC 1 none [CNode.leafE "a" 1 (some 1) [3], CNode.leafE "b" 0 (some 1) [4]]]) ∧
    (runOps (initSt Gram.gDupAB)
        [Op.add 1 "a" none, Op.add 2 "b" none, Op.add 3 "a" none, Op.add 4 "b" none,
         Op.rem 3]).container =
      some (CNode.dupC
        [CNode.seqC 1 none [CNode.leafE "a" 1 (some 1) [1], CNode.leafE "b" 0 (some 1) [2]]]) ∧
    (runOps (initSt Gram.gDupAB)
        [Op.add 1 "a" none, Op.add 2 "b" none, Op.add 3 "a" none, Op.add 4 "b" none,
         Op.rem 3]).unordered = [1, 2, 4] ∧
    (runOps (initSt Gram.gDupA)
        [Op.add 1 "a" none, Op.add 2 "a" none, Op.add 3 "a" none,
         Op.rem 3, Op.rem 2, Op.rem 1]).container =
      some (CNode.dupC [CNode.seqC 1 none [CNode.leafE "a" 1 (some 1) []]]) :=
  ⟨rfl, rfl, rfl, rfl⟩

end MusicXml

namespace MusicXml

namespace CNode

mutual
theorem cands_snd_mem : (t : CNode) → ∀ pn : List Nat × String, pn ∈ cands t →
    pn.2 ∈ (leafData t).map Prod.fst
  | leafE n mi ma rs => by
    intro pn hpn
    unfold cands at hpn
    by_cases hs : maxLt rs.length ma = true
    · simp [hs] at hpn
      simp [leafData, hpn]
    · simp [hs] at hpn
  | seqC mi ma cs => by
    intro pn hpn
    unfold cands at hpn
    simpa [leafData] using candsSeq_snd_mem cs 0 pn hpn
  | choiceC mi ma ch cs => by
    intro pn hpn
    unfold cands at hpn
    cases ch with
    | none => simpa [leafData] using candsAll_snd_mem cs 0 pn hpn
    | some k =>
      have := List.mem_filter.1 hpn
      simpa [leafData] using candsAll_snd_mem cs 0 pn this.1
  | groupC g mi ma c => by
    intro pn hpn
    unfold cands at hpn
    rcases List.mem_map.1 hpn with ⟨pn2, hm, rfl⟩
    simpa [leafData] using cands_snd_mem c pn2 hm
  | dupC cs => by
    intro pn hpn
    unfold cands at hpn
    simpa [leafData] using candsSeq_snd_mem cs 0 pn hpn

theorem candsSeq_snd_mem : (cs : List CNode) → ∀ (i : Nat) (pn : List Nat × String),
    pn ∈ candsSeq cs i → pn.2 ∈ (leafDataL cs).map Prod.fst
  | [] => by intro i pn hpn; simp [candsSeq] at hpn
  | c :: rest => by
    intro i pn hpn
    unfold candsSeq at hpn
    rcases List.mem_append.1 hpn with hl | hr
    · by_cases hc : (minOccOf c == 0 && decide (totalL rest > 0)) = true
      · simp [hc] at hl
      · rw [if_neg hc] at hl
        rcases List.mem_map.1 hl with ⟨pn2, hm, rfl⟩
        simp only [leafDataL, List.map_append, List.mem_append]
        exact Or.inl (cands_snd_mem c pn2 hm)
    · simp only [leafDataL, List.map_append, List.mem_append]
      exact Or.inr (candsSeq_snd_mem rest (i + 1) pn hr)

theorem candsAll_snd_mem : (cs : List CNode) → ∀ (i : Nat) (pn : List Nat × String),
    pn ∈ candsAll cs i → pn.2 ∈ (leafDataL cs).map Prod.fst
  | [] => by intro i pn hpn; simp [candsAll] at hpn
  | c :: rest => by
    intro i pn hpn
    unfold candsAll at hpn
    rcases List.mem_append.1 hpn with hl | hr
    · rcases List.mem_map.1 hl with ⟨pn2, hm, rfl⟩
      simp only [leafDataL, List.map_append, List.mem_append]
      exact Or.inl (cands_snd_mem c pn2 hm)
    · simp only [leafDataL, List.map_append, List.mem_append]
      exact Or.inr (candsAll_snd_mem rest (i + 1) pn hr)
end

end CNode

/-- C1 (amended): possible_children_names is the set of names of all Leaves
of the container tree, a superset of the reachable set of the spec's
reachability rule (the source applies no reachability filter): every tag
reachable right now is a possible children name. -/
theorem reachable_subset_possible_names (t : CNode) (n : String)
    (h : n ∈ CNode.reachableNames t) : n ∈ CNode.possibleChildrenNames t := by
  unfold CNode.reachableNames at h
  rcases List.mem_map.1 h with ⟨pn, hpn, rfl⟩
  exact CNode.cands_snd_mem t pn hpn

theorem reachable_subset_possible_names_wit :
    "a" ∈ CNode.reachableNames Gram.gSat ∧ "a" ∈ CNode.possibleChildrenNames Gram.gSat :=
  ⟨by decide, reachable_subset_possible_names Gram.gSat "a" (by decide)⟩

end MusicXml

namespace MusicXml

namespace CNode

theorem setNth_same : ∀ (cs : List CNode) (i : Nat) (c : CNode),
    cs.get? i = some c → setNth cs i c = cs := by
  intro cs
  induction cs with
  | nil => intro i c h; cases i <;> exact Option.noConfusion h
  | cons a cs ih =>
    intro i c h
    cases i with
    | zero =>
      have ha : a = c := Option.some.inj h
      show c :: cs = a :: cs
      rw [ha]
    | succ n =>
      show a :: setNth cs n c = a :: cs
      rw [ih n c h]

theorem get?_setNth_self : ∀ (cs : List CNode) (i : Nat) (c x : CNode),
    cs.get? i = some c → (setNth cs i x).get? i = some x := by
  intro cs
  induction cs with
  | nil => intro i c x h; cases i <;> exact Option.noConfusion h
  | cons a cs ih =>
    intro i c x h
    cases i with
    | zero => rfl
    | succ n => exact ih n c x h

theorem get?_setNth_ne : ∀ (cs : List CNode) (i j : Nat) (x : CNode), i ≠ j →
    (setNth cs i x).get? j = cs.get? j := by
  intro cs
  induction cs with
  | nil => intro i j x hne; cases i <;> rfl
  | cons a cs ih =>
    intro i j x hne
    cases i with
    | zero =>
      cases j with
      | zero => exact absurd rfl hne
      | succ m => rfl
    | succ n =>
      cases j with
      | zero => rfl
      | succ m => exact ih n m x (fun hnm => hne (by rw [hnm]))

theorem dupFreebL_get? : ∀ (cs : List CNode) (i : Nat) (c : CNode),
    dupFreebL cs = true → cs.get? i = some c → dupFreeb c = true := by
  intro cs
  induction cs with
  | nil => intro i c _ h; cases i <;> exact Option.noConfusion h
  | cons a cs ih =>
    intro i c hall h
    unfold dupFreebL at hall
    rw [Bool.and_eq_true] at hall
    cases i with
    | zero =>
      have ha : a = c := Option.some.inj h
      rw [← ha]; exact hall.1
    | succ n => exact ih n c hall.2 h

theorem dupFreebL_setNth : ∀ (cs : List CNode) (i : Nat) (x : CNode),
    dupFreebL cs = true → dupFreeb x = true → dupFreebL (setNth cs i x) = true := by
  intro cs
  induction cs with
  | nil => intro i x h _; exact h
  | cons a cs ih =>
    intro i x hall hx
    unfold dupFreebL at hall
    rw [Bool.and_eq_true] at hall
    cases i with
    | zero =>
      show (dupFreeb x && dupFreebL cs) = true
      rw [Bool.and_eq_true]
      exact ⟨hx, hall.2⟩
    | succ n =>
      show (dupFreeb a && dupFreebL (setNth cs n x)) = true
      rw [Bool.and_eq_true]
      exact ⟨hall.1, ih n x hall.2 hx⟩

/-- detachAt introduces no duplication wrapper. -/
theorem dupFreeb_detachAt : ∀ (p : List Nat) (t : CNode) (r : Nat),
    dupFreeb t = true → dupFreeb (detachAt r t p) = true := by
  intro p
  induction p with
  | nil =>
    intro t r h
    cases t <;> exact h
  | cons i p ih =>
    intro t r h
    cases t with
    | leafE n mi ma rs => exact h
    | seqC mi ma cs =>
      unfold detachAt dupFreeb
      rcases hg : cs.get? i with _ | c
      · simpa [dupFreeb] using h
      · unfold dupFreeb at h
        exact dupFreebL_setNth cs i _ h (ih c r (dupFreebL_get? cs i c h hg))
    | choiceC mi ma ch cs =>
      unfold detachAt dupFreeb
      rcases hg : cs.get? i with _ | c
      · simpa [dupFreeb] using h
      · unfold dupFreeb at h
        exact dupFreebL_setNth cs i _ h (ih c r (dupFreebL_get? cs i c h hg))
    | groupC g mi ma c =>
      unfold detachAt dupFreeb
      unfold dupFreeb at h
      by_cases hi : i = 0
      · simp [hi, ih c r h]
      · simp [hi, h]
    | dupC cs => simp [dupFreeb] at h

/-- On a duplication-free tree the pruning walk is the identity. -/
theorem pruneUp_dupFree : ∀ (q : List Nat) (t : CNode),
    dupFreeb t = true → pruneUp t q = t := by
  intro q
  induction q with
  | nil => intro t _; cases t <;> rfl
  | cons i q ih =>
    intro t h
    cases t with
    | leafE n mi ma rs => rfl
    | seqC mi ma cs =>
      unfold pruneUp
      rcases hg : cs.get? i with _ | c
      · rfl
      · unfold dupFreeb at h
        show seqC mi ma (setNth cs i (pruneUp c q)) = seqC mi ma cs
        rw [ih c (dupFreebL_get? cs i c h hg), setNth_same cs i c hg]
    | choiceC mi ma ch cs =>
      unfold pruneUp
      rcases hg : cs.get? i with _ | c
      · rfl
      · unfold dupFreeb at h
        show choiceC mi ma ch (setNth cs i (pruneUp c q)) = choiceC mi ma ch cs
        rw [ih c (dupFreebL_get? cs i c h hg), setNth_same cs i c hg]
    | groupC g mi ma c =>
      unfold pruneUp
      unfold dupFreeb at h
      by_cases hi : i = 0
      · simp [hi, ih c h]
      · simp [hi]
    | dupC cs => simp [dupFreeb] at h

/-- Stepping detachAt down to the Leaf's parent Choice: the chosen index is
reset exactly when it pointed at the removed Leaf's position. -/
theorem getAt_detachAt_choice : ∀ (q : List Nat) (t : CNode) (i r : Nat)
    (mi : Nat) (ma : Option Nat) (ch : Option Nat) (cs : List CNode),
    getAt t q = some (choiceC mi ma ch cs) →
    ∃ cs2, getAt (detachAt r t (q ++ [i])) q =
      some (choiceC mi ma (if ch = some i then none else ch) cs2) := by
  intro q
  induction q with
  | nil =>
    intro t i r mi ma ch cs hq
    simp [getAt] at hq
    subst hq
    exact ⟨_, rfl⟩
  | cons a q ih =>
    intro t i r mi ma ch cs hq
    cases t with
    | leafE n mi2 ma2 rs => simp [getAt] at hq
    | seqC mi2 ma2 cs2 =>
      simp only [getAt] at hq
      rcases hg : cs2.get? a with _ | c
      · rw [hg] at hq; simp at hq
      · rw [hg] at hq; simp at hq
        rcases ih c i r mi ma ch cs hq with ⟨cs3, hc⟩
        refine ⟨cs3, ?_⟩
        simp only [List.cons_append, detachAt, hg, getAt]
        rw [get?_setNth_self cs2 a c _ hg]
        simpa using hc
    | choiceC mi2 ma2 ch2 cs2 =>
      simp only [getAt] at hq
      rcases hg : cs2.get? a with _ | c
      · rw [hg] at hq; simp at hq
      · rw [hg] at hq; simp at hq
        rcases ih c i r mi ma ch cs hq with ⟨cs3, hc⟩
        refine ⟨cs3, ?_⟩
        simp only [List.cons_append, detachAt, hg, getAt]
        rw [get?_setNth_self cs2 a c _ hg]
        simpa using hc
    | groupC g mi2 ma2 c =>
      simp only [getAt] at hq
      by_cases ha : a = 0
      · rw [if_pos ha] at hq
        rcases ih c i r mi ma ch cs hq with ⟨cs3, hc⟩
        refine ⟨cs3, ?_⟩
        simp only [List.cons_append, detachAt, ha, getAt]
        simpa using hc
      · rw [if_neg ha] at hq; exact absurd hq (by simp)
    | dupC cs2 =>
      simp only [getAt] at hq
      rcases hg : cs2.get? a with _ | c
      · rw [hg] at hq; simp at hq
      · rw [hg] at hq; simp at hq
        rcases ih c i r mi ma ch cs hq with ⟨cs3, hc⟩
        refine ⟨cs3, ?_⟩
        simp only [List.cons_append, detachAt, hg, getAt]
        rw [get?_setNth_self cs2 a c _ hg]
        simpa using hc

end CNode

/-- C2 (amended): on removal of an attached node (duplication-free tree, so
the pruning walk does not interfere), the chosen index of the Leaf's parent
Choice is reset to None exactly when the Leaf is itself the chosen
alternative — unconditionally on how many attachments remain under it; it is
not reset otherwise. -/
theorem removeEl_resets_chosen_iff_leaf_is_chosen (t : CNode) (r : Nat)
    (q : List Nat) (i : Nat) (mi : Nat) (ma : Option Nat) (ch : Option Nat)
    (cs : List CNode)
    (hdf : CNode.dupFreeb t = true)
    (hp : CNode.pathOfRef r t = some (q ++ [i]))
    (hq : CNode.getAt t q = some (CNode.choiceC mi ma ch cs)) :
    ∃ t2 cs2, CNode.removeEl t r = some t2 ∧
      CNode.getAt t2 q =
        some (CNode.choiceC mi ma (if ch = some i then none else ch) cs2) := by
  rcases CNode.getAt_detachAt_choice q t i r mi ma ch cs hq with ⟨cs2, hc⟩
  have hdf2 := CNode.dupFreeb_detachAt (q ++ [i]) t r hdf
  have hkey : CNode.removeEl t r = some (CNode.detachAt r t (q ++ [i])) := by
    unfold CNode.removeEl
    rw [hp]
    show some ((CNode.detachAt r t (q ++ [i])).pruneUp (q ++ [i]).dropLast) = _
    rw [List.dropLast_concat, CNode.pruneUp_dupFree q _ hdf2]
  exact ⟨_, cs2, hkey, hc⟩

theorem removeEl_resets_chosen_iff_leaf_is_chosen_wit :
    CNode.dupFreeb Gram.tCho2 = true ∧
    CNode.pathOfRef 1 Gram.tCho2 = some ([] ++ [0]) ∧
    (∃ t2 cs2, CNode.removeEl Gram.tCho2 1 = some t2 ∧
      CNode.getAt t2 [] =
        some (CNode.choiceC 1 (some 1) (if (some 0 : Option Nat) = some 0 then none else some 0) cs2)) :=
  ⟨by decide, by decide,
    removeEl_resets_chosen_iff_leaf_is_chosen Gram.tCho2 1 [] 0 1 (some 1) (some 0)
      [CNode.leafE "a" 0 (some 2) [1, 2], CNode.leafE "b" 0 (some 1) []]
      (by decide) (by decide) rfl⟩

end MusicXml

namespace MusicXml

namespace CNode

theorem leafDataL_setNth_congr : ∀ (cs : List CNode) (i : Nat) (c x : CNode),
    cs.get? i = some c → leafData x = leafData c →
    leafDataL (setNth cs i x) = leafDataL cs := by
  intro cs
  induction cs with
  | nil => intro i c x h _; cases i <;> exact Option.noConfusion h
  | cons a cs ih =>
    intro i c x h hf
    cases i with
    | zero =>
      have ha : a = c := Option.some.inj h
      show leafDataL (x :: cs) = leafDataL (a :: cs)
      unfold leafDataL
      rw [hf, ha]
    | succ n =>
      show leafDataL (a :: setNth cs n x) = leafDataL (a :: cs)
      unfold leafDataL
      rw [ih n c x h hf]

theorem chosenDataL_setNth_congr : ∀ (cs : List CNode) (i : Nat) (c x : CNode),
    cs.get? i = some c → chosenData x = chosenData c →
    chosenDataL (setNth cs i x) = chosenDataL cs := by
  intro cs
  induction cs with
  | nil => intro i c x h _; cases i <;> exact Option.noConfusion h
  | cons a cs ih =>
    intro i c x h hf
    cases i with
    | zero =>
      have ha : a = c := Option.some.inj h
      show chosenDataL (x :: cs) = chosenDataL (a :: cs)
      unfold chosenDataL
      rw [hf, ha]
    | succ n =>
      show chosenDataL (a :: setNth cs n x) = chosenDataL (a :: cs)
      unfold chosenDataL
      rw [ih n c x h hf]

theorem skelL_setNth_congr : ∀ (cs : List CNode) (i : Nat) (c x : CNode),
    cs.get? i = some c → skel x = skel c →
    skelL (setNth cs i x) = skelL cs := by
  intro cs
  induction cs with
  | nil => intro i c x h _; cases i <;> exact Option.noConfusion h
  | cons a cs ih =>
    intro i c x h hf
    cases i with
    | zero =>
      have ha : a = c := Option.some.inj h
      show skelL (x :: cs) = skelL (a :: cs)
      unfold skelL
      rw [hf, ha]
    | succ n =>
      show skelL (a :: setNth cs n x) = skelL (a :: cs)
      unfold skelL
      rw [ih n c x h hf]

theorem leafData_substAt : ∀ (p : List Nat) (t : CNode) (o nw : Nat),
    leafData (substAt o nw t p) = leafData t := by
  intro p
  induction p with
  | nil =>
    intro t o nw
    cases t <;> simp [substAt, leafData]
  | cons i p ih =>
    intro t o nw
    cases t with
    | leafE n mi ma rs => rfl
    | seqC mi ma cs =>
      rcases hg : cs.get? i with _ | c <;> simp only [substAt, hg]
      unfold leafData
      exact leafDataL_setNth_congr cs i c _ hg (ih c o nw)
    | choiceC mi ma ch cs =>
      rcases hg : cs.get? i with _ | c <;> simp only [substAt, hg]
      unfold leafData
      exact leafDataL_setNth_congr cs i c _ hg (ih c o nw)
    | groupC g mi ma c =>
      by_cases hi : i = 0
      · subst hi
        simp only [substAt, if_pos]
        unfold leafData
        exact ih c o nw
      · simp only [substAt, if_neg hi]
    | dupC cs =>
      rcases hg : cs.get? i with _ | c <;> simp only [substAt, hg]
      unfold leafData
      exact leafDataL_setNth_congr cs i c _ hg (ih c o nw)

theorem chosenData_substAt : ∀ (p : List Nat) (t : CNode) (o nw : Nat),
    chosenData (substAt o nw t p) = chosenData t := by
  intro p
  induction p with
  | nil =>
    intro t o nw
    cases t <;> simp [substAt, chosenData]
  | cons i p ih =>
    intro t o nw
    cases t with
    | leafE n mi ma rs => rfl
    | seqC mi ma cs =>
      rcases hg : cs.get? i with _ | c <;> simp only [substAt, hg]
      unfold chosenData
      exact chosenDataL_setNth_congr cs i c _ hg (ih c o nw)
    | choiceC mi ma ch cs =>
      rcases hg : cs.get? i with _ | c <;> simp only [substAt, hg]
      unfold chosenData
      rw [chosenDataL_setNth_congr cs i c _ hg (ih c o nw)]
    | groupC g mi ma c =>
      by_cases hi : i = 0
      · subst hi
        simp only [substAt, if_pos]
        unfold chosenData
        exact ih c o nw
      · simp only [substAt, if_neg hi]
    | dupC cs =>
      rcases hg : cs.get? i with _ | c <;> simp only [substAt, hg]
      unfold chosenData
      exact chosenDataL_setNth_congr cs i c _ hg (ih c o nw)

theorem skel_substAt : ∀ (p : List Nat) (t : CNode) (o nw : Nat),
    skel (substAt o nw t p) = skel t := by
  intro p
  induction p with
  | nil =>
    intro t o nw
    cases t <;> simp [substAt, skel]
  | cons i p ih =>
    intro t o nw
    cases t with
    | leafE n mi ma rs => rfl
    | seqC mi ma cs =>
      rcases hg : cs.get? i with _ | c <;> simp only [substAt, hg]
      unfold skel
      rw [skelL_setNth_congr cs i c _ hg (ih c o nw)]
    | choiceC mi ma ch cs =>
      rcases hg : cs.get? i with _ | c <;> simp only [substAt, hg]
      unfold skel
      rw [skelL_setNth_congr cs i c _ hg (ih c o nw)]
    | groupC g mi ma c =>
      by_cases hi : i = 0
      · subst hi
        simp only [substAt, if_pos]
        unfold skel
        rw [ih c o nw]
      · simp only [substAt, if_neg hi]
    | dupC cs =>
      rcases hg : cs.get? i with _ | c <;> simp only [substAt, hg]
      unfold skel
      rw [skelL_setNth_congr cs i c _ hg (ih c o nw)]

theorem getAt_substAt_self : ∀ (p : List Nat) (t : CNode) (o nw : Nat)
    (n : String) (mi : Nat) (ma : Option Nat) (rs : List Nat),
    getAt t p = some (leafE n mi ma rs) →
    getAt (substAt o nw t p) p =
      some (leafE n mi ma (rs.map (fun x => if x = o then nw else x))) := by
  intro p
  induction p with
  | nil =>
    intro t o nw n mi ma rs hq
    simp [getAt] at hq
    subst hq
    rfl
  | cons i p ih =>
    intro t o nw n mi ma rs hq
    cases t with
    | leafE n2 mi2 ma2 rs2 => exact absurd hq (by simp [getAt])
    | seqC mi2 ma2 cs =>
      simp only [getAt] at hq
      rcases hg : cs.get? i with _ | c
      · rw [hg] at hq; exact absurd hq (by simp)
      · rw [hg] at hq; simp at hq
        simp only [substAt, hg, getAt]
        rw [get?_setNth_self cs i c _ hg]
        simpa using ih c o nw n mi ma rs hq
    | choiceC mi2 ma2 ch cs =>
      simp only [getAt] at hq
      rcases hg : cs.get? i with _ | c
      · rw [hg] at hq; exact absurd hq (by simp)
      · rw [hg] at hq; simp at hq
        simp only [substAt, hg, getAt]
        rw [get?_setNth_self cs i c _ hg]
        simpa using ih c o nw n mi ma rs hq
    | groupC g mi2 ma2 c =>
      simp only [getAt] at hq
      by_cases hi : i = 0
      · rw [if_pos hi] at hq
        simp only [substAt, hi, if_true, getAt, if_pos]
        exact ih c o nw n mi ma rs hq
      · rw [if_neg hi] at hq; exact absurd hq (by simp)
    | dupC cs =>
      simp only [getAt] at hq
      rcases hg : cs.get? i with _ | c
      · rw [hg] at hq; exact absurd hq (by simp)
      · rw [hg] at hq; simp at hq
        simp only [substAt, hg, getAt]
        rw [get?_setNth_self cs i c _ hg]
        simpa using ih c o nw n mi ma rs hq

theorem getAt_substAt_ne : ∀ (q p : List Nat) (t : CNode) (o nw : Nat)
    (n2 : String) (mi2 : Nat) (ma2 : Option Nat) (rs2 : List Nat), q ≠ p →
    getAt t q = some (leafE n2 mi2 ma2 rs2) →
    getAt (substAt o nw t p) q = some (leafE n2 mi2 ma2 rs2) := by
  intro q
  induction q with
  | nil =>
    intro p t o nw n2 mi2 ma2 rs2 hne hq
    simp [getAt] at hq
    subst hq
    cases p with
    | nil => exact absurd rfl hne
    | cons i p2 => rfl
  | cons b q ih =>
    intro p t o nw n2 mi2 ma2 rs2 hne hq
    cases p with
    | nil =>
      cases t with
      | leafE n mi ma rs => exact absurd hq (by simp [getAt])
      | seqC mi ma cs => exact hq
      | choiceC mi ma ch cs => exact hq
      | groupC g mi ma c => exact hq
      | dupC cs => exact hq
    | cons a p =>
      cases t with
      | leafE n mi ma rs => exact absurd hq (by simp [getAt])
      | seqC mi ma cs =>
        simp only [getAt] at hq
        rcases hgb : cs.get? b with _ | cb
        · rw [hgb] at hq; exact absurd hq (by simp)
        · rw [hgb] at hq; simp at hq
          by_cases hab : a = b
          · subst hab
            have hqp : q ≠ p := fun h => hne (by rw [h])
            simp only [substAt, hgb, getAt]
            rw [get?_setNth_self cs a cb _ hgb]
            simpa using ih p cb o nw n2 mi2 ma2 rs2 hqp hq
          · rcases hga : cs.get? a with _ | ca
            · simp only [substAt, hga, getAt, hgb]
              simpa using hq
            · simp only [substAt, hga, getAt]
              rw [get?_setNth_ne cs a b _ hab, hgb]
              simpa using hq
      | choiceC mi ma ch cs =>
        simp only [getAt] at hq
        rcases hgb : cs.get? b with _ | cb
        · rw [hgb] at hq; exact absurd hq (by simp)
        · rw [hgb] at hq; simp at hq
          by_cases hab : a = b
          · subst hab
            have hqp : q ≠ p := fun h => hne (by rw [h])
            simp only [substAt, hgb, getAt]
            rw [get?_setNth_self cs a cb _ hgb]
            simpa using ih p cb o nw n2 mi2 ma2 rs2 hqp hq
          · rcases hga : cs.get? a with _ | ca
            · simp only [substAt, hga, getAt, hgb]
              simpa using hq
            · simp only [substAt, hga, getAt]
              rw [get?_setNth_ne cs a b _ hab, hgb]
              simpa using hq
      | groupC g mi ma c =>
        simp only [getAt] at hq
        by_cases hb : b = 0
        · rw [if_pos hb] at hq
          by_cases ha : a = 0
          · subst hb; subst ha
            have hqp : q ≠ p := fun h => hne (by rw [h])
            simp only [substAt, if_pos rfl, getAt]
            exact ih p c o nw n2 mi2 ma2 rs2 hqp hq
          · simp only [substAt, if_neg ha, getAt, hb, if_pos]
            exact hq
        · rw [if_neg hb] at hq; exact absurd hq (by simp)
      | dupC cs =>
        simp only [getAt] at hq
        rcases hgb : cs.get? b with _ | cb
        · rw [hgb] at hq; exact absurd hq (by simp)
        · rw [hgb] at hq; simp at hq
          by_cases hab : a = b
          · subst hab
            have hqp : q ≠ p := fun h => hne (by rw [h])
            simp only [substAt, hgb, getAt]
            rw [get?_setNth_self cs a cb _ hgb]
            simpa using ih p cb o nw n2 mi2 ma2 rs2 hqp hq
          · rcases hga : cs.get? a with _ | ca
            · simp only [substAt, hga, getAt, hgb]
              simpa using hq
            · simp only [substAt, hga, getAt]
              rw [get?_setNth_ne cs a b _ hab, hgb]
              simpa using hq

end CNode

/-- C4: replace_child with an attached old substitutes new inside old's Leaf
at the same position and touches nothing else — the tree skeleton (chosen
values, repetition wrappers, bounds), every Leaf's count, and every other
Leaf's attachment list are unchanged; with old absent from the tree it fails
with NotFound (the source's ValueError) and the state is unchanged. -/
theorem replaceChild_frame (s : XState) (old nw : Nat) (t : CNode)
    (hc : s.container = some t) :
    (CNode.pathOfRef old t = none → s.replaceChild old nw = (s, some XErr.notFound)) ∧
    (∀ p n mi ma rs, CNode.pathOfRef old t = some p → old ∈ s.unordered →
      CNode.getAt t p = some (CNode.leafE n mi ma rs) →
      (s.replaceChild old nw).2 = none ∧
      ∃ t2, (s.replaceChild old nw).1.container = some t2 ∧
        CNode.skel t2 = CNode.skel t ∧
        CNode.leafData t2 = CNode.leafData t ∧
        CNode.chosenData t2 = CNode.chosenData t ∧
        CNode.getAt t2 p =
          some (CNode.leafE n mi ma (rs.map (fun x => if x = old then nw else x))) ∧
        ∀ q n2 mi2 ma2 rs2, q ≠ p →
          CNode.getAt t q = some (CNode.leafE n2 mi2 ma2 rs2) →
          CNode.getAt t2 q = some (CNode.leafE n2 mi2 ma2 rs2)) := by
  constructor
  · intro hp
    simp [XState.replaceChild, hc, hp]
  · intro p n mi ma rs hp hu hl
    have hres : s.replaceChild old nw =
        ({ s with container := some (CNode.substAt old nw t p),
                  unordered := XState.replaceOne old nw s.unordered }, none) := by
      simp [XState.replaceChild, hc, hp, hu]
    refine ⟨by rw [hres], CNode.substAt old nw t p, by rw [hres], ?_, ?_, ?_, ?_, ?_⟩
    · exact CNode.skel_substAt p t old nw
    · exact CNode.leafData_substAt p t old nw
    · exact CNode.chosenData_substAt p t old nw
    · exact CNode.getAt_substAt_self p t old nw n mi ma rs hl
    · intro q n2 mi2 ma2 rs2 hne hq
      exact CNode.getAt_substAt_ne q p t old nw n2 mi2 ma2 rs2 hne hq

theorem replaceChild_frame_wit :
    sCho2.container = some Gram.tCho2 ∧
    CNode.pathOfRef 1 Gram.tCho2 = some [0] ∧
    ((sCho2.replaceChild 1 9).2 = none ∧
      ∃ t2, (sCho2.replaceChild 1 9).1.container = some t2 ∧
        CNode.skel t2 = CNode.skel Gram.tCho2 ∧
        CNode.leafData t2 = CNode.leafData Gram.tCho2 ∧
        CNode.chosenData t2 = CNode.chosenData Gram.tCho2 ∧
        CNode.getAt t2 [0] =
          some (CNode.leafE "a" 0 (some 2) ([1, 2].map (fun x => if x = 1 then 9 else x))) ∧
        ∀ q n2 mi2 ma2 rs2, q ≠ [0] →
          CNode.getAt Gram.tCho2 q = some (CNode.leafE n2 mi2 ma2 rs2) →
          CNode.getAt t2 q = some (CNode.leafE n2 mi2 ma2 rs2)) :=
  ⟨rfl, by decide,
    (replaceChild_frame sCho2 1 9 Gram.tCho2 rfl).2 [0] "a" 0 (some 2) [1, 2]
      (by decide) (by decide) rfl⟩

end MusicXml

namespace MusicXml

namespace CNode

theorem satOKbL_get? : ∀ (cs : List CNode) (i : Nat) (c : CNode),
    satOKbL cs = true → cs.get? i = some c → satOKb c = true := by
  intro cs
  induction cs with
  | nil => intro i c _ h; cases i <;> exact Option.noConfusion h
  | cons a cs ih =>
    intro i c hall h
    unfold satOKbL at hall
    rw [Bool.and_eq_true] at hall
    cases i with
    | zero =>
      have ha : a = c := Option.some.inj h
      rw [← ha]; exact hall.1
    | succ n => exact ih n c hall.2 h

theorem satOKbL_setNth : ∀ (cs : List CNode) (i : Nat) (x : CNode),
    satOKbL cs = true → satOKb x = true → satOKbL (setNth cs i x) = true := by
  intro cs
  induction cs with
  | nil => intro i x h _; exact h
  | cons a cs ih =>
    intro i x hall hx
    unfold satOKbL at hall
    rw [Bool.and_eq_true] at hall
    cases i with
    | zero =>
      show (satOKb x && satOKbL cs) = true
      rw [Bool.and_eq_true]
      exact ⟨hx, hall.2⟩
    | succ n =>
      show (satOKb a && satOKbL (setNth cs n x)) = true
      rw [Bool.and_eq_true]
      exact ⟨hall.1, ih n x hall.2 hx⟩

theorem satOKbL_append : ∀ (cs ds : List CNode),
    satOKbL cs = true → satOKbL ds = true → satOKbL (cs ++ ds) = true := by
  intro cs
  induction cs with
  | nil => intro ds _ hd; exact hd
  | cons a cs ih =>
    intro ds hall hd
    unfold satOKbL at hall
    rw [Bool.and_eq_true] at hall
    show (satOKb a && satOKbL (cs ++ ds)) = true
    rw [Bool.and_eq_true]
    exact ⟨hall.1, ih ds hall.2 hd⟩

theorem satOKbL_eraseIdx : ∀ (cs : List CNode) (i : Nat),
    satOKbL cs = true → satOKbL (cs.eraseIdx i) = true := by
  intro cs
  induction cs with
  | nil => intro i h; exact h
  | cons a cs ih =>
    intro i hall
    unfold satOKbL at hall
    rw [Bool.and_eq_true] at hall
    cases i with
    | zero => exact hall.2
    | succ n =>
      show (satOKb a && satOKbL (cs.eraseIdx n)) = true
      rw [Bool.and_eq_true]
      exact ⟨hall.1, ih n hall.2⟩

mutual
theorem satOKb_freshOf : (t : CNode) → satOKb (freshOf t) = true
  | leafE n mi ma rs => by
    unfold freshOf satOKb
    cases ma <;> simp
  | seqC mi ma cs => by
    unfold freshOf satOKb
    exact satOKbL_freshOfL cs
  | choiceC mi ma ch cs => by
    unfold freshOf satOKb
    exact satOKbL_freshOfL cs
  | groupC g mi ma c => by
    unfold freshOf satOKb
    exact satOKb_freshOf c
  | dupC cs => by
    unfold freshOf
    cases cs with
    | nil => rfl
    | cons c cs2 => exact satOKb_freshOf c

theorem satOKbL_freshOfL : (cs : List CNode) → satOKbL (freshOfL cs) = true
  | [] => rfl
  | c :: cs => by
    unfold freshOfL satOKbL
    rw [Bool.and_eq_true]
    exact ⟨satOKb_freshOf c, satOKbL_freshOfL cs⟩
end

theorem satOKb_attachAt : ∀ (p : List Nat) (t : CNode) (r : Nat)
    (n : String) (mi : Nat) (ma : Option Nat) (rs : List Nat),
    getAt t p = some (leafE n mi ma rs) → maxLt rs.length ma = true →
    satOKb t = true → satOKb (attachAt r t p) = true := by
  intro p
  induction p with
  | nil =>
    intro t r n mi ma rs hq hlt hs
    simp [getAt] at hq
    subst hq
    unfold attachAt appendRef satOKb
    cases ma with
    | none => rfl
    | some m =>
      unfold maxLt at hlt
      simp at hlt ⊢
      omega
  | cons i p ih =>
    intro t r n mi ma rs hq hlt hs
    cases t with
    | leafE n2 mi2 ma2 rs2 => exact absurd hq (by simp [getAt])
    | seqC mi2 ma2 cs =>
      simp only [getAt] at hq
      rcases hg : cs.get? i with _ | c
      · rw [hg] at hq; exact absurd hq (by simp)
      · rw [hg] at hq; simp at hq
        unfold satOKb at hs
        simp only [attachAt, hg]
        unfold satOKb
        exact satOKbL_setNth cs i _ hs (ih c r n mi ma rs hq hlt (satOKbL_get? cs i c hs hg))
    | choiceC mi2 ma2 ch cs =>
      simp only [getAt] at hq
      rcases hg : cs.get? i with _ | c
      · rw [hg] at hq; exact absurd hq (by simp)
      · rw [hg] at hq; simp at hq
        unfold satOKb at hs
        simp only [attachAt, hg]
        unfold satOKb
        exact satOKbL_setNth cs i _ hs (ih c r n mi ma rs hq hlt (satOKbL_get? cs i c hs hg))
    | groupC g mi2 ma2 c =>
      simp only [getAt] at hq
      by_cases hi : i = 0
      · rw [if_pos hi] at hq
        unfold satOKb at hs
        simp only [attachAt, hi, if_pos]
        unfold satOKb
        exact ih c r n mi ma rs hq hlt hs
      · rw [if_neg hi] at hq; exact absurd hq (by simp)
    | dupC cs =>
      simp only [getAt] at hq
      rcases hg : cs.get? i with _ | c
      · rw [hg] at hq; exact absurd hq (by simp)
      · rw [hg] at hq; simp at hq
        unfold satOKb at hs
        simp only [attachAt, hg]
        unfold satOKb
        exact satOKbL_setNth cs i _ hs (ih c r n mi ma rs hq hlt (satOKbL_get? cs i c hs hg))

theorem satOKb_duplicateAt : ∀ (p : List Nat) (t : CNode),
    satOKb t = true → satOKb (duplicateAt t p) = true := by
  intro p
  induction p with
  | nil =>
    intro t hs
    cases t with
    | dupC cs =>
      unfold duplicateAt
      cases cs with
      | nil => rfl
      | cons c cs2 =>
        show satOKbL ((c :: cs2) ++ [freshOf c]) = true
        exact satOKbL_append _ _ hs (by
          show (satOKb (freshOf c) && satOKbL []) = true
          rw [Bool.and_eq_true]
          exact ⟨satOKb_freshOf c, rfl⟩)
    | leafE n mi ma rs =>
      show (satOKb (leafE n mi ma rs) && satOKbL [freshOf (leafE n mi ma rs)]) = true
      rw [Bool.and_eq_true]
      refine ⟨hs, ?_⟩
      show (satOKb (freshOf (leafE n mi ma rs)) && satOKbL []) = true
      rw [Bool.and_eq_true]
      exact ⟨satOKb_freshOf _, rfl⟩
    | seqC mi ma cs =>
      show (satOKb (seqC mi ma cs) && satOKbL [freshOf (seqC mi ma cs)]) = true
      rw [Bool.and_eq_true]
      refine ⟨hs, ?_⟩
      show (satOKb (freshOf (seqC mi ma cs)) && satOKbL []) = true
      rw [Bool.and_eq_true]
      exact ⟨satOKb_freshOf _, rfl⟩
    | choiceC mi ma ch cs =>
      show (satOKb (choiceC mi ma ch cs) && satOKbL [freshOf (choiceC mi ma ch cs)]) = true
      rw [Bool.and_eq_true]
      refine ⟨hs, ?_⟩
      show (satOKb (freshOf (choiceC mi ma ch cs)) && satOKbL []) = true
      rw [Bool.and_eq_true]
      exact ⟨satOKb_freshOf _, rfl⟩
    | groupC g mi ma c =>
      show (satOKb (groupC g mi ma c) && satOKbL [freshOf (groupC g mi ma c)]) = true
      rw [Bool.and_eq_true]
      refine ⟨hs, ?_⟩
      show (satOKb (freshOf (groupC g mi ma c)) && satOKbL []) = true
      rw [Bool.and_eq_true]
      exact ⟨satOKb_freshOf _, rfl⟩
  | cons i p ih =>
    intro t hs
    cases t with
    | leafE n mi ma rs => exact hs
    | seqC mi ma cs =>
      unfold satOKb at hs
      rcases hg : cs.get? i with _ | c <;> simp only [duplicateAt, hg]
      · exact hs
      · unfold satOKb
        exact satOKbL_setNth cs i _ hs (ih c (satOKbL_get? cs i c hs hg))
    | choiceC mi ma ch cs =>
      unfold satOKb at hs
      rcases hg : cs.get? i with _ | c <;> simp only [duplicateAt, hg]
      · exact hs
      · unfold satOKb
        exact satOKbL_setNth cs i _ hs (ih c (satOKbL_get? cs i c hs hg))
    | groupC g mi ma c =>
      unfold satOKb at hs
      by_cases hi : i = 0
      · subst hi
        simp only [duplicateAt, if_pos]
        unfold satOKb
        exact ih c hs
      · simp only [duplicateAt, if_neg hi]
        exact hs
    | dupC cs =>
      unfold satOKb at hs
      rcases hg : cs.get? i with _ | c <;> simp only [duplicateAt, hg]
      · exact hs
      · unfold satOKb
        exact satOKbL_setNth cs i _ hs (ih c (satOKbL_get? cs i c hs hg))

theorem satOKb_detachAt : ∀ (p : List Nat) (t : CNode) (r : Nat),
    satOKb t = true → satOKb (detachAt r t p) = true := by
  intro p
  induction p with
  | nil =>
    intro t r hs
    cases t with
    | leafE n mi ma rs =>
      show satOKb (leafE n mi ma (rs.erase r)) = true
      unfold satOKb at hs ⊢
      cases ma with
      | none => rfl
      | some m =>
        simp at hs ⊢
        have := (rs.erase_sublist r).length_le
        omega
    | seqC mi ma cs => exact hs
    | choiceC mi ma ch cs => exact hs
    | groupC g mi ma c => exact hs
    | dupC cs => exact hs
  | cons i p ih =>
    intro t r hs
    cases t with
    | leafE n mi ma rs => exact hs
    | seqC mi ma cs =>
      unfold satOKb at hs
      rcases hg : cs.get? i with _ | c <;> simp only [detachAt, hg]
      · exact hs
      · unfold satOKb
        exact satOKbL_setNth cs i _ hs (ih c r (satOKbL_get? cs i c hs hg))
    | choiceC mi ma ch cs =>
      unfold satOKb at hs
      rcases hg : cs.get? i with _ | c <;> simp only [detachAt, hg]
      · exact hs
      · unfold satOKb
        exact satOKbL_setNth cs i _ hs (ih c r (satOKbL_get? cs i c hs hg))
    | groupC g mi ma c =>
      unfold satOKb at hs
      by_cases hi : i = 0
      · subst hi
        simp only [detachAt, if_pos]
        unfold satOKb
        exact ih c r hs
      · simp only [detachAt, if_neg hi]
        exact hs
    | dupC cs =>
      unfold satOKb at hs
      rcases hg : cs.get? i with _ | c <;> simp only [detachAt, hg]
      · exact hs
      · unfold satOKb
        exact satOKbL_setNth cs i _ hs (ih c r (satOKbL_get? cs i c hs hg))

theorem satOKb_pruneUp : ∀ (q : List Nat) (t : CNode),
    satOKb t = true → satOKb (pruneUp t q) = true := by
  intro q
  induction q with
  | nil => intro t hs; cases t <;> exact hs
  | cons i q ih =>
    intro t hs
    cases t with
    | leafE n mi ma rs => exact hs
    | seqC mi ma cs =>
      unfold satOKb at hs
      rcases hg : cs.get? i with _ | c <;> simp only [pruneUp, hg]
      · exact hs
      · unfold satOKb
        exact satOKbL_setNth cs i _ hs (ih c (satOKbL_get? cs i c hs hg))
    | choiceC mi ma ch cs =>
      unfold satOKb at hs
      rcases hg : cs.get? i with _ | c <;> simp only [pruneUp, hg]
      · exact hs
      · unfold satOKb
        exact satOKbL_setNth cs i _ hs (ih c (satOKbL_get? cs i c hs hg))
    | groupC g mi ma c =>
      unfold satOKb at hs
      by_cases hi : i = 0
      · subst hi
        simp only [pruneUp, if_pos]
        unfold satOKb
        exact ih c hs
      · simp only [pruneUp, if_neg hi]
        exact hs
    | dupC cs =>
      unfold satOKb at hs
      rcases hg : cs.get? i with _ | c <;> simp only [pruneUp, hg]
      · exact hs
      · by_cases hcond : (decide (cs.length > 1) && (firstLeafCount (pruneUp c q) == some 0)) = true
        · simp only [hcond, if_pos]
          exact satOKbL_eraseIdx cs i hs
        · simp only [hcond]
          simp only [Bool.not_eq_true] at hcond
          rw [if_neg (by simp [hcond])]
          unfold satOKb
          exact satOKbL_setNth cs i _ hs (ih c (satOKbL_get? cs i c hs hg))

theorem satOKb_substAt : ∀ (p : List Nat) (t : CNode) (o nw : Nat),
    satOKb t = true → satOKb (substAt o nw t p) = true := by
  intro p
  induction p with
  | nil =>
    intro t o nw hs
    cases t with
    | leafE n mi ma rs =>
      show satOKb (leafE n mi ma (rs.map _)) = true
      unfold satOKb at hs ⊢
      cases ma with
      | none => rfl
      | some m => simpa using hs
    | seqC mi ma cs => exact hs
    | choiceC mi ma ch cs => exact hs
    | groupC g mi ma c => exact hs
    | dupC cs => exact hs
  | cons i p ih =>
    intro t o nw hs
    cases t with
    | leafE n mi ma rs => exact hs
    | seqC mi ma cs =>
      unfold satOKb at hs
      rcases hg : cs.get? i with _ | c <;> simp only [substAt, hg]
      · exact hs
      · unfold satOKb
        exact satOKbL_setNth cs i _ hs (ih c o nw (satOKbL_get? cs i c hs hg))
    | choiceC mi ma ch cs =>
      unfold satOKb at hs
      rcases hg : cs.get? i with _ | c <;> simp only [substAt, hg]
      · exact hs
      · unfold satOKb
        exact satOKbL_setNth cs i _ hs (ih c o nw (satOKbL_get? cs i c hs hg))
    | groupC g mi ma c =>
      unfold satOKb at hs
      by_cases hi : i = 0
      · subst hi
        simp only [substAt, if_pos]
        unfold satOKb
        exact ih c o nw hs
      · simp only [substAt, if_neg hi]
        exact hs
    | dupC cs =>
      unfold satOKb at hs
      rcases hg : cs.get? i with _ | c <;> simp only [substAt, hg]
      · exact hs
      · unfold satOKb
        exact satOKbL_setNth cs i _ hs (ih c o nw (satOKbL_get? cs i c hs hg))

end CNode

end MusicXml

namespace MusicXml

namespace CNode

mutual
/-- Soundness of the reachability computation: every candidate names an
existing, unsaturated Leaf at its path. -/
theorem cands_sound : (t : CNode) → ∀ pn : List Nat × String, pn ∈ cands t →
    ∃ mi ma rs, getAt t pn.1 = some (leafE pn.2 mi ma rs) ∧ maxLt rs.length ma = true
  | leafE n mi ma rs => by
    intro pn hpn
    unfold cands at hpn
    by_cases hx : maxLt rs.length ma = true
    · simp [hx] at hpn
      subst hpn
      exact ⟨mi, ma, rs, rfl, hx⟩
    · simp [hx] at hpn
  | seqC mi ma cs => by
    intro pn hpn
    unfold cands at hpn
    rcases candsSeq_sound cs 0 pn hpn with ⟨j, c, p2, mi2, ma2, rs2, hp, hg, hga, hs⟩
    refine ⟨mi2, ma2, rs2, ?_, hs⟩
    simp only [Nat.zero_add] at hp
    rw [hp]
    simp only [getAt]
    rw [hg]
    simpa using hga
  | choiceC mi ma ch cs => by
    intro pn hpn
    unfold cands at hpn
    have hpn2 : pn ∈ candsAll cs 0 := by
      cases ch with
      | none => exact hpn
      | some k => exact (List.mem_filter.1 hpn).1
    rcases candsAll_sound cs 0 pn hpn2 with ⟨j, c, p2, mi2, ma2, rs2, hp, hg, hga, hs⟩
    refine ⟨mi2, ma2, rs2, ?_, hs⟩
    simp only [Nat.zero_add] at hp
    rw [hp]
    simp only [getAt]
    rw [hg]
    simpa using hga
  | groupC g mi ma c => by
    intro pn hpn
    unfold cands at hpn
    rcases List.mem_map.1 hpn with ⟨pn2, hm, he⟩
    rcases cands_sound c pn2 hm with ⟨mi2, ma2, rs2, hga, hs⟩
    refine ⟨mi2, ma2, rs2, ?_, hs⟩
    rw [← he]
    simpa [getAt] using hga
  | dupC cs => by
    intro pn hpn
    unfold cands at hpn
    rcases candsSeq_sound cs 0 pn hpn with ⟨j, c, p2, mi2, ma2, rs2, hp, hg, hga, hs⟩
    refine ⟨mi2, ma2, rs2, ?_, hs⟩
    simp only [Nat.zero_add] at hp
    rw [hp]
    simp only [getAt]
    rw [hg]
    simpa using hga

theorem candsSeq_sound : (cs : List CNode) → ∀ (i : Nat) (pn : List Nat × String),
    pn ∈ candsSeq cs i →
    ∃ j c p2 mi2 ma2 rs2, pn.1 = (i + j) :: p2 ∧ cs.get? j = some c ∧
      getAt c p2 = some (leafE pn.2 mi2 ma2 rs2) ∧ maxLt rs2.length ma2 = true
  | [] => by intro i pn hpn; simp [candsSeq] at hpn
  | c :: rest => by
    intro i pn hpn
    unfold candsSeq at hpn
    rcases List.mem_append.1 hpn with hl | hr
    · by_cases hc : (minOccOf c == 0 && decide (totalL rest > 0)) = true
      · simp [hc] at hl
      · rw [if_neg hc] at hl
        rcases List.mem_map.1 hl with ⟨pn2, hm, he⟩
        rcases cands_sound c pn2 hm with ⟨mi2, ma2, rs2, hga, hs⟩
        refine ⟨0, c, pn2.1, mi2, ma2, rs2, ?_, rfl, ?_, hs⟩
        · rw [← he]; simp
        · rw [← he]; simpa using hga
    · rcases candsSeq_sound rest (i + 1) pn hr with ⟨j, c2, p2, mi2, ma2, rs2, hp, hg, hga, hs⟩
      refine ⟨j + 1, c2, p2, mi2, ma2, rs2, ?_, hg, hga, hs⟩
      rw [hp]
      have harith : i + (j + 1) = i + 1 + j := by omega
      rw [harith]

theorem candsAll_sound : (cs : List CNode) → ∀ (i : Nat) (pn : List Nat × String),
    pn ∈ candsAll cs i →
    ∃ j c p2 mi2 ma2 rs2, pn.1 = (i + j) :: p2 ∧ cs.get? j = some c ∧
      getAt c p2 = some (leafE pn.2 mi2 ma2 rs2) ∧ maxLt rs2.length ma2 = true
  | [] => by intro i pn hpn; simp [candsAll] at hpn
  | c :: rest => by
    intro i pn hpn
    unfold candsAll at hpn
    rcases List.mem_append.1 hpn with hl | hr
    · rcases List.mem_map.1 hl with ⟨pn2, hm, he⟩
      rcases cands_sound c pn2 hm with ⟨mi2, ma2, rs2, hga, hs⟩
      refine ⟨0, c, pn2.1, mi2, ma2, rs2, ?_, rfl, ?_, hs⟩
      · rw [← he]; simp
      · rw [← he]; simpa using hga
    · rcases candsAll_sound rest (i + 1) pn hr with ⟨j, c2, p2, mi2, ma2, rs2, hp, hg, hga, hs⟩
      refine ⟨j + 1, c2, p2, mi2, ma2, rs2, ?_, hg, hga, hs⟩
      rw [hp]
      have harith : i + (j + 1) = i + 1 + j := by omega
      rw [harith]
end

/-- The candidate fact in the form used by the preservation lemmas. -/
theorem cands_sound_getAt (t : CNode) (pn : List Nat × String) (h : pn ∈ cands t) :
    ∃ mi ma rs, getAt t pn.1 = some (leafE pn.2 mi ma rs) ∧ maxLt rs.length ma = true :=
  cands_sound t pn h

/-- A successful add preserves the saturation invariant: it attaches only at
a reachable (hence unsaturated) Leaf, possibly after materializing a fresh
repetition. -/
theorem satOKb_addEl (t : CNode) (tag : String) (fwd : Option Nat) (r : Nat)
    (t2 : CNode) (p : List Nat) (hadd : addEl t tag fwd r = some (t2, p))
    (hs : satOKb t = true) : satOKb t2 = true := by
  unfold addEl at hadd
  rcases hcf : candsFor t tag with _ | ⟨pn0, pns⟩
  · rw [hcf] at hadd
    rcases hdt : dupTs tag true t with _ | ⟨q, qs⟩
    · rw [hdt] at hadd
      exact Option.noConfusion hadd
    · rw [hdt] at hadd
      rcases hcf2 : (candsFor (duplicateAt t q) tag).get? (fwd.getD 0) with _ | pn
      · simp only [hcf2] at hadd
        exact Option.noConfusion hadd
      · simp only [hcf2] at hadd
        have hmem : pn ∈ candsFor (duplicateAt t q) tag := List.get?_mem hcf2
        have hmem2 : pn ∈ cands (duplicateAt t q) := (List.mem_filter.1 hmem).1
        rcases cands_sound _ pn hmem2 with ⟨mi2, ma2, rs2, hga, hlt⟩
        have hsd := satOKb_duplicateAt q t hs
        injection hadd with hpair
        injection hpair with h1 h2
        rw [← h1]
        exact satOKb_attachAt pn.1 _ r pn.2 mi2 ma2 rs2 hga hlt hsd
  · rw [hcf] at hadd
    rcases hget : (pn0 :: pns).get? (fwd.getD 0) with _ | pn
    · simp only [hget] at hadd
      exact Option.noConfusion hadd
    · simp only [hget] at hadd
      have hmem : pn ∈ candsFor t tag := by
        rw [hcf]
        exact List.get?_mem hget
      have hmem2 : pn ∈ cands t := (List.mem_filter.1 hmem).1
      rcases cands_sound t pn hmem2 with ⟨mi2, ma2, rs2, hga, hlt⟩
      injection hadd with hpair
      injection hpair with h1 h2
      rw [← h1]
      exact satOKb_attachAt pn.1 t r pn.2 mi2 ma2 rs2 hga hlt hs

/-- remove preserves the saturation invariant. -/
theorem satOKb_removeEl (t : CNode) (r : Nat) (t2 : CNode)
    (hrem : removeEl t r = some t2) (hs : satOKb t = true) : satOKb t2 = true := by
  unfold removeEl at hrem
  rcases hp : pathOfRef r t with _ | p
  · rw [hp] at hrem; exact Option.noConfusion hrem
  · rw [hp] at hrem
    simp at hrem
    rw [← hrem]
    exact satOKb_pruneUp _ _ (satOKb_detachAt p t r hs)

mutual
theorem satOKb_of_grammarOK : (t : CNode) → grammarOKb t = true → satOKb t = true
  | leafE n mi ma rs => by
    intro hg
    unfold grammarOKb at hg
    unfold satOKb
    rw [List.isEmpty_iff] at hg
    subst hg
    cases ma <;> simp
  | seqC mi ma cs => by
    intro hg
    exact satOKbL_of_grammarOKL cs hg
  | choiceC mi ma ch cs => by
    intro hg
    unfold grammarOKb at hg
    rw [Bool.and_eq_true] at hg
    exact satOKbL_of_grammarOKL cs hg.2
  | groupC g mi ma c => by
    intro hg
    exact satOKb_of_grammarOK c hg
  | dupC cs => by
    intro hg
    exact absurd hg (by simp [grammarOKb])

theorem satOKbL_of_grammarOKL : (cs : List CNode) → grammarOKbL cs = true → satOKbL cs = true
  | [] => by intro; rfl
  | c :: cs => by
    intro hg
    unfold grammarOKbL at hg
    rw [Bool.and_eq_true] at hg
    show (satOKb c && satOKbL cs) = true
    rw [Bool.and_eq_true]
    exact ⟨satOKb_of_grammarOK c hg.1, satOKbL_of_grammarOKL cs hg.2⟩
end

end CNode

/-- One operation preserves the saturation invariant of the state. -/
theorem stateSatOK_step (s : XState) (op : Op) (hs : stateSatOK s = true) :
    stateSatOK (stepOp s op) = true := by
  cases op with
  | add r tag fwd =>
    rcases hc : s.container with _ | t
    · simp only [stepOp, applyOp, XState.addChild, hc]
      exact hs
    · rcases ha : CNode.addEl t tag fwd r with _ | ⟨t2, p⟩
      · simp only [stepOp, applyOp, XState.addChild, hc, ha]
        exact hs
      · simp only [stepOp, applyOp, XState.addChild, hc, ha]
        unfold stateSatOK at hs ⊢
        rw [hc] at hs
        exact CNode.satOKb_addEl t tag fwd r t2 p ha hs
  | rem r =>
    by_cases hm : r ∈ s.unordered
    · rcases hc : s.container with _ | t
      · simp [stepOp, applyOp, XState.removeChild, hm, hc, stateSatOK]
      · rcases hr : CNode.removeEl t r with _ | t2
        · simp only [stepOp, applyOp, XState.removeChild, hm, if_true, hc, hr]
          unfold stateSatOK at hs ⊢
          rw [hc] at hs
          exact hs
        · simp only [stepOp, applyOp, XState.removeChild, hm, if_true, hc, hr]
          unfold stateSatOK at hs ⊢
          rw [hc] at hs
          exact CNode.satOKb_removeEl t r t2 hr hs
    · simpa [stepOp, applyOp, XState.removeChild, hm] using hs
  | repl old nw =>
    rcases hc : s.container with _ | t
    · simpa [stepOp, applyOp, XState.replaceChild, hc] using hs
    · rcases hp : CNode.pathOfRef old t with _ | p
      · simp only [stepOp, applyOp, XState.replaceChild, hc, hp]
        simpa [stateSatOK, hc] using hs
      · by_cases hu : old ∈ s.unordered
        · simp only [stepOp, applyOp, XState.replaceChild, hc, hp, hu, if_true]
          unfold stateSatOK at hs ⊢
          rw [hc] at hs
          exact CNode.satOKb_substAt p t old nw hs
        · simp only [stepOp, applyOp, XState.replaceChild, hc, hp, hu, if_false]
          simpa [stateSatOK, hc] using hs

/-- C6: starting from any compiled grammar, after any sequence of child
operations no Leaf holds more attachments than its bound's max; in
particular an add for a saturated tag either fails with NoMatchingSlot or
attaches into a fresh duplicated repetition, never overfilling a Leaf. -/
theorem leaf_attachments_bounded (g : CNode) (ops : List Op)
    (hg : CNode.grammarOKb g = true) :
    stateSatOK (runOps (initSt g) ops) = true := by
  have h0 : stateSatOK (initSt g) = true := by
    unfold stateSatOK initSt
    exact CNode.satOKb_of_grammarOK g hg
  clear hg
  have hall : ∀ (l : List Op) (s : XState), stateSatOK s = true →
      stateSatOK (runOps s l) = true := by
    intro l
    induction l with
    | nil => intro s h; exact h
    | cons op l ih => intro s h; exact ih _ (stateSatOK_step s op h)
  exact hall ops _ h0

end MusicXml

namespace MusicXml

theorem leaf_attachments_bounded_wit :
    CNode.grammarOKb Gram.gDupAB = true ∧
    stateSatOK (runOps (initSt Gram.gDupAB)
      [Op.add 1 "a" none, Op.add 2 "b" none, Op.add 3 "a" none, Op.rem 2]) = true :=
  ⟨by decide,
    leaf_attachments_bounded Gram.gDupAB
      [Op.add 1 "a" none, Op.add 2 "b" none, Op.add 3 "a" none, Op.rem 2] (by decide)⟩

end MusicXml

namespace MusicXml

namespace CNode

theorem chosenOKbL_get? : ∀ (cs : List CNode) (i : Nat) (c : CNode),
    chosenOKbL cs = true → cs.get? i = some c → chosenOKb c = true := by
  intro cs
  induction cs with
  | nil => intro i c _ h; cases i <;> exact Option.noConfusion h
  | cons a cs ih =>
    intro i c hall h
    unfold chosenOKbL at hall
    rw [Bool.and_eq_true] at hall
    cases i with
    | zero =>
      have ha : a = c := Option.some.inj h
      rw [← ha]; exact hall.1
    | succ n => exact ih n c hall.2 h

theorem chosenOKbL_setNth : ∀ (cs : List CNode) (i : Nat) (x : CNode),
    chosenOKbL cs = true → chosenOKb x = true → chosenOKbL (setNth cs i x) = true := by
  intro cs
  induction cs with
  | nil => intro i x h _; exact h
  | cons a cs ih =>
    intro i x hall hx
    unfold chosenOKbL at hall
    rw [Bool.and_eq_true] at hall
    cases i with
    | zero =>
      show (chosenOKb x && chosenOKbL cs) = true
      rw [Bool.and_eq_true]
      exact ⟨hx, hall.2⟩
    | succ n =>
      show (chosenOKb a && chosenOKbL (setNth cs n x)) = true
      rw [Bool.and_eq_true]
      exact ⟨hall.1, ih n x hall.2 hx⟩

theorem chosenOKbL_append : ∀ (cs ds : List CNode),
    chosenOKbL cs = true → chosenOKbL ds = true → chosenOKbL (cs ++ ds) = true := by
  intro cs
  induction cs with
  | nil => intro ds _ hd; exact hd
  | cons a cs ih =>
    intro ds hall hd
    unfold chosenOKbL at hall
    rw [Bool.and_eq_true] at hall
    show (chosenOKb a && chosenOKbL (cs ++ ds)) = true
    rw [Bool.and_eq_true]
    exact ⟨hall.1, ih ds hall.2 hd⟩

theorem chosenOKbL_eraseIdx : ∀ (cs : List CNode) (i : Nat),
    chosenOKbL cs = true → chosenOKbL (cs.eraseIdx i) = true := by
  intro cs
  induction cs with
  | nil => intro i h; exact h
  | cons a cs ih =>
    intro i hall
    unfold chosenOKbL at hall
    rw [Bool.and_eq_true] at hall
    cases i with
    | zero => exact hall.2
    | succ n =>
      show (chosenOKb a && chosenOKbL (cs.eraseIdx n)) = true
      rw [Bool.and_eq_true]
      exact ⟨hall.1, ih n hall.2⟩

theorem chosenOKat_of_ne (cs : List CNode) (i k : Nat) (x : CNode) (hne : i ≠ k) :
    chosenOKat (setNth cs i x) (some k) = chosenOKat cs (some k) := by
  simp only [chosenOKat]
  rw [get?_setNth_ne cs i k x hne]

theorem chosenOKat_some_elim (cs : List CNode) (k : Nat)
    (h : chosenOKat cs (some k) = true) :
    ∃ n mi ma rs, cs.get? k = some (leafE n mi ma rs) ∧ rs ≠ [] := by
  simp only [chosenOKat] at h
  rcases hg : cs.get? k with _ | c
  · rw [hg] at h; exact Bool.noConfusion h
  · rw [hg] at h
    cases c with
    | leafE n mi ma rs =>
      refine ⟨n, mi, ma, rs, rfl, ?_⟩
      simpa using h
    | seqC mi ma cs2 => exact Bool.noConfusion h
    | choiceC mi ma ch cs2 => exact Bool.noConfusion h
    | groupC g mi ma c2 => exact Bool.noConfusion h
    | dupC cs2 => exact Bool.noConfusion h

theorem chosenOKat_intro (cs : List CNode) (k : Nat) (n : String) (mi : Nat)
    (ma : Option Nat) (rs : List Nat) (hg : cs.get? k = some (leafE n mi ma rs))
    (hne : rs ≠ []) : chosenOKat cs (some k) = true := by
  simp only [chosenOKat]
  rw [hg]
  simpa using hne

mutual
theorem chosenOKb_freshOf : (t : CNode) → chosenOKb (freshOf t) = true
  | leafE n mi ma rs => rfl
  | seqC mi ma cs => by
    unfold freshOf chosenOKb
    exact chosenOKbL_freshOfL cs
  | choiceC mi ma ch cs => by
    unfold freshOf chosenOKb
    rw [Bool.and_eq_true]
    exact ⟨rfl, chosenOKbL_freshOfL cs⟩
  | groupC g mi ma c => by
    unfold freshOf chosenOKb
    exact chosenOKb_freshOf c
  | dupC cs => by
    unfold freshOf
    cases cs with
    | nil => rfl
    | cons c cs2 => exact chosenOKb_freshOf c

theorem chosenOKbL_freshOfL : (cs : List CNode) → chosenOKbL (freshOfL cs) = true
  | [] => rfl
  | c :: cs => by
    unfold freshOfL chosenOKbL
    rw [Bool.and_eq_true]
    exact ⟨chosenOKb_freshOf c, chosenOKbL_freshOfL cs⟩
end

end CNode

end MusicXml

namespace MusicXml

namespace CNode

theorem chosenOKb_eraseRef (r : Nat) (c : CNode) (h : chosenOKb c = true) :
    chosenOKb (eraseRef r c) = true := by
  cases c <;> exact h

theorem chosenOKb_detachAt : ∀ (p : List Nat) (t : CNode) (r : Nat),
    chosenOKb t = true → chosenOKb (detachAt r t p) = true := by
  intro p
  induction p with
  | nil =>
    intro t r hs
    cases t <;> exact hs
  | cons i p ih =>
    intro t r hs
    cases t with
    | leafE n mi ma rs => exact hs
    | seqC mi ma cs =>
      unfold chosenOKb at hs
      rcases hg : cs.get? i with _ | c <;> simp only [detachAt, hg]
      · exact hs
      · unfold chosenOKb
        exact chosenOKbL_setNth cs i _ hs (ih c r (chosenOKbL_get? cs i c hs hg))
    | groupC g mi ma c =>
      unfold chosenOKb at hs
      by_cases hi : i = 0
      · subst hi
        simp only [detachAt, if_pos]
        unfold chosenOKb
        exact ih c r hs
      · simp only [detachAt, if_neg hi]
        exact hs
    | dupC cs =>
      unfold chosenOKb at hs
      rcases hg : cs.get? i with _ | c <;> simp only [detachAt, hg]
      · exact hs
      · unfold chosenOKb
        exact chosenOKbL_setNth cs i _ hs (ih c r (chosenOKbL_get? cs i c hs hg))
    | choiceC mi ma ch cs =>
      unfold chosenOKb at hs
      rw [Bool.and_eq_true] at hs
      rcases hg : cs.get? i with _ | c
      case choiceC.none =>
        cases p with
        | nil =>
          simp only [detachAt, hg]
          unfold chosenOKb
          rw [Bool.and_eq_true]
          refine ⟨?_, hs.2⟩
          by_cases heq : ch = some i
          · rw [if_pos heq]; rfl
          · rw [if_neg heq]
            exact hs.1
        | cons p1 p2 =>
          simp only [detachAt, hg]
          unfold chosenOKb
          rw [Bool.and_eq_true]
          exact ⟨hs.1, hs.2⟩
      case choiceC.some =>
        cases p with
        | nil =>
          simp only [detachAt, hg]
          unfold chosenOKb
          rw [Bool.and_eq_true]
          constructor
          · by_cases heq : ch = some i
            · rw [if_pos heq]; rfl
            · rw [if_neg heq]
              cases ch with
              | none => rfl
              | some k =>
                have hki : i ≠ k := fun h => heq (by rw [h])
                rw [chosenOKat_of_ne cs i k _ hki]
                exact hs.1
          · exact chosenOKbL_setNth cs i _ hs.2
              (chosenOKb_eraseRef r c (chosenOKbL_get? cs i c hs.2 hg))
        | cons p1 p2 =>
          simp only [detachAt, hg]
          unfold chosenOKb
          rw [Bool.and_eq_true]
          constructor
          · cases ch with
            | none => rfl
            | some k =>
              by_cases hki : k = i
              · subst hki
                rcases chosenOKat_some_elim cs k hs.1 with ⟨n2, mi2, ma2, rs2, hgk, hne⟩
                have hc : c = leafE n2 mi2 ma2 rs2 := by
                  rw [hg] at hgk
                  exact Option.some.inj hgk
                subst hc
                refine chosenOKat_intro (setNth cs k _) k n2 mi2 ma2 rs2 ?_ hne
                exact get?_setNth_self cs k _ _ hg
              · have hik : i ≠ k := fun h => hki (by rw [h])
                rw [chosenOKat_of_ne cs i k _ hik]
                exact hs.1
          · exact chosenOKbL_setNth cs i _ hs.2 (ih c r (chosenOKbL_get? cs i c hs.2 hg))

end CNode

end MusicXml

namespace MusicXml

namespace CNode

theorem pruneUp_leaf (q : List Nat) (n : String) (mi : Nat) (ma : Option Nat)
    (rs : List Nat) : pruneUp (leafE n mi ma rs) q = leafE n mi ma rs := by
  cases q <;> rfl

theorem substAt_leaf_of_ne_nil (p : List Nat) (o nw : Nat) (n : String) (mi : Nat)
    (ma : Option Nat) (rs : List Nat) (h : p ≠ []) :
    substAt o nw (leafE n mi ma rs) p = leafE n mi ma rs := by
  cases p with
  | nil => exact absurd rfl h
  | cons a p2 => rfl

theorem chosenOKb_pruneUp : ∀ (q : List Nat) (t : CNode),
    chosenOKb t = true → chosenOKb (pruneUp t q) = true := by
  intro q
  induction q with
  | nil => intro t hs; cases t <;> exact hs
  | cons i q ih =>
    intro t hs
    cases t with
    | leafE n mi ma rs => exact hs
    | seqC mi ma cs =>
      unfold chosenOKb at hs
      rcases hg : cs.get? i with _ | c <;> simp only [pruneUp, hg]
      · exact hs
      · unfold chosenOKb
        exact chosenOKbL_setNth cs i _ hs (ih c (chosenOKbL_get? cs i c hs hg))
    | groupC g mi ma c =>
      unfold chosenOKb at hs
      by_cases hi : i = 0
      · subst hi
        simp only [pruneUp, if_pos]
        unfold chosenOKb
        exact ih c hs
      · simp only [pruneUp, if_neg hi]
        exact hs
    | dupC cs =>
      unfold chosenOKb at hs
      rcases hg : cs.get? i with _ | c <;> simp only [pruneUp, hg]
      · exact hs
      · by_cases hcond : (decide (cs.length > 1) && (firstLeafCount (pruneUp c q) == some 0)) = true
        · simp only [hcond, if_pos]
          exact chosenOKbL_eraseIdx cs i hs
        · simp only [hcond]
          rw [if_neg (by simp_all)]
          unfold chosenOKb
          exact chosenOKbL_setNth cs i _ hs (ih c (chosenOKbL_get? cs i c hs hg))
    | choiceC mi ma ch cs =>
      unfold chosenOKb at hs
      rw [Bool.and_eq_true] at hs
      rcases hg : cs.get? i with _ | c <;> simp only [pruneUp, hg]
      · unfold chosenOKb
        rw [Bool.and_eq_true]
        exact ⟨hs.1, hs.2⟩
      · unfold chosenOKb
        rw [Bool.and_eq_true]
        constructor
        · cases ch with
          | none => rfl
          | some k =>
            by_cases hki : k = i
            · subst hki
              rcases chosenOKat_some_elim cs k hs.1 with ⟨n2, mi2, ma2, rs2, hgk, hne⟩
              have hc : c = leafE n2 mi2 ma2 rs2 := by
                rw [hg] at hgk
                exact Option.some.inj hgk
              subst hc
              refine chosenOKat_intro (setNth cs k _) k n2 mi2 ma2 rs2 ?_ hne
              rw [pruneUp_leaf]
              exact get?_setNth_self cs k _ _ hg
            · have hik : i ≠ k := fun h => hki (by rw [h])
              rw [chosenOKat_of_ne cs i k _ hik]
              exact hs.1
        · exact chosenOKbL_setNth cs i _ hs.2 (ih c (chosenOKbL_get? cs i c hs.2 hg))

theorem chosenOKb_substAt : ∀ (p : List Nat) (t : CNode) (o nw : Nat),
    chosenOKb t = true → chosenOKb (substAt o nw t p) = true := by
  intro p
  induction p with
  | nil =>
    intro t o nw hs
    cases t <;> exact hs
  | cons i p ih =>
    intro t o nw hs
    cases t with
    | leafE n mi ma rs => exact hs
    | seqC mi ma cs =>
      unfold chosenOKb at hs
      rcases hg : cs.get? i with _ | c <;> simp only [substAt, hg]
      · exact hs
      · unfold chosenOKb
        exact chosenOKbL_setNth cs i _ hs (ih c o nw (chosenOKbL_get? cs i c hs hg))
    | groupC g mi ma c =>
      unfold chosenOKb at hs
      by_cases hi : i = 0
      · subst hi
        simp only [substAt, if_pos]
        unfold chosenOKb
        exact ih c o nw hs
      · simp only [substAt, if_neg hi]
        exact hs
    | dupC cs =>
      unfold chosenOKb at hs
      rcases hg : cs.get? i with _ | c <;> simp only [substAt, hg]
      · exact hs
      · unfold chosenOKb
        exact chosenOKbL_setNth cs i _ hs (ih c o nw (chosenOKbL_get? cs i c hs hg))
    | choiceC mi ma ch cs =>
      unfold chosenOKb at hs
      rw [Bool.and_eq_true] at hs
      rcases hg : cs.get? i with _ | c <;> simp only [substAt, hg]
      · unfold chosenOKb
        rw [Bool.and_eq_true]
        exact ⟨hs.1, hs.2⟩
      · unfold chosenOKb
        rw [Bool.and_eq_true]
        constructor
        · cases ch with
          | none => rfl
          | some k =>
            by_cases hki : k = i
            · subst hki
              rcases chosenOKat_some_elim cs k hs.1 with ⟨n2, mi2, ma2, rs2, hgk, hne⟩
              have hc : c = leafE n2 mi2 ma2 rs2 := by
                rw [hg] at hgk
                exact Option.some.inj hgk
              subst hc
              cases p with
              | nil =>
                refine chosenOKat_intro (setNth cs k _) k n2 mi2 ma2
                  (rs2.map (fun x => if x = o then nw else x)) ?_ (by simpa using hne)
                exact get?_setNth_self cs k _ _ hg
              | cons p1 p2 =>
                refine chosenOKat_intro (setNth cs k _) k n2 mi2 ma2 rs2 ?_ hne
                rw [substAt_leaf_of_ne_nil _ o nw n2 mi2 ma2 rs2 (by simp)]
                exact get?_setNth_self cs k _ _ hg
            · have hik : i ≠ k := fun h => hki (by rw [h])
              rw [chosenOKat_of_ne cs i k _ hik]
              exact hs.1
        · exact chosenOKbL_setNth cs i _ hs.2 (ih c o nw (chosenOKbL_get? cs i c hs.2 hg))

end CNode

end MusicXml

namespace MusicXml

namespace CNode

theorem chosenOKb_attachAt : ∀ (p : List Nat) (t : CNode) (r : Nat)
    (n : String) (mi : Nat) (ma : Option Nat) (rs : List Nat),
    getAt t p = some (leafE n mi ma rs) →
    chosenOKb t = true → chosenOKb (attachAt r t p) = true := by
  intro p
  induction p with
  | nil =>
    intro t r n mi ma rs hq hs
    simp [getAt] at hq
    subst hq
    rfl
  | cons i p ih =>
    intro t r n mi ma rs hq hs
    cases t with
    | leafE n2 mi2 ma2 rs2 => exact absurd hq (by simp [getAt])
    | seqC mi2 ma2 cs =>
      simp only [getAt] at hq
      rcases hg : cs.get? i with _ | c
      · rw [hg] at hq; exact absurd hq (by simp)
      · rw [hg] at hq; simp at hq
        unfold chosenOKb at hs
        simp only [attachAt, hg]
        unfold chosenOKb
        exact chosenOKbL_setNth cs i _ hs
          (ih c r n mi ma rs hq (chosenOKbL_get? cs i c hs hg))
    | groupC g mi2 ma2 c =>
      simp only [getAt] at hq
      by_cases hi : i = 0
      · rw [if_pos hi] at hq
        subst hi
        unfold chosenOKb at hs
        simp only [attachAt, if_pos]
        unfold chosenOKb
        exact ih c r n mi ma rs hq hs
      · rw [if_neg hi] at hq; exact absurd hq (by simp)
    | dupC cs =>
      simp only [getAt] at hq
      rcases hg : cs.get? i with _ | c
      · rw [hg] at hq; exact absurd hq (by simp)
      · rw [hg] at hq; simp at hq
        unfold chosenOKb at hs
        simp only [attachAt, hg]
        unfold chosenOKb
        exact chosenOKbL_setNth cs i _ hs
          (ih c r n mi ma rs hq (chosenOKbL_get? cs i c hs hg))
    | choiceC mi2 ma2 ch cs =>
      simp only [getAt] at hq
      rcases hg : cs.get? i with _ | c
      · rw [hg] at hq; exact absurd hq (by simp)
      · rw [hg] at hq; simp at hq
        unfold chosenOKb at hs
        rw [Bool.and_eq_true] at hs
        simp only [attachAt, hg]
        unfold chosenOKb
        rw [Bool.and_eq_true]
        cases p with
        | nil =>
          simp [getAt] at hq
          subst hq
          constructor
          · cases ch with
            | none =>
              refine chosenOKat_intro (setNth cs i _) i n mi ma (rs ++ [r]) ?_ (by simp)
              exact get?_setNth_self cs i _ _ hg
            | some k =>
              by_cases hki : k = i
              · subst hki
                refine chosenOKat_intro (setNth cs k _) k n mi ma (rs ++ [r]) ?_ (by simp)
                exact get?_setNth_self cs k _ _ hg
              · have hik : i ≠ k := fun h => hki (by rw [h])
                show chosenOKat (setNth cs i _) (some k) = true
                rw [chosenOKat_of_ne cs i k _ hik]
                exact hs.1
          · exact chosenOKbL_setNth cs i _ hs.2 (by rfl)
        | cons p1 p2 =>
          constructor
          · cases ch with
            | none => rfl
            | some k =>
              by_cases hki : k = i
              · subst hki
                rcases chosenOKat_some_elim cs k hs.1 with ⟨n2, mi2b, ma2b, rs2, hgk, hne⟩
                have hc : c = leafE n2 mi2b ma2b rs2 := by
                  rw [hg] at hgk
                  exact Option.some.inj hgk
                subst hc
                exact absurd hq (by simp [getAt])
              · have hik : i ≠ k := fun h => hki (by rw [h])
                show chosenOKat (setNth cs i _) (some k) = true
                rw [chosenOKat_of_ne cs i k _ hik]
                exact hs.1
          · exact chosenOKbL_setNth cs i _ hs.2
              (ih c r n mi ma rs hq (chosenOKbL_get? cs i c hs.2 hg))

theorem chosenOKb_duplicateAt : ∀ (p : List Nat) (t : CNode) (c0 : CNode),
    getAt t p = some c0 → isLeafb c0 = false →
    chosenOKb t = true → chosenOKb (duplicateAt t p) = true := by
  intro p
  induction p with
  | nil =>
    intro t c0 hq hleaf hs
    simp [getAt] at hq
    subst hq
    cases t with
    | leafE n mi ma rs => exact absurd hleaf (by simp [isLeafb])
    | seqC mi ma cs =>
      show chosenOKbL [seqC mi ma cs, freshOf (seqC mi ma cs)] = true
      unfold chosenOKbL
      rw [Bool.and_eq_true]
      refine ⟨hs, ?_⟩
      unfold chosenOKbL
      rw [Bool.and_eq_true]
      exact ⟨chosenOKb_freshOf _, rfl⟩
    | choiceC mi ma ch cs =>
      show chosenOKbL [choiceC mi ma ch cs, freshOf (choiceC mi ma ch cs)] = true
      unfold chosenOKbL
      rw [Bool.and_eq_true]
      refine ⟨hs, ?_⟩
      unfold chosenOKbL
      rw [Bool.and_eq_true]
      exact ⟨chosenOKb_freshOf _, rfl⟩
    | groupC g mi ma c =>
      show chosenOKbL [groupC g mi ma c, freshOf (groupC g mi ma c)] = true
      unfold chosenOKbL
      rw [Bool.and_eq_true]
      refine ⟨hs, ?_⟩
      unfold chosenOKbL
      rw [Bool.and_eq_true]
      exact ⟨chosenOKb_freshOf _, rfl⟩
    | dupC cs =>
      unfold duplicateAt
      cases cs with
      | nil => rfl
      | cons c cs2 =>
        show chosenOKbL ((c :: cs2) ++ [freshOf c]) = true
        refine chosenOKbL_append _ _ hs ?_
        unfold chosenOKbL
        rw [Bool.and_eq_true]
        exact ⟨chosenOKb_freshOf c, rfl⟩
  | cons i p ih =>
    intro t c0 hq hleaf hs
    cases t with
    | leafE n2 mi2 ma2 rs2 => exact absurd hq (by simp [getAt])
    | seqC mi2 ma2 cs =>
      simp only [getAt] at hq
      rcases hg : cs.get? i with _ | c
      · rw [hg] at hq; exact absurd hq (by simp)
      · rw [hg] at hq; simp at hq
        unfold chosenOKb at hs
        simp only [duplicateAt, hg]
        unfold chosenOKb
        exact chosenOKbL_setNth cs i _ hs
          (ih c c0 hq hleaf (chosenOKbL_get? cs i c hs hg))
    | groupC g mi2 ma2 c =>
      simp only [getAt] at hq
      by_cases hi : i = 0
      · rw [if_pos hi] at hq
        subst hi
        unfold chosenOKb at hs
        simp only [duplicateAt, if_pos]
        unfold chosenOKb
        exact ih c c0 hq hleaf hs
      · rw [if_neg hi] at hq; exact absurd hq (by simp)
    | dupC cs =>
      simp only [getAt] at hq
      rcases hg : cs.get? i with _ | c
      · rw [hg] at hq; exact absurd hq (by simp)
      · rw [hg] at hq; simp at hq
        unfold chosenOKb at hs
        simp only [duplicateAt, hg]
        unfold chosenOKb
        exact chosenOKbL_setNth cs i _ hs
          (ih c c0 hq hleaf (chosenOKbL_get? cs i c hs hg))
    | choiceC mi2 ma2 ch cs =>
      simp only [getAt] at hq
      rcases hg : cs.get? i with _ | c
      · rw [hg] at hq; exact absurd hq (by simp)
      · rw [hg] at hq; simp at hq
        unfold chosenOKb at hs
        rw [Bool.and_eq_true] at hs
        simp only [duplicateAt, hg]
        unfold chosenOKb
        rw [Bool.and_eq_true]
        constructor
        · cases ch with
          | none => rfl
          | some k =>
            by_cases hki : k = i
            · subst hki
              rcases chosenOKat_some_elim cs k hs.1 with ⟨n2, mi2b, ma2b, rs2, hgk, hne⟩
              have hc : c = leafE n2 mi2b ma2b rs2 := by
                rw [hg] at hgk
                exact Option.some.inj hgk
              subst hc
              cases p with
              | nil =>
                simp [getAt] at hq
                rw [← hq] at hleaf
                exact absurd hleaf (by simp [isLeafb])
              | cons p1 p2 => exact absurd hq (by simp [getAt])
            · have hik : i ≠ k := fun h => hki (by rw [h])
              show chosenOKat (setNth cs i _) (some k) = true
              rw [chosenOKat_of_ne cs i k _ hik]
              exact hs.1
        · exact chosenOKbL_setNth cs i _ hs.2
            (ih c c0 hq hleaf (chosenOKbL_get? cs i c hs.2 hg))

end CNode

end MusicXml

namespace MusicXml

namespace CNode

mutual
/-- Every duplication target denotes an existing non-Leaf node (a
Sequence/Group or an existing duplication wrapper). -/
theorem dupTs_sound : (t : CNode) → ∀ (tag : String) (sOK : Bool) (q : List Nat),
    q ∈ dupTs tag sOK t → ∃ c0, getAt t q = some c0 ∧ isLeafb c0 = false
  | leafE n mi ma rs => by
    intro tag sOK q hq
    simp [dupTs] at hq
  | seqC mi ma cs => by
    intro tag sOK q hq
    unfold dupTs at hq
    rcases List.mem_append.1 hq with hl | hr
    · have hq0 : q = [] := by
        by_cases hc : (sOK && maxLt 1 ma && hasLeafNamed tag (seqC mi ma cs)) = true
        · rw [if_pos hc] at hl; simpa using hl
        · rw [if_neg hc] at hl; simp at hl
      subst hq0
      exact ⟨seqC mi ma cs, rfl, rfl⟩
    · rcases dupTsSeq_sound cs tag 0 q hr with ⟨j, c, p2, c0, hqe, hg, hga, hleaf⟩
      refine ⟨c0, ?_, hleaf⟩
      simp only [Nat.zero_add] at hqe
      rw [hqe]
      simp only [getAt]
      rw [hg]
      simpa using hga
  | choiceC mi ma ch cs => by
    intro tag sOK q hq
    unfold dupTs at hq
    have hq2 : q ∈ dupTsAll tag cs 0 := by
      cases ch with
      | none => exact hq
      | some k => exact List.mem_of_mem_filter hq
    rcases dupTsAll_sound cs tag 0 q hq2 with ⟨j, c, p2, c0, hqe, hg, hga, hleaf⟩
    refine ⟨c0, ?_, hleaf⟩
    simp only [Nat.zero_add] at hqe
    rw [hqe]
    simp only [getAt]
    rw [hg]
    simpa using hga
  | groupC g mi ma c => by
    intro tag sOK q hq
    unfold dupTs at hq
    rcases List.mem_append.1 hq with hl | hr
    · have hq0 : q = [] := by
        by_cases hc : (sOK && maxLt 1 ma && hasLeafNamed tag c) = true
        · rw [if_pos hc] at hl; simpa using hl
        · rw [if_neg hc] at hl; simp at hl
      subst hq0
      exact ⟨groupC g mi ma c, rfl, rfl⟩
    · rcases List.mem_map.1 hr with ⟨q2, hm, he⟩
      rcases dupTs_sound c tag true q2 hm with ⟨c0, hga, hleaf⟩
      refine ⟨c0, ?_, hleaf⟩
      rw [← he]
      simpa [getAt] using hga
  | dupC cs => by
    intro tag sOK q hq
    unfold dupTs at hq
    rcases List.mem_append.1 hq with hl | hr
    · have hq0 : q = [] := by
        cases cs with
        | nil => simp at hl
        | cons c cs2 =>
          have hl2 : q ∈ (if (maxLt (c :: cs2).length (maxOccOf c) && hasLeafNamed tag c) = true
              then [[]] else ([] : List (List Nat))) := hl
          by_cases hc : (maxLt (c :: cs2).length (maxOccOf c) && hasLeafNamed tag c) = true
          · rw [if_pos hc] at hl2; simpa using hl2
          · rw [if_neg hc] at hl2; simp at hl2
      subst hq0
      exact ⟨dupC cs, rfl, rfl⟩
    · rcases dupTsDup_sound cs tag 0 q hr with ⟨j, c, p2, c0, hqe, hg, hga, hleaf⟩
      refine ⟨c0, ?_, hleaf⟩
      simp only [Nat.zero_add] at hqe
      rw [hqe]
      simp only [getAt]
      rw [hg]
      simpa using hga

theorem dupTsSeq_sound : (cs : List CNode) → ∀ (tag : String) (i : Nat) (q : List Nat),
    q ∈ dupTsSeq tag cs i →
    ∃ j c p2 c0, q = (i + j) :: p2 ∧ cs.get? j = some c ∧
      getAt c p2 = some c0 ∧ isLeafb c0 = false
  | [] => by intro tag i q hq; simp [dupTsSeq] at hq
  | c :: rest => by
    intro tag i q hq
    unfold dupTsSeq at hq
    rcases List.mem_append.1 hq with hl | hr
    · by_cases hc : (minOccOf c == 0 && decide (totalL rest > 0)) = true
      · simp [hc] at hl
      · rw [if_neg hc] at hl
        rcases List.mem_map.1 hl with ⟨q2, hm, he⟩
        rcases dupTs_sound c tag true q2 hm with ⟨c0, hga, hleaf⟩
        refine ⟨0, c, q2, c0, ?_, rfl, hga, hleaf⟩
        rw [← he]
        simp
    · rcases dupTsSeq_sound rest tag (i + 1) q hr with ⟨j, c2, p2, c0, hqe, hg, hga, hleaf⟩
      refine ⟨j + 1, c2, p2, c0, ?_, hg, hga, hleaf⟩
      rw [hqe]
      have harith : i + (j + 1) = i + 1 + j := by omega
      rw [harith]

theorem dupTsDup_sound : (cs : List CNode) → ∀ (tag : String) (i : Nat) (q : List Nat),
    q ∈ dupTsDup tag cs i →
    ∃ j c p2 c0, q = (i + j) :: p2 ∧ cs.get? j = some c ∧
      getAt c p2 = some c0 ∧ isLeafb c0 = false
  | [] => by intro tag i q hq; simp [dupTsDup] at hq
  | c :: rest => by
    intro tag i q hq
    unfold dupTsDup at hq
    rcases List.mem_append.1 hq with hl | hr
    · by_cases hc : (minOccOf c == 0 && decide (totalL rest > 0)) = true
      · simp [hc] at hl
      · rw [if_neg hc] at hl
        rcases List.mem_map.1 hl with ⟨q2, hm, he⟩
        rcases dupTs_sound c tag false q2 hm with ⟨c0, hga, hleaf⟩
        refine ⟨0, c, q2, c0, ?_, rfl, hga, hleaf⟩
        rw [← he]
        simp
    · rcases dupTsDup_sound rest tag (i + 1) q hr with ⟨j, c2, p2, c0, hqe, hg, hga, hleaf⟩
      refine ⟨j + 1, c2, p2, c0, ?_, hg, hga, hleaf⟩
      rw [hqe]
      have harith : i + (j + 1) = i + 1 + j := by omega
      rw [harith]

theorem dupTsAll_sound : (cs : List CNode) → ∀ (tag : String) (i : Nat) (q : List Nat),
    q ∈ dupTsAll tag cs i →
    ∃ j c p2 c0, q = (i + j) :: p2 ∧ cs.get? j = some c ∧
      getAt c p2 = some c0 ∧ isLeafb c0 = false
  | [] => by intro tag i q hq; simp [dupTsAll] at hq
  | c :: rest => by
    intro tag i q hq
    unfold dupTsAll at hq
    rcases List.mem_append.1 hq with hl | hr
    · rcases List.mem_map.1 hl with ⟨q2, hm, he⟩
      rcases dupTs_sound c tag true q2 hm with ⟨c0, hga, hleaf⟩
      refine ⟨0, c, q2, c0, ?_, rfl, hga, hleaf⟩
      rw [← he]
      simp
    · rcases dupTsAll_sound rest tag (i + 1) q hr with ⟨j, c2, p2, c0, hqe, hg, hga, hleaf⟩
      refine ⟨j + 1, c2, p2, c0, ?_, hg, hga, hleaf⟩
      rw [hqe]
      have harith : i + (j + 1) = i + 1 + j := by omega
      rw [harith]
end

end CNode

end MusicXml

namespace MusicXml

namespace CNode

theorem chosenOKb_addEl (t : CNode) (tag : String) (fwd : Option Nat) (r : Nat)
    (t2 : CNode) (p : List Nat) (hadd : addEl t tag fwd r = some (t2, p))
    (hs : chosenOKb t = true) : chosenOKb t2 = true := by
  unfold addEl at hadd
  rcases hcf : candsFor t tag with _ | ⟨pn0, pns⟩
  · rw [hcf] at hadd
    rcases hdt : dupTs tag true t with _ | ⟨q, qs⟩
    · rw [hdt] at hadd
      exact Option.noConfusion hadd
    · rw [hdt] at hadd
      rcases hcf2 : (candsFor (duplicateAt t q) tag).get? (fwd.getD 0) with _ | pn
      · simp only [hcf2] at hadd
        exact Option.noConfusion hadd
      · simp only [hcf2] at hadd
        have hqmem : q ∈ dupTs tag true t := by rw [hdt]; exact List.mem_cons_self q qs
        rcases dupTs_sound t tag true q hqmem with ⟨c0, hga0, hleaf0⟩
        have hsd := chosenOKb_duplicateAt q t c0 hga0 hleaf0 hs
        have hmem : pn ∈ candsFor (duplicateAt t q) tag := List.get?_mem hcf2
        have hmem2 : pn ∈ cands (duplicateAt t q) := (List.mem_filter.1 hmem).1
        rcases cands_sound _ pn hmem2 with ⟨mi2, ma2, rs2, hga, hlt⟩
        injection hadd with hpair
        injection hpair with h1 h2
        rw [← h1]
        exact chosenOKb_attachAt pn.1 _ r pn.2 mi2 ma2 rs2 hga hsd
  · rw [hcf] at hadd
    rcases hget : (pn0 :: pns).get? (fwd.getD 0) with _ | pn
    · simp only [hget] at hadd
      exact Option.noConfusion hadd
    · simp only [hget] at hadd
      have hmem : pn ∈ candsFor t tag := by
        rw [hcf]
        exact List.get?_mem hget
      have hmem2 : pn ∈ cands t := (List.mem_filter.1 hmem).1
      rcases cands_sound t pn hmem2 with ⟨mi2, ma2, rs2, hga, hlt⟩
      injection hadd with hpair
      injection hpair with h1 h2
      rw [← h1]
      exact chosenOKb_attachAt pn.1 t r pn.2 mi2 ma2 rs2 hga hs

theorem chosenOKb_removeEl (t : CNode) (r : Nat) (t2 : CNode)
    (hrem : removeEl t r = some t2) (hs : chosenOKb t = true) : chosenOKb t2 = true := by
  unfold removeEl at hrem
  rcases hp : pathOfRef r t with _ | p
  · rw [hp] at hrem; exact Option.noConfusion hrem
  · rw [hp] at hrem
    simp at hrem
    rw [← hrem]
    exact chosenOKb_pruneUp _ _ (chosenOKb_detachAt p t r hs)

mutual
theorem chosenOKb_of_grammarOK : (t : CNode) → grammarOKb t = true → chosenOKb t = true
  | leafE n mi ma rs => by intro _; rfl
  | seqC mi ma cs => by
    intro hg
    exact chosenOKbL_of_grammarOKL cs hg
  | choiceC mi ma ch cs => by
    intro hg
    unfold grammarOKb at hg
    rw [Bool.and_eq_true] at hg
    unfold chosenOKb
    rw [Bool.and_eq_true]
    refine ⟨?_, chosenOKbL_of_grammarOKL cs hg.2⟩
    have : ch = none := by
      cases ch with
      | none => rfl
      | some k => exact absurd hg.1 (by simp)
    rw [this]
    rfl
  | groupC g mi ma c => by
    intro hg
    exact chosenOKb_of_grammarOK c hg
  | dupC cs => by
    intro hg
    exact absurd hg (by simp [grammarOKb])

theorem chosenOKbL_of_grammarOKL : (cs : List CNode) → grammarOKbL cs = true →
    chosenOKbL cs = true
  | [] => by intro; rfl
  | c :: cs => by
    intro hg
    unfold grammarOKbL at hg
    rw [Bool.and_eq_true] at hg
    show (chosenOKb c && chosenOKbL cs) = true
    rw [Bool.and_eq_true]
    exact ⟨chosenOKb_of_grammarOK c hg.1, chosenOKbL_of_grammarOKL cs hg.2⟩
end

end CNode

/-- One operation preserves the chosen-alternative invariant of the state. -/
theorem stateChosenOK_step (s : XState) (op : Op) (hs : stateChosenOK s = true) :
    stateChosenOK (stepOp s op) = true := by
  cases op with
  | add r tag fwd =>
    rcases hc : s.container with _ | t
    · simp only [stepOp, applyOp, XState.addChild, hc]
      exact hs
    · rcases ha : CNode.addEl t tag fwd r with _ | ⟨t2, p⟩
      · simp only [stepOp, applyOp, XState.addChild, hc, ha]
        exact hs
      · simp only [stepOp, applyOp, XState.addChild, hc, ha]
        unfold stateChosenOK at hs ⊢
        rw [hc] at hs
        exact CNode.chosenOKb_addEl t tag fwd r t2 p ha hs
  | rem r =>
    by_cases hm : r ∈ s.unordered
    · rcases hc : s.container with _ | t
      · simp [stepOp, applyOp, XState.removeChild, hm, hc, stateChosenOK]
      · rcases hr : CNode.removeEl t r with _ | t2
        · simp only [stepOp, applyOp, XState.removeChild, hm, if_true, hc, hr]
          unfold stateChosenOK at hs ⊢
          rw [hc] at hs
          exact hs
        · simp only [stepOp, applyOp, XState.removeChild, hm, if_true, hc, hr]
          unfold stateChosenOK at hs ⊢
          rw [hc] at hs
          exact CNode.chosenOKb_removeEl t r t2 hr hs
    · simpa [stepOp, applyOp, XState.removeChild, hm] using hs
  | repl old nw =>
    rcases hc : s.container with _ | t
    · simpa [stepOp, applyOp, XState.replaceChild, hc] using hs
    · rcases hp : CNode.pathOfRef old t with _ | p
      · simp only [stepOp, applyOp, XState.replaceChild, hc, hp]
        simpa [stateChosenOK, hc] using hs
      · by_cases hu : old ∈ s.unordered
        · simp only [stepOp, applyOp, XState.replaceChild, hc, hp, hu, if_true]
          unfold stateChosenOK at hs ⊢
          rw [hc] at hs
          exact CNode.chosenOKb_substAt p t old nw hs
        · simp only [stepOp, applyOp, XState.replaceChild, hc, hp, hu, if_false]
          simpa [stateChosenOK, hc] using hs

end MusicXml

namespace MusicXml

namespace CNode

theorem candsSeq_head_ge : ∀ (cs : List CNode) (i : Nat) (pn : List Nat × String),
    pn ∈ candsSeq cs i → ∃ j p2, pn.1 = j :: p2 ∧ i ≤ j := by
  intro cs
  induction cs with
  | nil => intro i pn hpn; simp [candsSeq] at hpn
  | cons c rest ih =>
    intro i pn hpn
    unfold candsSeq at hpn
    rcases List.mem_append.1 hpn with hl | hr
    · by_cases hc : (minOccOf c == 0 && decide (totalL rest > 0)) = true
      · simp [hc] at hl
      · rw [if_neg hc] at hl
        rcases List.mem_map.1 hl with ⟨pn2, _, he⟩
        exact ⟨i, pn2.1, by rw [← he], Nat.le_refl i⟩
    · rcases ih (i + 1) pn hr with ⟨j, p2, he, hle⟩
      exact ⟨j, p2, he, by omega⟩

theorem candsAll_head_ge : ∀ (cs : List CNode) (i : Nat) (pn : List Nat × String),
    pn ∈ candsAll cs i → ∃ j p2, pn.1 = j :: p2 ∧ i ≤ j := by
  intro cs
  induction cs with
  | nil => intro i pn hpn; simp [candsAll] at hpn
  | cons c rest ih =>
    intro i pn hpn
    unfold candsAll at hpn
    rcases List.mem_append.1 hpn with hl | hr
    · rcases List.mem_map.1 hl with ⟨pn2, _, he⟩
      exact ⟨i, pn2.1, by rw [← he], Nat.le_refl i⟩
    · rcases ih (i + 1) pn hr with ⟨j, p2, he, hle⟩
      exact ⟨j, p2, he, by omega⟩

mutual
/-- Exclusivity of reachability: no candidate path enters a non-chosen
alternative of a Choice whose chosen alternative is set. -/
theorem cands_branch : (t : CNode) → ∀ pn : List Nat × String, pn ∈ cands t →
    ∀ (q : List Nat) (j : Nat) (rest : List Nat) (mi : Nat) (ma : Option Nat)
      (k : Nat) (cs2 : List CNode),
    pn.1 = q ++ j :: rest → getAt t q = some (choiceC mi ma (some k) cs2) → j = k
  | leafE n mi0 ma0 rs0 => by
    intro pn hpn q j rest mi ma k cs2 hp hq
    unfold cands at hpn
    by_cases hx : maxLt rs0.length ma0 = true
    · simp [hx] at hpn
      rw [hpn] at hp
      simp at hp
    · simp [hx] at hpn
  | seqC mi0 ma0 cs => by
    intro pn hpn q j rest mi ma k cs2 hp hq
    unfold cands at hpn
    cases q with
    | nil =>
      simp [getAt] at hq
    | cons a q2 =>
      simp only [getAt] at hq
      rcases hga : cs.get? a with _ | c
      · rw [hga] at hq; exact absurd hq (by simp)
      · rw [hga] at hq; simp at hq
        exact candsSeq_branch cs 0 pn hpn a c q2 j rest mi ma k cs2 (by simpa using hp) hga hq
  | choiceC mi0 ma0 ch cs => by
    intro pn hpn q j rest mi ma k cs2 hp hq
    unfold cands at hpn
    cases q with
    | nil =>
      simp only [getAt] at hq
      have hinj := Option.some.inj hq
      cases ch with
      | none => exact absurd (congrArg chosenData hinj) (by simp [chosenData])
      | some k0 =>
        have hk0 : k0 = k := by
          have := congrArg chosenData hinj
          simp [chosenData] at this
          exact this.1
        have hfil := (List.mem_filter.1 hpn).2
        simp at hfil
        rw [hp] at hfil
        simp at hfil
        rw [← hk0, ← hfil]
    | cons a q2 =>
      simp only [getAt] at hq
      rcases hga : cs.get? a with _ | c
      · rw [hga] at hq; exact absurd hq (by simp)
      · rw [hga] at hq; simp at hq
        have hpn2 : pn ∈ candsAll cs 0 := by
          cases ch with
          | none => exact hpn
          | some k0 => exact (List.mem_filter.1 hpn).1
        exact candsAll_branch cs 0 pn hpn2 a c q2 j rest mi ma k cs2 (by simpa using hp) hga hq
  | groupC g0 mi0 ma0 c => by
    intro pn hpn q j rest mi ma k cs2 hp hq
    unfold cands at hpn
    rcases List.mem_map.1 hpn with ⟨pn2, hm, he⟩
    cases q with
    | nil =>
      simp [getAt] at hq
    | cons a q2 =>
      simp only [getAt] at hq
      by_cases ha : a = 0
      · rw [if_pos ha] at hq
        subst ha
        rw [← he] at hp
        simp at hp
        exact cands_branch c pn2 hm q2 j rest mi ma k cs2 hp hq
      · rw [if_neg ha] at hq; exact absurd hq (by simp)
  | dupC cs => by
    intro pn hpn q j rest mi ma k cs2 hp hq
    unfold cands at hpn
    cases q with
    | nil =>
      simp [getAt] at hq
    | cons a q2 =>
      simp only [getAt] at hq
      rcases hga : cs.get? a with _ | c
      · rw [hga] at hq; exact absurd hq (by simp)
      · rw [hga] at hq; simp at hq
        exact candsSeq_branch cs 0 pn hpn a c q2 j rest mi ma k cs2 (by simpa using hp) hga hq

theorem candsSeq_branch : (cs : List CNode) → ∀ (i : Nat) (pn : List Nat × String),
    pn ∈ candsSeq cs i →
    ∀ (a : Nat) (c : CNode) (q2 : List Nat) (j : Nat) (rest : List Nat) (mi : Nat)
      (ma : Option Nat) (k : Nat) (cs2 : List CNode),
    pn.1 = (i + a) :: (q2 ++ j :: rest) → cs.get? a = some c →
    getAt c q2 = some (choiceC mi ma (some k) cs2) → j = k
  | [] => by intro i pn hpn; simp [candsSeq] at hpn
  | c0 :: rest_cs => by
    intro i pn hpn a c q2 j rest mi ma k cs2 hp hg hq
    unfold candsSeq at hpn
    rcases List.mem_append.1 hpn with hl | hr
    · by_cases hc : (minOccOf c0 == 0 && decide (totalL rest_cs > 0)) = true
      · simp [hc] at hl
      · rw [if_neg hc] at hl
        rcases List.mem_map.1 hl with ⟨pn2, hm, he⟩
        rw [← he] at hp
        simp at hp
        have ha0 : a = 0 := by omega
        subst ha0
        have hcc : c = c0 := by
          have := Option.some.inj hg
          rw [this]
        subst hcc
        exact cands_branch c pn2 hm q2 j rest mi ma k cs2 (by simp [hp.2]) hq
    · rcases candsSeq_head_ge rest_cs (i + 1) pn hr with ⟨j0, p2, he0, hle⟩
      rw [he0] at hp
      have hj0 : j0 = i + a := by
        have := hp
        simp at this
        exact this.1
      have ha1 : 1 ≤ a := by omega
      rcases Nat.exists_eq_add_of_le ha1 with ⟨a2, ha2⟩
      have ha2e : a = a2 + 1 := by omega
      subst ha2e
      have hg2 : rest_cs.get? a2 = some c := hg
      refine candsSeq_branch rest_cs (i + 1) pn hr a2 c q2 j rest mi ma k cs2 ?_ hg2 hq
      rw [he0, hj0]
      have : i + (a2 + 1) = i + 1 + a2 := by omega
      rw [this]
      have hp2 : p2 = q2 ++ j :: rest := by
        have := hp
        simp at this
        exact this.2
      rw [hp2]

theorem candsAll_branch : (cs : List CNode) → ∀ (i : Nat) (pn : List Nat × String),
    pn ∈ candsAll cs i →
    ∀ (a : Nat) (c : CNode) (q2 : List Nat) (j : Nat) (rest : List Nat) (mi : Nat)
      (ma : Option Nat) (k : Nat) (cs2 : List CNode),
    pn.1 = (i + a) :: (q2 ++ j :: rest) → cs.get? a = some c →
    getAt c q2 = some (choiceC mi ma (some k) cs2) → j = k
  | [] => by intro i pn hpn; simp [candsAll] at hpn
  | c0 :: rest_cs => by
    intro i pn hpn a c q2 j rest mi ma k cs2 hp hg hq
    unfold candsAll at hpn
    rcases List.mem_append.1 hpn with hl | hr
    · rcases List.mem_map.1 hl with ⟨pn2, hm, he⟩
      rw [← he] at hp
      simp at hp
      have ha0 : a = 0 := by omega
      subst ha0
      have hcc : c = c0 := by
        have := Option.some.inj hg
        rw [this]
      subst hcc
      exact cands_branch c pn2 hm q2 j rest mi ma k cs2 (by simp [hp.2]) hq
    · rcases candsAll_head_ge rest_cs (i + 1) pn hr with ⟨j0, p2, he0, hle⟩
      rw [he0] at hp
      have hj0 : j0 = i + a := by
        have := hp
        simp at this
        exact this.1
      have ha1 : 1 ≤ a := by omega
      rcases Nat.exists_eq_add_of_le ha1 with ⟨a2, ha2⟩
      have ha2e : a = a2 + 1 := by omega
      subst ha2e
      have hg2 : rest_cs.get? a2 = some c := hg
      refine candsAll_branch rest_cs (i + 1) pn hr a2 c q2 j rest mi ma k cs2 ?_ hg2 hq
      rw [he0, hj0]
      have : i + (a2 + 1) = i + 1 + a2 := by omega
      rw [this]
      have hp2 : p2 = q2 ++ j :: rest := by
        have := hp
        simp at this
        exact this.2
      rw [hp2]
end

end CNode

end MusicXml

namespace MusicXml

/-- C7 (amended): on every state reachable from a compiled grammar, a Choice
with a chosen alternative always has at least one attachment in that (Leaf)
alternative, and while chosen is set no reachable Leaf lies on any other
alternative — an add targeting a tag exclusive to another alternative cannot
attach there. However, chosen = None does not imply zero attachments: the
first removal from the chosen alternative already resets chosen even when
attachments remain, after which other alternatives accept attachments. -/
theorem chosen_holds_attachment_and_branch_exclusive (g : CNode) (ops : List Op)
    (hg : CNode.grammarOKb g = true) :
    stateChosenOK (runOps (initSt g) ops) = true ∧
    (∀ t, (runOps (initSt g) ops).container = some t →
      ∀ pn : List Nat × String, pn ∈ CNode.cands t →
        ∀ (q : List Nat) (j : Nat) (rest : List Nat) (mi : Nat) (ma : Option Nat)
          (k : Nat) (cs2 : List CNode),
        pn.1 = q ++ j :: rest →
        CNode.getAt t q = some (CNode.choiceC mi ma (some k) cs2) → j = k) := by
  constructor
  · have h0 : stateChosenOK (initSt g) = true := by
      unfold stateChosenOK initSt
      exact CNode.chosenOKb_of_grammarOK g hg
    have hall : ∀ (l : List Op) (s : XState), stateChosenOK s = true →
        stateChosenOK (runOps s l) = true := by
      intro l
      induction l with
      | nil => intro s h; exact h
      | cons op l ih => intro s h; exact ih _ (stateChosenOK_step s op h)
    exact hall ops _ h0
  · intro t _ pn hpn q j rest mi ma k cs2 hp hq
    exact CNode.cands_branch t pn hpn q j rest mi ma k cs2 hp hq

theorem chosen_holds_attachment_and_branch_exclusive_wit :
    CNode.grammarOKb Gram.gCho = true ∧
    (stateChosenOK (runOps (initSt Gram.gCho) [Op.add 1 "a" none]) = true ∧
     (∀ t, (runOps (initSt Gram.gCho) [Op.add 1 "a" none]).container = some t →
       ∀ pn : List Nat × String, pn ∈ CNode.cands t →
         ∀ (q : List Nat) (j : Nat) (rest : List Nat) (mi : Nat) (ma : Option Nat)
           (k : Nat) (cs2 : List CNode),
         pn.1 = q ++ j :: rest →
         CNode.getAt t q = some (CNode.choiceC mi ma (some k) cs2) → j = k)) :=
  ⟨by decide,
    chosen_holds_attachment_and_branch_exclusive Gram.gCho [Op.add 1 "a" none] (by decide)⟩

end MusicXml

namespace MusicXml

namespace CNode

mutual
theorem refsOf_freshOf : (t : CNode) → refsOf (freshOf t) = []
  | leafE n mi ma rs => rfl
  | seqC mi ma cs => refsL_freshOfL cs
  | choiceC mi ma ch cs => refsL_freshOfL cs
  | groupC g mi ma c => refsOf_freshOf c
  | dupC cs => by
    unfold freshOf
    cases cs with
    | nil => rfl
    | cons c cs2 => exact refsOf_freshOf c

theorem refsL_freshOfL : (cs : List CNode) → refsL (freshOfL cs) = []
  | [] => rfl
  | c :: cs => by
    show refsOf (freshOf c) ++ refsL (freshOfL cs) = []
    rw [refsOf_freshOf c, refsL_freshOfL cs]
    rfl
end

mutual
theorem total_eq_refs_length : (t : CNode) → total t = (refsOf t).length
  | leafE n mi ma rs => rfl
  | seqC mi ma cs => totalL_eq_refsL_length cs
  | choiceC mi ma ch cs => totalL_eq_refsL_length cs
  | groupC g mi ma c => total_eq_refs_length c
  | dupC cs => totalL_eq_refsL_length cs

theorem totalL_eq_refsL_length : (cs : List CNode) → totalL cs = (refsL cs).length
  | [] => rfl
  | c :: cs => by
    show total c + totalL cs = (refsOf c ++ refsL cs).length
    rw [List.length_append, total_eq_refs_length c, totalL_eq_refsL_length cs]
end

theorem total_freshOf (t : CNode) : total (freshOf t) = 0 := by
  rw [total_eq_refs_length, refsOf_freshOf]
  rfl

mutual
theorem refsOf_grammar : (t : CNode) → grammarOKb t = true → refsOf t = []
  | leafE n mi ma rs => by
    intro hg
    unfold grammarOKb at hg
    rw [List.isEmpty_iff] at hg
    exact hg
  | seqC mi ma cs => by
    intro hg
    exact refsL_grammarL cs hg
  | choiceC mi ma ch cs => by
    intro hg
    unfold grammarOKb at hg
    rw [Bool.and_eq_true] at hg
    exact refsL_grammarL cs hg.2
  | groupC g mi ma c => by
    intro hg
    exact refsOf_grammar c hg
  | dupC cs => by
    intro hg
    exact absurd hg (by simp [grammarOKb])

theorem refsL_grammarL : (cs : List CNode) → grammarOKbL cs = true → refsL cs = []
  | [] => by intro; rfl
  | c :: cs => by
    intro hg
    unfold grammarOKbL at hg
    rw [Bool.and_eq_true] at hg
    show refsOf c ++ refsL cs = []
    rw [refsOf_grammar c hg.1, refsL_grammarL cs hg.2]
    rfl
end

mutual
theorem total_eq_leafData_sum : (t : CNode) →
    total t = ((leafData t).map Prod.snd).sum
  | leafE n mi ma rs => by simp [total, leafData]
  | seqC mi ma cs => totalL_eq_leafDataL_sum cs
  | choiceC mi ma ch cs => totalL_eq_leafDataL_sum cs
  | groupC g mi ma c => total_eq_leafData_sum c
  | dupC cs => totalL_eq_leafDataL_sum cs

theorem totalL_eq_leafDataL_sum : (cs : List CNode) →
    totalL cs = ((leafDataL cs).map Prod.snd).sum
  | [] => rfl
  | c :: cs => by
    show total c + totalL cs = ((leafData c ++ leafDataL cs).map Prod.snd).sum
    rw [List.map_append, List.sum_append, total_eq_leafData_sum c,
      totalL_eq_leafDataL_sum cs]
end

mutual
theorem firstLeafCount_eq_head : (t : CNode) →
    firstLeafCount t = ((leafData t).map Prod.snd).head?
  | leafE n mi ma rs => rfl
  | seqC mi ma cs => firstLeafCountL_eq_head cs
  | choiceC mi ma ch cs => firstLeafCountL_eq_head cs
  | groupC g mi ma c => firstLeafCount_eq_head c
  | dupC cs => firstLeafCountL_eq_head cs

theorem firstLeafCountL_eq_head : (cs : List CNode) →
    firstLeafCountL cs = ((leafDataL cs).map Prod.snd).head?
  | [] => rfl
  | c :: cs => by
    show (match firstLeafCount c with
          | some k => some k
          | none => firstLeafCountL cs) = ((leafData c ++ leafDataL cs).map Prod.snd).head?
    rw [List.map_append]
    rcases hf : firstLeafCount c with _ | k
    · have h1 := firstLeafCount_eq_head c
      rw [hf] at h1
      have h2 : (leafData c).map Prod.snd = [] := List.head?_eq_none_iff.1 h1.symm
      rw [h2, List.nil_append]
      exact firstLeafCountL_eq_head cs
    · have h1 := firstLeafCount_eq_head c
      rw [hf] at h1
      rcases List.head?_eq_some_iff.1 h1.symm with ⟨l2, hl2⟩
      rw [hl2]
      rfl
end

/-- A node that has a Leaf and no attachment at all has an empty first
Leaf — the source's pruning condition fires on it. -/
theorem firstLeafCount_zero_of_empty (t : CNode) (hne : leafData t ≠ [])
    (hz : total t = 0) : firstLeafCount t = some 0 := by
  rw [firstLeafCount_eq_head]
  rw [total_eq_leafData_sum] at hz
  rcases hld : leafData t with _ | ⟨⟨n, k⟩, rest⟩
  · exact absurd hld hne
  · rw [hld] at hz
    simp at hz
    simp [hz.1]

end CNode

end MusicXml

namespace MusicXml

namespace CNode

theorem countEmpties_all_zero : ∀ (cs : List CNode), totalL cs = 0 →
    countEmpties cs = cs.length := by
  intro cs
  induction cs with
  | nil => intro; rfl
  | cons c rest ih =>
    intro hz
    unfold totalL at hz
    have hc : total c = 0 := by omega
    have hr : totalL rest = 0 := by omega
    unfold countEmpties at ih ⊢
    simp only [List.filter_cons, hc]
    simp only [beq_self_eq_true, if_true]
    show ((c :: List.filter (fun c => total c == 0) rest)).length = rest.length + 1
    rw [List.length_cons]
    rw [ih hr]

theorem totalL_zero_get (cs : List CNode) (hz : totalL cs = 0) (k : Nat)
    (c : CNode) (hg : cs.get? k = some c) : total c = 0 := by
  induction cs generalizing k with
  | nil => exact Option.noConfusion hg
  | cons c0 rest ih =>
    unfold totalL at hz
    cases k with
    | zero =>
      have h2 : some c0 = some c := hg
      injection h2 with h3
      subst h3
      omega
    | succ k2 =>
      have hg2 : rest.get? k2 = some c := hg
      have hzr : totalL rest = 0 := by omega
      exact ih hzr k2 hg2

mutual
/-- An empty, invariant-respecting container tree carries exactly the
compiled grammar's leaf table and chosen table. -/
theorem final_eq : (t g : CNode) → confb t g = true → total t = 0 →
    chosenOKb t = true → dupOKb t = true → grammarOKb g = true →
    leafData t = leafData g ∧ chosenData t = chosenData g
  | leafE n mi ma rs, leafE n2 mi2 ma2 rs2 => by
    intro hc hz _ _ hg
    unfold confb at hc
    rw [Bool.and_eq_true, Bool.and_eq_true] at hc
    unfold grammarOKb at hg
    rw [List.isEmpty_iff] at hg
    unfold total at hz
    have hn : n = n2 := by simpa using hc.1.1
    subst hn
    subst hg
    constructor
    · show [(n, rs.length)] = [(n, (0 : Nat))]
      rw [hz]
    · rfl
  | leafE n mi ma rs, seqC mi2 ma2 gs => by intro hc; exact absurd hc (by simp [confb])
  | leafE n mi ma rs, choiceC mi2 ma2 ch2 gs => by intro hc; exact absurd hc (by simp [confb])
  | leafE n mi ma rs, groupC g2 mi2 ma2 c2 => by intro hc; exact absurd hc (by simp [confb])
  | leafE n mi ma rs, dupC gs => by intro hc; exact absurd hc (by simp [confb])
  | seqC mi ma cs, leafE n2 mi2 ma2 rs2 => by intro hc; exact absurd hc (by simp [confb])
  | seqC mi ma cs, seqC mi2 ma2 gs => by
    intro hc hz hch hd hg
    unfold confb at hc
    rw [Bool.and_eq_true, Bool.and_eq_true] at hc
    exact final_eqL cs gs hc.2 hz hch hd hg
  | seqC mi ma cs, choiceC mi2 ma2 ch2 gs => by intro hc; exact absurd hc (by simp [confb])
  | seqC mi ma cs, groupC g2 mi2 ma2 c2 => by intro hc; exact absurd hc (by simp [confb])
  | seqC mi ma cs, dupC gs => by intro hc; exact absurd hc (by simp [confb])
  | choiceC mi ma ch cs, leafE n2 mi2 ma2 rs2 => by intro hc; exact absurd hc (by simp [confb])
  | choiceC mi ma ch cs, seqC mi2 ma2 gs => by intro hc; exact absurd hc (by simp [confb])
  | choiceC mi ma ch cs, choiceC mi2 ma2 ch2 gs => by
    intro hc hz hch hd hg
    unfold confb at hc
    rw [Bool.and_eq_true, Bool.and_eq_true] at hc
    unfold grammarOKb at hg
    rw [Bool.and_eq_true] at hg
    unfold chosenOKb at hch
    rw [Bool.and_eq_true] at hch
    unfold dupOKb at hd
    unfold total at hz
    have hrec := final_eqL cs gs hc.2 hz hch.2 hd hg.2
    have hnone : ch = none := by
      cases ch with
      | none => rfl
      | some k =>
        rcases chosenOKat_some_elim cs k hch.1 with ⟨n3, mi3, ma3, rs3, hgk, hne⟩
        have hz3 : total (leafE n3 mi3 ma3 rs3) = 0 := by
          have := totalL_zero_get cs hz k _ hgk
          exact this
        unfold total at hz3
        rw [List.length_eq_zero] at hz3
        exact absurd hz3 hne
    have hnone2 : ch2 = none := by
      cases ch2 with
      | none => rfl
      | some k => exact absurd hg.1 (by simp)
    subst hnone
    subst hnone2
    refine ⟨hrec.1, ?_⟩
    show none :: chosenDataL cs = none :: chosenDataL gs
    rw [hrec.2]
  | choiceC mi ma ch cs, groupC g2 mi2 ma2 c2 => by intro hc; exact absurd hc (by simp [confb])
  | choiceC mi ma ch cs, dupC gs => by intro hc; exact absurd hc (by simp [confb])
  | groupC g mi ma c, leafE n2 mi2 ma2 rs2 => by intro hc; exact absurd hc (by simp [confb])
  | groupC g mi ma c, seqC mi2 ma2 gs => by intro hc; exact absurd hc (by simp [confb])
  | groupC g mi ma c, choiceC mi2 ma2 ch2 gs => by intro hc; exact absurd hc (by simp [confb])
  | groupC g mi ma c, groupC g2 mi2 ma2 c2 => by
    intro hc hz hch hd hg
    unfold confb at hc
    rw [Bool.and_eq_true, Bool.and_eq_true, Bool.and_eq_true] at hc
    exact final_eq c c2 hc.2 hz hch hd hg
  | groupC g mi ma c, dupC gs => by intro hc; exact absurd hc (by simp [confb])
  | dupC cs, g => by
    intro hc hz hch hd hg
    unfold confb at hc
    unfold dupOKb at hd
    rw [Bool.and_eq_true, Bool.and_eq_true, Bool.and_eq_true] at hd
    unfold total at hz
    have hlen : cs.length ≤ 1 := by
      have h1 : countEmpties cs = cs.length := countEmpties_all_zero cs hz
      have h2 : countEmpties cs ≤ 1 := by
        have := hd.1.2
        simpa using this
      omega
    cases cs with
    | nil => exact absurd hc (by simp [confbDup])
    | cons c rest =>
      cases rest with
      | nil =>
        have hcc : confb c g = true := by
          simpa [confbDup] using hc
        unfold totalL at hz
        have hzc : total c = 0 := by omega
        have hch2 : chosenOKb c = true := by
          have h1 : chosenOKbL [c] = true := hch
          unfold chosenOKbL at h1
          rw [Bool.and_eq_true] at h1
          exact h1.1
        have hd3 : dupOKb c = true := by
          have h1 : dupOKbL [c] = true := hd.2
          unfold dupOKbL at h1
          rw [Bool.and_eq_true] at h1
          exact h1.1
        have hrec := final_eq c g hcc hzc hch2 hd3 hg
        constructor
        · show leafData c ++ leafDataL [] = leafData g
          rw [hrec.1]
          simp [leafDataL]
        · show chosenData c ++ chosenDataL [] = chosenData g
          rw [hrec.2]
          simp [chosenDataL]
      | cons c2 rest2 =>
        exfalso
        simp at hlen

theorem final_eqL : (cs gs : List CNode) → confbL cs gs = true → totalL cs = 0 →
    chosenOKbL cs = true → dupOKbL cs = true → grammarOKbL gs = true →
    leafDataL cs = leafDataL gs ∧ chosenDataL cs = chosenDataL gs
  | [], [] => by intro _ _ _ _ _; exact ⟨rfl, rfl⟩
  | [], g :: gs => by intro hc; exact absurd hc (by simp [confbL])
  | c :: cs, [] => by intro hc; exact absurd hc (by simp [confbL])
  | c :: cs, g :: gs => by
    intro hc hz hch hd hg
    unfold confbL at hc
    unfold totalL at hz
    unfold chosenOKbL at hch
    unfold dupOKbL at hd
    unfold grammarOKbL at hg
    rw [Bool.and_eq_true] at hc hch hd hg
    have hzc : total c = 0 := by omega
    have hzr : totalL cs = 0 := by omega
    have h1 := final_eq c g hc.1 hzc hch.1 hd.1 hg.1
    have h2 := final_eqL cs gs hc.2 hzr hch.2 hd.2 hg.2
    constructor
    · show leafData c ++ leafDataL cs = leafData g ++ leafDataL gs
      rw [h1.1, h2.1]
    · show chosenData c ++ chosenDataL cs = chosenData g ++ chosenDataL gs
      rw [h1.2, h2.2]
end

end CNode

end MusicXml

namespace MusicXml

namespace CNode

theorem setNth_setNth : ∀ (cs : List CNode) (i : Nat) (x y : CNode),
    setNth (setNth cs i x) i y = setNth cs i y := by
  intro cs
  induction cs with
  | nil => intro i x y; rfl
  | cons c rest ih =>
    intro i x y
    cases i with
    | zero => rfl
    | succ j =>
      show c :: setNth (setNth rest j x) j y = c :: setNth rest j y
      rw [ih j x y]

theorem length_setNth : ∀ (cs : List CNode) (i : Nat) (x : CNode),
    (setNth cs i x).length = cs.length := by
  intro cs
  induction cs with
  | nil => intro i x; rfl
  | cons c rest ih =>
    intro i x
    cases i with
    | zero => rfl
    | succ j =>
      show (c :: setNth rest j x).length = (c :: rest).length
      rw [List.length_cons, List.length_cons, ih j x]

theorem mem_setNth : ∀ (cs : List CNode) (i : Nat) (x y : CNode),
    y ∈ setNth cs i x → y = x ∨ y ∈ cs := by
  intro cs
  induction cs with
  | nil => intro i x y h; exact absurd h (by simp [setNth])
  | cons c rest ih =>
    intro i x y h
    cases i with
    | zero =>
      have h2 : y ∈ x :: rest := h
      rcases List.mem_cons.1 h2 with h3 | h3
      · exact Or.inl h3
      · exact Or.inr (List.mem_cons_of_mem c h3)
    | succ j =>
      have h2 : y ∈ c :: setNth rest j x := h
      rcases List.mem_cons.1 h2 with h3 | h3
      · exact Or.inr (by rw [h3]; exact List.mem_cons_self c rest)
      · rcases ih j x y h3 with h4 | h4
        · exact Or.inl h4
        · exact Or.inr (List.mem_cons_of_mem c h4)

theorem countEmpties_cons (x : CNode) (l : List CNode) :
    countEmpties (x :: l) = (if total x = 0 then 1 else 0) + countEmpties l := by
  unfold countEmpties
  rw [List.filter_cons]
  by_cases hb : (total x == 0) = true
  · have hx : total x = 0 := by simpa using hb
    rw [if_pos hb, if_pos hx, List.length_cons]
    omega
  · have hx : ¬ total x = 0 := by simpa using hb
    rw [if_neg hb, if_neg hx]
    omega

theorem countEmpties_append_single (l : List CNode) (x : CNode) :
    countEmpties (l ++ [x]) = countEmpties l + (if total x = 0 then 1 else 0) := by
  induction l with
  | nil =>
    rw [List.nil_append, countEmpties_cons]
    show (if total x = 0 then 1 else 0) + countEmpties [] = countEmpties [] + _
    omega
  | cons c rest ih =>
    rw [List.cons_append, countEmpties_cons, ih, countEmpties_cons]
    omega

theorem countEmpties_setNth : ∀ (cs : List CNode) (i : Nat) (c c2 : CNode),
    cs.get? i = some c →
    countEmpties (setNth cs i c2) + (if total c = 0 then 1 else 0) =
      countEmpties cs + (if total c2 = 0 then 1 else 0) := by
  intro cs
  induction cs with
  | nil => intro i c c2 h; exact Option.noConfusion h
  | cons c0 rest ih =>
    intro i c c2 h
    cases i with
    | zero =>
      have h2 : some c0 = some c := h
      injection h2 with h3
      subst h3
      show countEmpties (c2 :: rest) + _ = countEmpties (c0 :: rest) + _
      rw [countEmpties_cons, countEmpties_cons]
      omega
    | succ j =>
      have h2 : rest.get? j = some c := h
      show countEmpties (c0 :: setNth rest j c2) + _ = countEmpties (c0 :: rest) + _
      rw [countEmpties_cons, countEmpties_cons]
      have := ih j c c2 h2
      omega

theorem countEmpties_eraseIdx : ∀ (cs : List CNode) (i : Nat) (c : CNode),
    cs.get? i = some c →
    countEmpties (cs.eraseIdx i) + (if total c = 0 then 1 else 0) = countEmpties cs := by
  intro cs
  induction cs with
  | nil => intro i c h; exact Option.noConfusion h
  | cons c0 rest ih =>
    intro i c h
    cases i with
    | zero =>
      have h2 : some c0 = some c := h
      injection h2 with h3
      subst h3
      show countEmpties rest + _ = countEmpties (c0 :: rest)
      rw [countEmpties_cons]
      omega
    | succ j =>
      have h2 : rest.get? j = some c := h
      show countEmpties (c0 :: rest.eraseIdx j) + _ = countEmpties (c0 :: rest)
      rw [countEmpties_cons, countEmpties_cons]
      have := ih j c h2
      omega

theorem eraseIdx_ne_nil (cs : List CNode) (i : Nat) (h : 1 < cs.length) :
    cs.eraseIdx i ≠ [] := by
  intro hcon
  have h2 : (cs.eraseIdx i).length = 0 := by rw [hcon]; rfl
  by_cases hi : i < cs.length
  · have h3 := List.length_eraseIdx_add_one hi
    omega
  · have h4 : cs.eraseIdx i = cs := List.eraseIdx_of_length_le (by omega)
    rw [h4] at h2
    omega

theorem mem_eraseIdx (cs : List CNode) (i : Nat) (y : CNode)
    (h : y ∈ cs.eraseIdx i) : y ∈ cs :=
  (List.eraseIdx_sublist cs i).subset h

end CNode

end MusicXml

namespace MusicXml

namespace CNode

theorem dupOKbL_get : ∀ (cs : List CNode) (i : Nat) (c : CNode),
    dupOKbL cs = true → cs.get? i = some c → dupOKb c = true := by
  intro cs
  induction cs with
  | nil => intro i c _ h; exact Option.noConfusion h
  | cons a rest ih =>
    intro i c hall h
    unfold dupOKbL at hall
    rw [Bool.and_eq_true] at hall
    cases i with
    | zero =>
      have ha : a = c := Option.some.inj h
      rw [← ha]; exact hall.1
    | succ n => exact ih n c hall.2 h

theorem dupOKbL_setNth : ∀ (cs : List CNode) (i : Nat) (x : CNode),
    dupOKbL cs = true → dupOKb x = true → dupOKbL (setNth cs i x) = true := by
  intro cs
  induction cs with
  | nil => intro i x h _; exact h
  | cons a rest ih =>
    intro i x hall hx
    unfold dupOKbL at hall
    rw [Bool.and_eq_true] at hall
    cases i with
    | zero =>
      show (dupOKb x && dupOKbL rest) = true
      rw [Bool.and_eq_true]
      exact ⟨hx, hall.2⟩
    | succ n =>
      show (dupOKb a && dupOKbL (setNth rest n x)) = true
      rw [Bool.and_eq_true]
      exact ⟨hall.1, ih n x hall.2 hx⟩

theorem dupOKbL_append_single : ∀ (cs : List CNode) (x : CNode),
    dupOKbL cs = true → dupOKb x = true → dupOKbL (cs ++ [x]) = true := by
  intro cs
  induction cs with
  | nil =>
    intro x _ hx
    show (dupOKb x && dupOKbL []) = true
    rw [Bool.and_eq_true]
    exact ⟨hx, rfl⟩
  | cons a rest ih =>
    intro x hall hx
    unfold dupOKbL at hall
    rw [Bool.and_eq_true] at hall
    show (dupOKb a && dupOKbL (rest ++ [x])) = true
    rw [Bool.and_eq_true]
    exact ⟨hall.1, ih x hall.2 hx⟩

theorem dupOKbL_eraseIdx : ∀ (cs : List CNode) (i : Nat),
    dupOKbL cs = true → dupOKbL (cs.eraseIdx i) = true := by
  intro cs
  induction cs with
  | nil => intro i h; exact h
  | cons a rest ih =>
    intro i hall
    unfold dupOKbL at hall
    rw [Bool.and_eq_true] at hall
    cases i with
    | zero => exact hall.2
    | succ n =>
      show (dupOKb a && dupOKbL (rest.eraseIdx n)) = true
      rw [Bool.and_eq_true]
      exact ⟨hall.1, ih n hall.2⟩

theorem repOKL_get : ∀ (cs : List CNode) (i : Nat) (c : CNode),
    repOKL cs = true → cs.get? i = some c → repOK c = true := by
  intro cs
  induction cs with
  | nil => intro i c _ h; exact Option.noConfusion h
  | cons a rest ih =>
    intro i c hall h
    unfold repOKL at hall
    rw [Bool.and_eq_true] at hall
    cases i with
    | zero =>
      have ha : a = c := Option.some.inj h
      rw [← ha]; exact hall.1
    | succ n => exact ih n c hall.2 h

theorem repOKL_setNth : ∀ (cs : List CNode) (i : Nat) (x : CNode),
    repOKL cs = true → repOK x = true → repOKL (setNth cs i x) = true := by
  intro cs
  induction cs with
  | nil => intro i x h _; exact h
  | cons a rest ih =>
    intro i x hall hx
    unfold repOKL at hall
    rw [Bool.and_eq_true] at hall
    cases i with
    | zero =>
      show (repOK x && repOKL rest) = true
      rw [Bool.and_eq_true]
      exact ⟨hx, hall.2⟩
    | succ n =>
      show (repOK a && repOKL (setNth rest n x)) = true
      rw [Bool.and_eq_true]
      exact ⟨hall.1, ih n x hall.2 hx⟩

theorem repOKL_append_single : ∀ (cs : List CNode) (x : CNode),
    repOKL cs = true → repOK x = true → repOKL (cs ++ [x]) = true := by
  intro cs
  induction cs with
  | nil =>
    intro x _ hx
    show (repOK x && repOKL []) = true
    rw [Bool.and_eq_true]
    exact ⟨hx, rfl⟩
  | cons a rest ih =>
    intro x hall hx
    unfold repOKL at hall
    rw [Bool.and_eq_true] at hall
    show (repOK a && repOKL (rest ++ [x])) = true
    rw [Bool.and_eq_true]
    exact ⟨hall.1, ih x hall.2 hx⟩

theorem repOKL_eraseIdx : ∀ (cs : List CNode) (i : Nat),
    repOKL cs = true → repOKL (cs.eraseIdx i) = true := by
  intro cs
  induction cs with
  | nil => intro i h; exact h
  | cons a rest ih =>
    intro i hall
    unfold repOKL at hall
    rw [Bool.and_eq_true] at hall
    cases i with
    | zero => exact hall.2
    | succ n =>
      show (repOK a && repOKL (rest.eraseIdx n)) = true
      rw [Bool.and_eq_true]
      exact ⟨hall.1, ih n hall.2⟩

theorem confbL_get : ∀ (cs gs : List CNode), confbL cs gs = true →
    ∀ (i : Nat) (c : CNode), cs.get? i = some c →
    ∃ gi, gs.get? i = some gi ∧ confb c gi = true := by
  intro cs
  induction cs with
  | nil => intro gs _ i c h; exact Option.noConfusion h
  | cons c0 rest ih =>
    intro gs hc i c h
    cases gs with
    | nil => exact absurd hc (by simp [confbL])
    | cons g0 grest =>
      have hc2 : (confb c0 g0 && confbL rest grest) = true := hc
      rw [Bool.and_eq_true] at hc2
      cases i with
      | zero =>
        have ha : c0 = c := Option.some.inj h
        exact ⟨g0, rfl, by rw [← ha]; exact hc2.1⟩
      | succ n =>
        rcases ih grest hc2.2 n c h with ⟨gi, hg, hcg⟩
        exact ⟨gi, hg, hcg⟩

theorem confbL_setNth : ∀ (cs gs : List CNode) (i : Nat) (x gi : CNode),
    confbL cs gs = true → gs.get? i = some gi → confb x gi = true →
    confbL (setNth cs i x) gs = true := by
  intro cs
  induction cs with
  | nil => intro gs i x gi hc _ _; exact hc
  | cons c0 rest ih =>
    intro gs i x gi hc hg hx
    cases gs with
    | nil => exact absurd hc (by simp [confbL])
    | cons g0 grest =>
      have hc2 : (confb c0 g0 && confbL rest grest) = true := hc
      rw [Bool.and_eq_true] at hc2
      cases i with
      | zero =>
        have ha : g0 = gi := Option.some.inj hg
        show (confb x g0 && confbL rest grest) = true
        rw [Bool.and_eq_true]
        exact ⟨by rw [ha]; exact hx, hc2.2⟩
      | succ n =>
        show (confb c0 g0 && confbL (setNth rest n x) grest) = true
        rw [Bool.and_eq_true]
        exact ⟨hc2.1, ih grest n x gi hc2.2 hg hx⟩

theorem confbDup_iff : ∀ (cs : List CNode) (g : CNode),
    confbDup cs g = true ↔ cs ≠ [] ∧ ∀ c ∈ cs, confb c g = true := by
  intro cs
  induction cs with
  | nil =>
    intro g
    constructor
    · intro h; exact absurd h (by simp [confbDup])
    · intro h; exact absurd rfl h.1
  | cons c rest ih =>
    intro g
    cases rest with
    | nil =>
      constructor
      · intro h
        refine ⟨by simp, ?_⟩
        intro x hx
        have hx2 : x = c := by simpa using hx
        rw [hx2]
        exact h
      · intro h
        exact h.2 c (List.mem_cons_self c [])
    | cons c2 rest2 =>
      constructor
      · intro h
        have h2 : (confb c g && confbDup (c2 :: rest2) g) = true := h
        rw [Bool.and_eq_true] at h2
        have h3 := (ih g).1 h2.2
        refine ⟨by simp, ?_⟩
        intro x hx
        rcases List.mem_cons.1 hx with h4 | h4
        · rw [h4]; exact h2.1
        · exact h3.2 x h4
      · intro h
        show (confb c g && confbDup (c2 :: rest2) g) = true
        rw [Bool.and_eq_true]
        refine ⟨h.2 c (List.mem_cons_self c _), ?_⟩
        exact (ih g).2 ⟨by simp, fun x hx => h.2 x (List.mem_cons_of_mem c hx)⟩

theorem refsL_setNth_count : ∀ (cs : List CNode) (i : Nat) (c c2 : CNode) (x : Nat),
    cs.get? i = some c →
    (refsL (setNth cs i c2)).count x + (refsOf c).count x =
      (refsL cs).count x + (refsOf c2).count x := by
  intro cs
  induction cs with
  | nil => intro i c c2 x h; exact Option.noConfusion h
  | cons c0 rest ih =>
    intro i c c2 x h
    cases i with
    | zero =>
      have h2 : c0 = c := Option.some.inj h
      subst h2
      rw [show setNth (c0 :: rest) 0 c2 = c2 :: rest from rfl,
          show refsL (c2 :: rest) = refsOf c2 ++ refsL rest from rfl,
          show refsL (c0 :: rest) = refsOf c0 ++ refsL rest from rfl,
          List.count_append, List.count_append]
      omega
    | succ j =>
      have h2 : rest.get? j = some c := h
      rw [show setNth (c0 :: rest) (j + 1) c2 = c0 :: setNth rest j c2 from rfl,
          show refsL (c0 :: setNth rest j c2) = refsOf c0 ++ refsL (setNth rest j c2) from rfl,
          show refsL (c0 :: rest) = refsOf c0 ++ refsL rest from rfl,
          List.count_append, List.count_append]
      have := ih j c c2 x h2
      omega

theorem refsL_eraseIdx_count : ∀ (cs : List CNode) (i : Nat) (c : CNode) (x : Nat),
    cs.get? i = some c →
    (refsL (cs.eraseIdx i)).count x + (refsOf c).count x = (refsL cs).count x := by
  intro cs
  induction cs with
  | nil => intro i c x h; exact Option.noConfusion h
  | cons c0 rest ih =>
    intro i c x h
    cases i with
    | zero =>
      have h2 : c0 = c := Option.some.inj h
      subst h2
      rw [show (c0 :: rest).eraseIdx 0 = rest from rfl,
          show refsL (c0 :: rest) = refsOf c0 ++ refsL rest from rfl,
          List.count_append]
      omega
    | succ j =>
      have h2 : rest.get? j = some c := h
      rw [show (c0 :: rest).eraseIdx (j + 1) = c0 :: rest.eraseIdx j from rfl,
          show refsL (c0 :: rest.eraseIdx j) = refsOf c0 ++ refsL (rest.eraseIdx j) from rfl,
          show refsL (c0 :: rest) = refsOf c0 ++ refsL rest from rfl,
          List.count_append, List.count_append]
      have := ih j c x h2
      omega

theorem refsL_append : ∀ (l1 l2 : List CNode),
    refsL (l1 ++ l2) = refsL l1 ++ refsL l2 := by
  intro l1
  induction l1 with
  | nil => intro l2; rfl
  | cons c rest ih =>
    intro l2
    rw [List.cons_append,
        show refsL (c :: (rest ++ l2)) = refsOf c ++ refsL (rest ++ l2) from rfl,
        show refsL (c :: rest) = refsOf c ++ refsL rest from rfl, ih, List.append_assoc]

theorem leafDataL_append : ∀ (l1 l2 : List CNode),
    leafDataL (l1 ++ l2) = leafDataL l1 ++ leafDataL l2 := by
  intro l1
  induction l1 with
  | nil => intro l2; rfl
  | cons c rest ih =>
    intro l2
    rw [List.cons_append,
        show leafDataL (c :: (rest ++ l2)) = leafData c ++ leafDataL (rest ++ l2) from rfl,
        show leafDataL (c :: rest) = leafData c ++ leafDataL rest from rfl, ih,
        List.append_assoc]

theorem leafDataL_setNth_len : ∀ (cs : List CNode) (i : Nat) (c c2 : CNode),
    cs.get? i = some c → (leafData c2).length = (leafData c).length →
    (leafDataL (setNth cs i c2)).length = (leafDataL cs).length := by
  intro cs
  induction cs with
  | nil => intro i c c2 h _; exact Option.noConfusion h
  | cons c0 rest ih =>
    intro i c c2 h hlen
    cases i with
    | zero =>
      have h2 : c0 = c := Option.some.inj h
      subst h2
      rw [show setNth (c0 :: rest) 0 c2 = c2 :: rest from rfl,
          show leafDataL (c2 :: rest) = leafData c2 ++ leafDataL rest from rfl,
          show leafDataL (c0 :: rest) = leafData c0 ++ leafDataL rest from rfl,
          List.length_append, List.length_append, hlen]
    | succ j =>
      have h2 : rest.get? j = some c := h
      rw [show setNth (c0 :: rest) (j + 1) c2 = c0 :: setNth rest j c2 from rfl,
          show leafDataL (c0 :: setNth rest j c2) = leafData c0 ++ leafDataL (setNth rest j c2) from rfl,
          show leafDataL (c0 :: rest) = leafData c0 ++ leafDataL rest from rfl,
          List.length_append, List.length_append, ih j c c2 h2 hlen]

theorem totalL_setNth : ∀ (cs : List CNode) (i : Nat) (c c2 : CNode),
    cs.get? i = some c →
    totalL (setNth cs i c2) + total c = totalL cs + total c2 := by
  intro cs
  induction cs with
  | nil => intro i c c2 h; exact Option.noConfusion h
  | cons c0 rest ih =>
    intro i c c2 h
    cases i with
    | zero =>
      have h2 : c0 = c := Option.some.inj h
      subst h2
      show total c2 + totalL rest + total c0 = total c0 + totalL rest + total c2
      omega
    | succ j =>
      have h2 : rest.get? j = some c := h
      show total c0 + totalL (setNth rest j c2) + total c = total c0 + totalL rest + total c2
      have := ih j c c2 h2
      omega

theorem totalL_get_le : ∀ (cs : List CNode) (i : Nat) (c : CNode),
    cs.get? i = some c → total c ≤ totalL cs := by
  intro cs
  induction cs with
  | nil => intro i c h; exact Option.noConfusion h
  | cons c0 rest ih =>
    intro i c h
    cases i with
    | zero =>
      have h2 : c0 = c := Option.some.inj h
      subst h2
      show total c0 ≤ total c0 + totalL rest
      omega
    | succ j =>
      have h2 : rest.get? j = some c := h
      have := ih j c h2
      show total c ≤ total c0 + totalL rest
      omega

theorem totalL_append : ∀ (l1 l2 : List CNode),
    totalL (l1 ++ l2) = totalL l1 + totalL l2 := by
  intro l1
  induction l1 with
  | nil => intro l2; show totalL l2 = 0 + totalL l2; omega
  | cons c rest ih =>
    intro l2
    show total c + totalL (rest ++ l2) = total c + totalL rest + totalL l2
    have := ih l2
    omega

end CNode

end MusicXml

namespace MusicXml

namespace CNode

theorem total_attachAt : ∀ (p : List Nat) (t : CNode) (r : Nat)
    (n : String) (mi : Nat) (ma : Option Nat) (rs : List Nat),
    getAt t p = some (leafE n mi ma rs) →
    total (attachAt r t p) = total t + 1 := by
  intro p
  induction p with
  | nil =>
    intro t r n mi ma rs hq
    simp [getAt] at hq
    subst hq
    show (rs ++ [r]).length = rs.length + 1
    rw [List.length_append]
    rfl
  | cons i p ih =>
    intro t r n mi ma rs hq
    cases t with
    | leafE n2 mi2 ma2 rs2 => exact absurd hq (by simp [getAt])
    | seqC mi2 ma2 cs =>
      simp only [getAt] at hq
      rcases hg : cs.get? i with _ | c
      · rw [hg] at hq; exact absurd hq (by simp)
      · rw [hg] at hq; simp at hq
        simp only [attachAt, hg]
        show totalL (setNth cs i (attachAt r c p)) = totalL cs + 1
        have h1 := totalL_setNth cs i c (attachAt r c p) hg
        have h2 := ih c r n mi ma rs hq
        omega
    | choiceC mi2 ma2 ch cs =>
      simp only [getAt] at hq
      rcases hg : cs.get? i with _ | c
      · rw [hg] at hq; exact absurd hq (by simp)
      · rw [hg] at hq; simp at hq
        simp only [attachAt, hg]
        show totalL (setNth cs i (attachAt r c p)) = totalL cs + 1
        have h1 := totalL_setNth cs i c (attachAt r c p) hg
        have h2 := ih c r n mi ma rs hq
        omega
    | groupC g mi2 ma2 c =>
      simp only [getAt] at hq
      by_cases hi : i = 0
      · rw [if_pos hi] at hq
        simp only [attachAt, hi, if_pos]
        show total (attachAt r c p) = total c + 1
        exact ih c r n mi ma rs hq
      · rw [if_neg hi] at hq; exact absurd hq (by simp)
    | dupC cs =>
      simp only [getAt] at hq
      rcases hg : cs.get? i with _ | c
      · rw [hg] at hq; exact absurd hq (by simp)
      · rw [hg] at hq; simp at hq
        simp only [attachAt, hg]
        show totalL (setNth cs i (attachAt r c p)) = totalL cs + 1
        have h1 := totalL_setNth cs i c (attachAt r c p) hg
        have h2 := ih c r n mi ma rs hq
        omega

theorem total_duplicateAt : ∀ (p : List Nat) (t : CNode),
    total (duplicateAt t p) = total t := by
  intro p
  induction p with
  | nil =>
    intro t
    cases t with
    | leafE n mi ma rs =>
      show total (leafE n mi ma rs) + (total (freshOf (leafE n mi ma rs)) + 0) = _
      rw [total_freshOf]
      omega
    | seqC mi ma cs =>
      show total (seqC mi ma cs) + (total (freshOf (seqC mi ma cs)) + 0) = _
      rw [total_freshOf]
      omega
    | choiceC mi ma ch cs =>
      show total (choiceC mi ma ch cs) + (total (freshOf (choiceC mi ma ch cs)) + 0) = _
      rw [total_freshOf]
      omega
    | groupC g mi ma c =>
      show total (groupC g mi ma c) + (total (freshOf (groupC g mi ma c)) + 0) = _
      rw [total_freshOf]
      omega
    | dupC cs =>
      cases cs with
      | nil => rfl
      | cons c cs2 =>
        show totalL ((c :: cs2) ++ [freshOf c]) = totalL (c :: cs2)
        rw [totalL_append]
        have h1 : totalL [freshOf c] = total (freshOf c) + 0 := rfl
        rw [h1, total_freshOf]
        omega
  | cons i p ih =>
    intro t
    cases t with
    | leafE n mi ma rs => rfl
    | seqC mi ma cs =>
      rcases hg : cs.get? i with _ | c
      · simp only [duplicateAt, hg]
      · simp only [duplicateAt, hg]
        show totalL (setNth cs i (duplicateAt c p)) = totalL cs
        have h1 := totalL_setNth cs i c (duplicateAt c p) hg
        have h2 := ih c
        omega
    | choiceC mi ma ch cs =>
      rcases hg : cs.get? i with _ | c
      · simp only [duplicateAt, hg]
      · simp only [duplicateAt, hg]
        show totalL (setNth cs i (duplicateAt c p)) = totalL cs
        have h1 := totalL_setNth cs i c (duplicateAt c p) hg
        have h2 := ih c
        omega
    | groupC g mi ma c =>
      by_cases hi : i = 0
      · simp only [duplicateAt, hi, if_pos]
        show total (duplicateAt c p) = total c
        exact ih c
      · simp only [duplicateAt, hi, if_neg, not_false_iff]
    | dupC cs =>
      rcases hg : cs.get? i with _ | c
      · simp only [duplicateAt, hg]
      · simp only [duplicateAt, hg]
        show totalL (setNth cs i (duplicateAt c p)) = totalL cs
        have h1 := totalL_setNth cs i c (duplicateAt c p) hg
        have h2 := ih c
        omega

theorem minOcc_duplicateAt : ∀ (p : List Nat) (t : CNode),
    minOccOf (duplicateAt t p) = minOccOf t := by
  intro p
  induction p with
  | nil =>
    intro t
    cases t with
    | leafE n mi ma rs => rfl
    | seqC mi ma cs => rfl
    | choiceC mi ma ch cs => rfl
    | groupC g mi ma c => rfl
    | dupC cs =>
      cases cs with
      | nil => rfl
      | cons c cs2 => rfl
  | cons i p ih =>
    intro t
    cases t with
    | leafE n mi ma rs => rfl
    | seqC mi ma cs =>
      rcases hg : cs.get? i with _ | c <;> simp only [duplicateAt, hg] <;> rfl
    | choiceC mi ma ch cs =>
      rcases hg : cs.get? i with _ | c <;> simp only [duplicateAt, hg] <;> rfl
    | groupC g mi ma c =>
      by_cases hi : i = 0
      · simp only [duplicateAt, hi, if_pos]; rfl
      · simp only [duplicateAt, hi, if_neg, not_false_iff]
    | dupC cs =>
      rcases hg : cs.get? i with _ | c
      · simp only [duplicateAt, hg]
      · simp only [duplicateAt, hg]
        cases cs with
        | nil => exact Option.noConfusion hg
        | cons c0 rest =>
          cases i with
          | zero =>
            have h2 : c0 = c := Option.some.inj hg
            subst h2
            show minOccOf (duplicateAt c0 p) = minOccOf c0
            exact ih c0
          | succ j => rfl

theorem total_ge_of_getAt : ∀ (p : List Nat) (t : CNode)
    (n : String) (mi : Nat) (ma : Option Nat) (rs : List Nat),
    getAt t p = some (leafE n mi ma rs) → rs.length ≤ total t := by
  intro p
  induction p with
  | nil =>
    intro t n mi ma rs hq
    simp [getAt] at hq
    subst hq
    show rs.length ≤ rs.length
    omega
  | cons i p ih =>
    intro t n mi ma rs hq
    cases t with
    | leafE n2 mi2 ma2 rs2 => exact absurd hq (by simp [getAt])
    | seqC mi2 ma2 cs =>
      simp only [getAt] at hq
      rcases hg : cs.get? i with _ | c
      · rw [hg] at hq; exact absurd hq (by simp)
      · rw [hg] at hq; simp at hq
        have h1 := ih c n mi ma rs hq
        have h2 := totalL_get_le cs i c hg
        show rs.length ≤ totalL cs
        omega
    | choiceC mi2 ma2 ch cs =>
      simp only [getAt] at hq
      rcases hg : cs.get? i with _ | c
      · rw [hg] at hq; exact absurd hq (by simp)
      · rw [hg] at hq; simp at hq
        have h1 := ih c n mi ma rs hq
        have h2 := totalL_get_le cs i c hg
        show rs.length ≤ totalL cs
        omega
    | groupC g mi2 ma2 c =>
      simp only [getAt] at hq
      by_cases hi : i = 0
      · rw [if_pos hi] at hq
        exact ih c n mi ma rs hq
      · rw [if_neg hi] at hq; exact absurd hq (by simp)
    | dupC cs =>
      simp only [getAt] at hq
      rcases hg : cs.get? i with _ | c
      · rw [hg] at hq; exact absurd hq (by simp)
      · rw [hg] at hq; simp at hq
        have h1 := ih c n mi ma rs hq
        have h2 := totalL_get_le cs i c hg
        show rs.length ≤ totalL cs
        omega

theorem leafData_attachAt_len : ∀ (p : List Nat) (t : CNode) (r : Nat),
    (leafData (attachAt r t p)).length = (leafData t).length := by
  intro p
  induction p with
  | nil =>
    intro t r
    cases t with
    | leafE n mi ma rs => rfl
    | seqC mi ma cs => rfl
    | choiceC mi ma ch cs => rfl
    | groupC g mi ma c => rfl
    | dupC cs => rfl
  | cons i p ih =>
    intro t r
    cases t with
    | leafE n mi ma rs => rfl
    | seqC mi ma cs =>
      rcases hg : cs.get? i with _ | c
      · simp only [attachAt, hg]
      · simp only [attachAt, hg]
        show (leafDataL (setNth cs i (attachAt r c p))).length = (leafDataL cs).length
        exact leafDataL_setNth_len cs i c (attachAt r c p) hg (ih c r)
    | choiceC mi ma ch cs =>
      rcases hg : cs.get? i with _ | c
      · simp only [attachAt, hg]
        rfl
      · simp only [attachAt, hg]
        show (leafDataL (setNth cs i (attachAt r c p))).length = (leafDataL cs).length
        exact leafDataL_setNth_len cs i c (attachAt r c p) hg (ih c r)
    | groupC g mi ma c =>
      by_cases hi : i = 0
      · simp only [attachAt, hi, if_pos]
        show (leafData (attachAt r c p)).length = (leafData c).length
        exact ih c r
      · simp only [attachAt, hi, if_neg, not_false_iff]
    | dupC cs =>
      rcases hg : cs.get? i with _ | c
      · simp only [attachAt, hg]
      · simp only [attachAt, hg]
        show (leafDataL (setNth cs i (attachAt r c p))).length = (leafDataL cs).length
        exact leafDataL_setNth_len cs i c (attachAt r c p) hg (ih c r)

theorem leafDataL_setNth_ge : ∀ (cs : List CNode) (i : Nat) (c c2 : CNode),
    cs.get? i = some c → (leafData c).length ≤ (leafData c2).length →
    (leafDataL cs).length ≤ (leafDataL (setNth cs i c2)).length := by
  intro cs
  induction cs with
  | nil => intro i c c2 h _; exact Option.noConfusion h
  | cons c0 rest ih =>
    intro i c c2 h hlen
    cases i with
    | zero =>
      have h2 : c0 = c := Option.some.inj h
      subst h2
      rw [show setNth (c0 :: rest) 0 c2 = c2 :: rest from rfl,
          show leafDataL (c2 :: rest) = leafData c2 ++ leafDataL rest from rfl,
          show leafDataL (c0 :: rest) = leafData c0 ++ leafDataL rest from rfl,
          List.length_append, List.length_append]
      omega
    | succ j =>
      have h2 : rest.get? j = some c := h
      rw [show setNth (c0 :: rest) (j + 1) c2 = c0 :: setNth rest j c2 from rfl,
          show leafDataL (c0 :: setNth rest j c2) = leafData c0 ++ leafDataL (setNth rest j c2) from rfl,
          show leafDataL (c0 :: rest) = leafData c0 ++ leafDataL rest from rfl,
          List.length_append, List.length_append]
      have := ih j c c2 h2 hlen
      omega

theorem leafData_dup_ge : ∀ (p : List Nat) (t : CNode),
    (leafData t).length ≤ (leafData (duplicateAt t p)).length := by
  intro p
  induction p with
  | nil =>
    intro t
    cases t with
    | leafE n mi ma rs =>
      show (leafData (leafE n mi ma rs)).length ≤
        (leafData (leafE n mi ma rs) ++ (leafData (freshOf (leafE n mi ma rs)) ++ [])).length
      rw [List.length_append]
      omega
    | seqC mi ma cs =>
      show (leafData (seqC mi ma cs)).length ≤
        (leafData (seqC mi ma cs) ++ (leafData (freshOf (seqC mi ma cs)) ++ [])).length
      rw [List.length_append]
      omega
    | choiceC mi ma ch cs =>
      show (leafData (choiceC mi ma ch cs)).length ≤
        (leafData (choiceC mi ma ch cs) ++ (leafData (freshOf (choiceC mi ma ch cs)) ++ [])).length
      rw [List.length_append]
      omega
    | groupC g mi ma c =>
      show (leafData (groupC g mi ma c)).length ≤
        (leafData (groupC g mi ma c) ++ (leafData (freshOf (groupC g mi ma c)) ++ [])).length
      rw [List.length_append]
      omega
    | dupC cs =>
      cases cs with
      | nil => exact Nat.le_refl _
      | cons c cs2 =>
        show (leafDataL (c :: cs2)).length ≤ (leafDataL ((c :: cs2) ++ [freshOf c])).length
        rw [leafDataL_append, List.length_append]
        omega
  | cons i p ih =>
    intro t
    cases t with
    | leafE n mi ma rs => exact Nat.le_refl _
    | seqC mi ma cs =>
      rcases hg : cs.get? i with _ | c
      · simp only [duplicateAt, hg]
        exact Nat.le_refl _
      · simp only [duplicateAt, hg]
        show (leafDataL cs).length ≤ (leafDataL (setNth cs i (duplicateAt c p))).length
        exact leafDataL_setNth_ge cs i c (duplicateAt c p) hg (ih c)
    | choiceC mi ma ch cs =>
      rcases hg : cs.get? i with _ | c
      · simp only [duplicateAt, hg]
        exact Nat.le_refl _
      · simp only [duplicateAt, hg]
        show (leafDataL cs).length ≤ (leafDataL (setNth cs i (duplicateAt c p))).length
        exact leafDataL_setNth_ge cs i c (duplicateAt c p) hg (ih c)
    | groupC g mi ma c =>
      by_cases hi : i = 0
      · simp only [duplicateAt, hi, if_pos]
        show (leafData c).length ≤ (leafData (duplicateAt c p)).length
        exact ih c
      · simp only [duplicateAt, hi, if_neg, not_false_iff]
        exact Nat.le_refl _
    | dupC cs =>
      rcases hg : cs.get? i with _ | c
      · simp only [duplicateAt, hg]
        exact Nat.le_refl _
      · simp only [duplicateAt, hg]
        show (leafDataL cs).length ≤ (leafDataL (setNth cs i (duplicateAt c p))).length
        exact leafDataL_setNth_ge cs i c (duplicateAt c p) hg (ih c)

end CNode

end MusicXml

namespace MusicXml

namespace CNode

mutual
theorem dupOKb_of_dupFree : (t : CNode) → dupFreeb t = true → dupOKb t = true
  | leafE n mi ma rs => by intro _; rfl
  | seqC mi ma cs => by
    intro h
    exact dupOKbL_of_dupFreeL cs h
  | choiceC mi ma ch cs => by
    intro h
    exact dupOKbL_of_dupFreeL cs h
  | groupC g mi ma c => by
    intro h
    exact dupOKb_of_dupFree c h
  | dupC cs => by
    intro h
    exact Bool.noConfusion h

theorem dupOKbL_of_dupFreeL : (cs : List CNode) → dupFreebL cs = true → dupOKbL cs = true
  | [] => by intro _; rfl
  | c :: cs => by
    intro h
    have h2 : (dupFreeb c && dupFreebL cs) = true := h
    rw [Bool.and_eq_true] at h2
    show (dupOKb c && dupOKbL cs) = true
    rw [Bool.and_eq_true]
    exact ⟨dupOKb_of_dupFree c h2.1, dupOKbL_of_dupFreeL cs h2.2⟩
end

mutual
theorem repOK_of_dupFree : (t : CNode) → dupFreeb t = true → repOK t = true
  | leafE n mi ma rs => by intro _; rfl
  | seqC mi ma cs => by
    intro h
    exact repOKL_of_dupFreeL cs h
  | choiceC mi ma ch cs => by
    intro h
    exact repOKL_of_dupFreeL cs h
  | groupC g mi ma c => by
    intro h
    exact repOK_of_dupFree c h
  | dupC cs => by
    intro h
    exact Bool.noConfusion h

theorem repOKL_of_dupFreeL : (cs : List CNode) → dupFreebL cs = true → repOKL cs = true
  | [] => by intro _; rfl
  | c :: cs => by
    intro h
    have h2 : (dupFreeb c && dupFreebL cs) = true := h
    rw [Bool.and_eq_true] at h2
    show (repOK c && repOKL cs) = true
    rw [Bool.and_eq_true]
    exact ⟨repOK_of_dupFree c h2.1, repOKL_of_dupFreeL cs h2.2⟩
end

mutual
theorem dupFreeb_of_grammarOK : (t : CNode) → grammarOKb t = true → dupFreeb t = true
  | leafE n mi ma rs => by intro _; rfl
  | seqC mi ma cs => by
    intro h
    exact dupFreebL_of_grammarOKL cs h
  | choiceC mi ma ch cs => by
    intro h
    have h2 : (ch.isNone && grammarOKbL cs) = true := h
    rw [Bool.and_eq_true] at h2
    exact dupFreebL_of_grammarOKL cs h2.2
  | groupC g mi ma c => by
    intro h
    exact dupFreeb_of_grammarOK c h
  | dupC cs => by
    intro h
    exact Bool.noConfusion h

theorem dupFreebL_of_grammarOKL : (cs : List CNode) → grammarOKbL cs = true → dupFreebL cs = true
  | [] => by intro _; rfl
  | c :: cs => by
    intro h
    have h2 : (grammarOKb c && grammarOKbL cs) = true := h
    rw [Bool.and_eq_true] at h2
    show (dupFreeb c && dupFreebL cs) = true
    rw [Bool.and_eq_true]
    exact ⟨dupFreeb_of_grammarOK c h2.1, dupFreebL_of_grammarOKL cs h2.2⟩
end

mutual
theorem dupFreeb_freshOf : (t : CNode) → dupOKb t = true → dupFreeb (freshOf t) = true
  | leafE n mi ma rs => by intro _; rfl
  | seqC mi ma cs => by
    intro h
    exact dupFreebL_freshOfL cs h
  | choiceC mi ma ch cs => by
    intro h
    exact dupFreebL_freshOfL cs h
  | groupC g mi ma c => by
    intro h
    exact dupFreeb_freshOf c h
  | dupC cs => by
    intro h
    unfold dupOKb at h
    rw [Bool.and_eq_true, Bool.and_eq_true, Bool.and_eq_true] at h
    cases cs with
    | nil => exact absurd h.1.1.1 (by simp)
    | cons c cs2 =>
      show dupFreeb (freshOf c) = true
      have hc : dupOKb c = true := dupOKbL_get (c :: cs2) 0 c h.2 rfl
      exact dupFreeb_freshOf c hc

theorem dupFreebL_freshOfL : (cs : List CNode) → dupOKbL cs = true → dupFreebL (freshOfL cs) = true
  | [] => by intro _; rfl
  | c :: cs => by
    intro h
    have h2 : (dupOKb c && dupOKbL cs) = true := h
    rw [Bool.and_eq_true] at h2
    show (dupFreeb (freshOf c) && dupFreebL (freshOfL cs)) = true
    rw [Bool.and_eq_true]
    exact ⟨dupFreeb_freshOf c h2.1, dupFreebL_freshOfL cs h2.2⟩
end

mutual
theorem hasLeaf_leafData_ne : (t : CNode) → ∀ (tag : String),
    hasLeafNamed tag t = true → leafData t ≠ []
  | leafE n mi ma rs => by
    intro tag _
    show [(n, rs.length)] ≠ []
    simp
  | seqC mi ma cs => by
    intro tag h
    exact hasLeafL_leafDataL_ne cs tag h
  | choiceC mi ma ch cs => by
    intro tag h
    exact hasLeafL_leafDataL_ne cs tag h
  | groupC g mi ma c => by
    intro tag h
    exact hasLeaf_leafData_ne c tag h
  | dupC cs => by
    intro tag h
    exact hasLeafL_leafDataL_ne cs tag h

theorem hasLeafL_leafDataL_ne : (cs : List CNode) → ∀ (tag : String),
    hasLeafNamedL tag cs = true → leafDataL cs ≠ []
  | [] => by intro tag h; exact Bool.noConfusion h
  | c :: cs => by
    intro tag h
    have h2 : (hasLeafNamed tag c || hasLeafNamedL tag cs) = true := h
    rw [Bool.or_eq_true] at h2
    show leafData c ++ leafDataL cs ≠ []
    rcases h2 with h3 | h3
    · have := hasLeaf_leafData_ne c tag h3
      intro hcon
      rcases List.append_eq_nil.1 hcon with ⟨h4, _⟩
      exact this h4
    · have := hasLeafL_leafDataL_ne cs tag h3
      intro hcon
      rcases List.append_eq_nil.1 hcon with ⟨_, h4⟩
      exact this h4
end

mutual
theorem leafData_freshOf_ne : (t : CNode) → dupOKb t = true → leafData t ≠ [] →
    leafData (freshOf t) ≠ []
  | leafE n mi ma rs => by
    intro _ _
    show [(n, ([] : List Nat).length)] ≠ []
    simp
  | seqC mi ma cs => by
    intro h hne
    exact leafDataL_freshOfL_ne cs h hne
  | choiceC mi ma ch cs => by
    intro h hne
    exact leafDataL_freshOfL_ne cs h hne
  | groupC g mi ma c => by
    intro h hne
    exact leafData_freshOf_ne c h hne
  | dupC cs => by
    intro h hne
    unfold dupOKb at h
    rw [Bool.and_eq_true, Bool.and_eq_true, Bool.and_eq_true] at h
    cases cs with
    | nil => exact absurd h.1.1.1 (by simp)
    | cons c cs2 =>
      show leafData (freshOf c) ≠ []
      have hc : dupOKb c = true := dupOKbL_get (c :: cs2) 0 c h.2 rfl
      have hcne : leafData c ≠ [] := by
        have hall := h.1.1.2
        rw [List.all_eq_true] at hall
        have := hall c (List.mem_cons_self c cs2)
        simpa using this
      exact leafData_freshOf_ne c hc hcne

theorem leafDataL_freshOfL_ne : (cs : List CNode) → dupOKbL cs = true → leafDataL cs ≠ [] →
    leafDataL (freshOfL cs) ≠ []
  | [] => by intro _ hne; exact absurd rfl hne
  | c :: cs => by
    intro h hne
    have h2 : (dupOKb c && dupOKbL cs) = true := h
    rw [Bool.and_eq_true] at h2
    have hne2 : leafData c ++ leafDataL cs ≠ [] := hne
    show leafData (freshOf c) ++ leafDataL (freshOfL cs) ≠ []
    by_cases hc : leafData c = []
    · have hcs : leafDataL cs ≠ [] := by
        intro hcon
        exact hne2 (by rw [hc, hcon]; rfl)
      have := leafDataL_freshOfL_ne cs h2.2 hcs
      intro hcon
      rcases List.append_eq_nil.1 hcon with ⟨_, h4⟩
      exact this h4
    · have := leafData_freshOf_ne c h2.1 hc
      intro hcon
      rcases List.append_eq_nil.1 hcon with ⟨h4, _⟩
      exact this h4
end

mutual
theorem confb_refl_of_grammar : (g : CNode) → grammarOKb g = true → confb g g = true
  | leafE n mi ma rs => by
    intro _
    show (n == n && mi == mi && ma == ma) = true
    simp
  | seqC mi ma cs => by
    intro h
    show (mi == mi && ma == ma && confbL cs cs) = true
    rw [Bool.and_eq_true, Bool.and_eq_true]
    exact ⟨⟨by simp, by simp⟩, confbL_refl_of_grammar cs h⟩
  | choiceC mi ma ch cs => by
    intro h
    have h2 : (ch.isNone && grammarOKbL cs) = true := h
    rw [Bool.and_eq_true] at h2
    show (mi == mi && ma == ma && confbL cs cs) = true
    rw [Bool.and_eq_true, Bool.and_eq_true]
    exact ⟨⟨by simp, by simp⟩, confbL_refl_of_grammar cs h2.2⟩
  | groupC g mi ma c => by
    intro h
    show (g == g && mi == mi && ma == ma && confb c c) = true
    rw [Bool.and_eq_true, Bool.and_eq_true, Bool.and_eq_true]
    exact ⟨⟨⟨by simp, by simp⟩, by simp⟩, confb_refl_of_grammar c h⟩
  | dupC cs => by
    intro h
    exact Bool.noConfusion h

theorem confbL_refl_of_grammar : (cs : List CNode) → grammarOKbL cs = true → confbL cs cs = true
  | [] => by intro _; rfl
  | c :: cs => by
    intro h
    have h2 : (grammarOKb c && grammarOKbL cs) = true := h
    rw [Bool.and_eq_true] at h2
    show (confb c c && confbL cs cs) = true
    rw [Bool.and_eq_true]
    exact ⟨confb_refl_of_grammar c h2.1, confbL_refl_of_grammar cs h2.2⟩
end

mutual
theorem confb_freshOf : (t g : CNode) → confb t g = true → confb (freshOf t) g = true
  | leafE n mi ma rs, g => by
    intro h
    cases g with
    | leafE n2 mi2 ma2 rs2 => exact h
    | seqC mi2 ma2 gs => exact absurd h (by simp [confb])
    | choiceC mi2 ma2 ch2 gs => exact absurd h (by simp [confb])
    | groupC g2 mi2 ma2 c2 => exact absurd h (by simp [confb])
    | dupC gs => exact absurd h (by simp [confb])
  | seqC mi ma cs, g => by
    intro h
    cases g with
    | leafE n2 mi2 ma2 rs2 => exact absurd h (by simp [confb])
    | seqC mi2 ma2 gs =>
      have h2 : (mi == mi2 && ma == ma2 && confbL cs gs) = true := h
      rw [Bool.and_eq_true, Bool.and_eq_true] at h2
      show (mi == mi2 && ma == ma2 && confbL (freshOfL cs) gs) = true
      rw [Bool.and_eq_true, Bool.and_eq_true]
      exact ⟨h2.1, confbL_freshOfL cs gs h2.2⟩
    | choiceC mi2 ma2 ch2 gs => exact absurd h (by simp [confb])
    | groupC g2 mi2 ma2 c2 => exact absurd h (by simp [confb])
    | dupC gs => exact absurd h (by simp [confb])
  | choiceC mi ma ch cs, g => by
    intro h
    cases g with
    | leafE n2 mi2 ma2 rs2 => exact absurd h (by simp [confb])
    | seqC mi2 ma2 gs => exact absurd h (by simp [confb])
    | choiceC mi2 ma2 ch2 gs =>
      have h2 : (mi == mi2 && ma == ma2 && confbL cs gs) = true := h
      rw [Bool.and_eq_true, Bool.and_eq_true] at h2
      show (mi == mi2 && ma == ma2 && confbL (freshOfL cs) gs) = true
      rw [Bool.and_eq_true, Bool.and_eq_true]
      exact ⟨h2.1, confbL_freshOfL cs gs h2.2⟩
    | groupC g2 mi2 ma2 c2 => exact absurd h (by simp [confb])
    | dupC gs => exact absurd h (by simp [confb])
  | groupC gn mi ma c, g => by
    intro h
    cases g with
    | leafE n2 mi2 ma2 rs2 => exact absurd h (by simp [confb])
    | seqC mi2 ma2 gs => exact absurd h (by simp [confb])
    | choiceC mi2 ma2 ch2 gs => exact absurd h (by simp [confb])
    | groupC g2 mi2 ma2 c2 =>
      have h2 : (gn == g2 && mi == mi2 && ma == ma2 && confb c c2) = true := h
      rw [Bool.and_eq_true, Bool.and_eq_true, Bool.and_eq_true] at h2
      show (gn == g2 && mi == mi2 && ma == ma2 && confb (freshOf c) c2) = true
      rw [Bool.and_eq_true, Bool.and_eq_true, Bool.and_eq_true]
      exact ⟨h2.1, confb_freshOf c c2 h2.2⟩
    | dupC gs => exact absurd h (by simp [confb])
  | dupC cs, g => by
    intro h
    have h2 : confbDup cs g = true := h
    rcases (confbDup_iff cs g).1 h2 with ⟨hne, hall⟩
    cases cs with
    | nil => exact absurd rfl hne
    | cons c cs2 =>
      show confb (freshOf c) g = true
      exact confb_freshOf c g (hall c (List.mem_cons_self c cs2))

theorem confbL_freshOfL : (cs gs : List CNode) → confbL cs gs = true →
    confbL (freshOfL cs) gs = true
  | [], gs => by
    intro h
    cases gs with
    | nil => rfl
    | cons g gs2 => exact absurd h (by simp [confbL])
  | c :: cs, gs => by
    intro h
    cases gs with
    | nil => exact absurd h (by simp [confbL])
    | cons g gs2 =>
      have h2 : (confb c g && confbL cs gs2) = true := h
      rw [Bool.and_eq_true] at h2
      show (confb (freshOf c) g && confbL (freshOfL cs) gs2) = true
      rw [Bool.and_eq_true]
      exact ⟨confb_freshOf c g h2.1, confbL_freshOfL cs gs2 h2.2⟩
end

mutual
theorem pathOfRef_sound : (t : CNode) → ∀ (r : Nat) (p : List Nat),
    pathOfRef r t = some p →
    ∃ n mi ma rs, getAt t p = some (leafE n mi ma rs) ∧ r ∈ rs
  | leafE n mi ma rs => by
    intro r p h
    unfold pathOfRef at h
    by_cases hm : r ∈ rs
    · rw [if_pos hm] at h
      have hp : p = [] := by
        have := Option.some.inj h
        rw [← this]
      subst hp
      exact ⟨n, mi, ma, rs, rfl, hm⟩
    · rw [if_neg hm] at h
      exact Option.noConfusion h
  | seqC mi ma cs => by
    intro r p h
    unfold pathOfRef at h
    rcases pathOfRefL_sound cs r 0 p h with ⟨j, c, p2, n2, mi2, ma2, rs2, hp, hg, hga, hm⟩
    refine ⟨n2, mi2, ma2, rs2, ?_, hm⟩
    simp only [Nat.zero_add] at hp
    rw [hp]
    simp only [getAt]
    rw [hg]
    simpa using hga
  | choiceC mi ma ch cs => by
    intro r p h
    unfold pathOfRef at h
    rcases pathOfRefL_sound cs r 0 p h with ⟨j, c, p2, n2, mi2, ma2, rs2, hp, hg, hga, hm⟩
    refine ⟨n2, mi2, ma2, rs2, ?_, hm⟩
    simp only [Nat.zero_add] at hp
    rw [hp]
    simp only [getAt]
    rw [hg]
    simpa using hga
  | groupC g mi ma c => by
    intro r p h
    unfold pathOfRef at h
    rcases hpc : pathOfRef r c with _ | p2
    · rw [hpc] at h; exact Option.noConfusion h
    · rw [hpc] at h
      have hp : p = 0 :: p2 := by
        have := Option.some.inj h
        rw [← this]
      subst hp
      rcases pathOfRef_sound c r p2 hpc with ⟨n2, mi2, ma2, rs2, hga, hm⟩
      exact ⟨n2, mi2, ma2, rs2, by simpa [getAt] using hga, hm⟩
  | dupC cs => by
    intro r p h
    unfold pathOfRef at h
    rcases pathOfRefL_sound cs r 0 p h with ⟨j, c, p2, n2, mi2, ma2, rs2, hp, hg, hga, hm⟩
    refine ⟨n2, mi2, ma2, rs2, ?_, hm⟩
    simp only [Nat.zero_add] at hp
    rw [hp]
    simp only [getAt]
    rw [hg]
    simpa using hga

theorem pathOfRefL_sound : (cs : List CNode) → ∀ (r : Nat) (i : Nat) (p : List Nat),
    pathOfRefL r cs i = some p →
    ∃ j c p2 n2 mi2 ma2 rs2, p = (i + j) :: p2 ∧ cs.get? j = some c ∧
      getAt c p2 = some (leafE n2 mi2 ma2 rs2) ∧ r ∈ rs2
  | [] => by intro r i p h; exact Option.noConfusion h
  | c :: rest => by
    intro r i p h
    unfold pathOfRefL at h
    rcases hpc : pathOfRef r c with _ | p2
    · rw [hpc] at h
      rcases pathOfRefL_sound rest r (i + 1) p h with
        ⟨j, c2, p3, n2, mi2, ma2, rs2, hp, hg, hga, hm⟩
      refine ⟨j + 1, c2, p3, n2, mi2, ma2, rs2, ?_, hg, hga, hm⟩
      rw [hp]
      have harith : i + (j + 1) = i + 1 + j := by omega
      rw [harith]
    · rw [hpc] at h
      have hp : p = i :: p2 := by
        have := Option.some.inj h
        rw [← this]
      subst hp
      rcases pathOfRef_sound c r p2 hpc with ⟨n2, mi2, ma2, rs2, hga, hm⟩
      exact ⟨0, c, p2, n2, mi2, ma2, rs2, by simp, rfl, hga, hm⟩
end

end CNode

end MusicXml

namespace MusicXml

namespace CNode

theorem candsSeq_setNth_split : ∀ (cs : List CNode) (a i : Nat) (c c2 : CNode)
    (pn : List Nat × String),
    cs.get? i = some c → total c2 = total c → minOccOf c2 = minOccOf c →
    pn ∈ candsSeq (setNth cs i c2) a →
    (∃ p2, pn.1 = (a + i) :: p2 ∧ (p2, pn.2) ∈ cands c2 ∧
      ∀ p3 nm, (p3, nm) ∈ cands c → ((a + i) :: p3, nm) ∈ candsSeq cs a)
    ∨ pn ∈ candsSeq cs a := by
  intro cs
  induction cs with
  | nil => intro a i c c2 pn h _ _ _; exact Option.noConfusion h
  | cons c0 rest ih =>
    intro a i c c2 pn h htot hmo hpn
    cases i with
    | zero =>
      have h2 : c0 = c := Option.some.inj h
      subst h2
      have hpn2 : pn ∈ (if minOccOf c2 == 0 && decide (totalL rest > 0) then []
          else (cands c2).map (fun pn => (a :: pn.1, pn.2))) ++ candsSeq rest (a + 1) := hpn
      rcases List.mem_append.1 hpn2 with hl | hr
      · by_cases hcnd : (minOccOf c2 == 0 && decide (totalL rest > 0)) = true
        · rw [if_pos hcnd] at hl
          exact absurd hl (List.not_mem_nil pn)
        · rw [if_neg hcnd] at hl
          rcases List.mem_map.1 hl with ⟨pn2, hm, he⟩
          left
          refine ⟨pn2.1, ?_, ?_, ?_⟩
          · rw [← he]; simp
          · rw [← he]; simpa using hm
          · intro p3 nm hp3
            have hcnd0 : (minOccOf c0 == 0 && decide (totalL rest > 0)) = true → False := by
              intro hx
              rw [← hmo] at hx
              exact hcnd hx
            show ((a + 0) :: p3, nm) ∈ (if minOccOf c0 == 0 && decide (totalL rest > 0)
                then [] else (cands c0).map (fun pn => (a :: pn.1, pn.2))) ++
                candsSeq rest (a + 1)
            apply List.mem_append_left
            rw [if_neg (fun hx => hcnd0 hx)]
            apply List.mem_map.2
            exact ⟨(p3, nm), hp3, by simp⟩
      · right
        show pn ∈ (if minOccOf c0 == 0 && decide (totalL rest > 0) then []
            else (cands c0).map (fun pn => (a :: pn.1, pn.2))) ++ candsSeq rest (a + 1)
        exact List.mem_append_right _ hr
    | succ j =>
      have h2 : rest.get? j = some c := h
      have hpn2 : pn ∈ (if minOccOf c0 == 0 && decide (totalL (setNth rest j c2) > 0) then []
          else (cands c0).map (fun pn => (a :: pn.1, pn.2))) ++
          candsSeq (setNth rest j c2) (a + 1) := hpn
      have htL : totalL (setNth rest j c2) = totalL rest := by
        have := totalL_setNth rest j c c2 h2
        omega
      rcases List.mem_append.1 hpn2 with hl | hr
      · right
        show pn ∈ (if minOccOf c0 == 0 && decide (totalL rest > 0) then []
            else (cands c0).map (fun pn => (a :: pn.1, pn.2))) ++ candsSeq rest (a + 1)
        apply List.mem_append_left
        rw [htL] at hl
        exact hl
      · rcases ih (a + 1) j c c2 pn h2 htot hmo hr with ⟨p2, hp, hm, hlift⟩ | hout
        · left
          refine ⟨p2, ?_, hm, ?_⟩
          · rw [hp]
            have harith : a + 1 + j = a + (j + 1) := by omega
            rw [harith]
          · intro p3 nm hp3
            have := hlift p3 nm hp3
            have harith : a + 1 + j = a + (j + 1) := by omega
            rw [harith] at this
            show ((a + (j + 1)) :: p3, nm) ∈ (if minOccOf c0 == 0 &&
                decide (totalL rest > 0) then []
                else (cands c0).map (fun pn => (a :: pn.1, pn.2))) ++ candsSeq rest (a + 1)
            exact List.mem_append_right _ this
        · right
          show pn ∈ (if minOccOf c0 == 0 && decide (totalL rest > 0) then []
              else (cands c0).map (fun pn => (a :: pn.1, pn.2))) ++ candsSeq rest (a + 1)
          exact List.mem_append_right _ hout

theorem candsAll_setNth_split : ∀ (cs : List CNode) (a i : Nat) (c c2 : CNode)
    (pn : List Nat × String),
    cs.get? i = some c →
    pn ∈ candsAll (setNth cs i c2) a →
    (∃ p2, pn.1 = (a + i) :: p2 ∧ (p2, pn.2) ∈ cands c2 ∧
      ∀ p3 nm, (p3, nm) ∈ cands c → ((a + i) :: p3, nm) ∈ candsAll cs a)
    ∨ pn ∈ candsAll cs a := by
  intro cs
  induction cs with
  | nil => intro a i c c2 pn h _; exact Option.noConfusion h
  | cons c0 rest ih =>
    intro a i c c2 pn h hpn
    cases i with
    | zero =>
      have h2 : c0 = c := Option.some.inj h
      subst h2
      have hpn2 : pn ∈ (cands c2).map (fun pn => (a :: pn.1, pn.2)) ++
          candsAll rest (a + 1) := hpn
      rcases List.mem_append.1 hpn2 with hl | hr
      · rcases List.mem_map.1 hl with ⟨pn2, hm, he⟩
        left
        refine ⟨pn2.1, ?_, ?_, ?_⟩
        · rw [← he]; simp
        · rw [← he]; simpa using hm
        · intro p3 nm hp3
          show ((a + 0) :: p3, nm) ∈ (cands c0).map (fun pn => (a :: pn.1, pn.2)) ++
              candsAll rest (a + 1)
          apply List.mem_append_left
          apply List.mem_map.2
          exact ⟨(p3, nm), hp3, by simp⟩
      · right
        show pn ∈ (cands c0).map (fun pn => (a :: pn.1, pn.2)) ++ candsAll rest (a + 1)
        exact List.mem_append_right _ hr
    | succ j =>
      have h2 : rest.get? j = some c := h
      have hpn2 : pn ∈ (cands c0).map (fun pn => (a :: pn.1, pn.2)) ++
          candsAll (setNth rest j c2) (a + 1) := hpn
      rcases List.mem_append.1 hpn2 with hl | hr
      · right
        show pn ∈ (cands c0).map (fun pn => (a :: pn.1, pn.2)) ++ candsAll rest (a + 1)
        exact List.mem_append_left _ hl
      · rcases ih (a + 1) j c c2 pn h2 hr with ⟨p2, hp, hm, hlift⟩ | hout
        · left
          refine ⟨p2, ?_, hm, ?_⟩
          · rw [hp]
            have harith : a + 1 + j = a + (j + 1) := by omega
            rw [harith]
          · intro p3 nm hp3
            have := hlift p3 nm hp3
            have harith : a + 1 + j = a + (j + 1) := by omega
            rw [harith] at this
            show ((a + (j + 1)) :: p3, nm) ∈ (cands c0).map (fun pn => (a :: pn.1, pn.2)) ++
                candsAll rest (a + 1)
            exact List.mem_append_right _ this
        · right
          show pn ∈ (cands c0).map (fun pn => (a :: pn.1, pn.2)) ++ candsAll rest (a + 1)
          exact List.mem_append_right _ hout

theorem candsSeq_append_snoc : ∀ (cs : List CNode) (a : Nat) (x : CNode),
    total x = 0 →
    candsSeq (cs ++ [x]) a =
      candsSeq cs a ++ (cands x).map (fun pn => ((a + cs.length) :: pn.1, pn.2)) := by
  intro cs
  induction cs with
  | nil =>
    intro a x hx
    show (if minOccOf x == 0 && decide (totalL ([] : List CNode) > 0) then []
        else (cands x).map (fun pn => (a :: pn.1, pn.2))) ++ candsSeq ([] : List CNode) (a + 1) =
      candsSeq ([] : List CNode) a ++ (cands x).map (fun pn => ((a + 0) :: pn.1, pn.2))
    have hcnd : (minOccOf x == 0 && decide (totalL ([] : List CNode) > 0)) = false := by
      have h0 : totalL ([] : List CNode) = 0 := rfl
      rw [h0]
      simp
    rw [hcnd]
    show (cands x).map (fun pn => (a :: pn.1, pn.2)) ++ [] =
      [] ++ (cands x).map (fun pn => ((a + 0) :: pn.1, pn.2))
    rw [List.append_nil, List.nil_append]
    have harith : a + 0 = a := by omega
    rw [harith]
  | cons c0 rest ih =>
    intro a x hx
    have htL : totalL (rest ++ [x]) = totalL rest := by
      rw [totalL_append]
      have h1 : totalL [x] = total x + 0 := rfl
      omega
    show (if minOccOf c0 == 0 && decide (totalL (rest ++ [x]) > 0) then []
        else (cands c0).map (fun pn => (a :: pn.1, pn.2))) ++ candsSeq (rest ++ [x]) (a + 1) =
      ((if minOccOf c0 == 0 && decide (totalL rest > 0) then []
        else (cands c0).map (fun pn => (a :: pn.1, pn.2))) ++ candsSeq rest (a + 1)) ++
      (cands x).map (fun pn => ((a + (c0 :: rest).length.pred.succ.pred.succ) :: pn.1, pn.2))
    rw [htL, ih (a + 1) x hx, List.append_assoc]
    have harith : a + 1 + rest.length = a + (rest.length + 1) := by omega
    rw [harith]
    rfl

theorem candsSeq_pair_mem (t0 x : CNode) (hx : total x = 0) (pn : List Nat × String)
    (h : pn ∈ candsSeq [t0, x] 0) :
    (∃ p2, pn.1 = 0 :: p2 ∧ (p2, pn.2) ∈ cands t0) ∨
    (∃ p2, pn.1 = 1 :: p2 ∧ (p2, pn.2) ∈ cands x) := by
  have h2 : pn ∈ (if minOccOf t0 == 0 && decide (totalL [x] > 0) then []
      else (cands t0).map (fun pn => (0 :: pn.1, pn.2))) ++ candsSeq [x] 1 := h
  have hcnd : (minOccOf t0 == 0 && decide (totalL [x] > 0)) = false := by
    have h0 : totalL [x] = total x + 0 := rfl
    rw [h0, hx]
    simp
  rw [hcnd] at h2
  have h3 : pn ∈ (cands t0).map (fun pn => (0 :: pn.1, pn.2)) ++ candsSeq [x] 1 := h2
  rcases List.mem_append.1 h3 with hl | hr
  · rcases List.mem_map.1 hl with ⟨pn2, hm, he⟩
    left
    refine ⟨pn2.1, ?_, ?_⟩
    · rw [← he]
    · rw [← he]; simpa using hm
  · have h4 : pn ∈ (if minOccOf x == 0 && decide (totalL ([] : List CNode) > 0) then []
        else (cands x).map (fun pn => (1 :: pn.1, pn.2))) ++ candsSeq ([] : List CNode) 2 := hr
    have hcnd2 : (minOccOf x == 0 && decide (totalL ([] : List CNode) > 0)) = false := by
      have h0 : totalL ([] : List CNode) = 0 := rfl
      rw [h0]
      simp
    rw [hcnd2] at h4
    have h5 : pn ∈ (cands x).map (fun pn => (1 :: pn.1, pn.2)) ++ ([] : List (List Nat × String)) := h4
    rw [List.append_nil] at h5
    rcases List.mem_map.1 h5 with ⟨pn2, hm, he⟩
    right
    refine ⟨pn2.1, ?_, ?_⟩
    · rw [← he]
    · rw [← he]; simpa using hm

end CNode

end MusicXml

namespace MusicXml

namespace CNode

mutual
/-- Transport of candidates across a duplication: every reachable Leaf of the
tree with one freshly materialized repetition either lies inside the new
repetition, or a Leaf of the same name was already reachable before — the
duplication changes no total and no chosen value, so it unblocks nothing
outside the new clone. -/
theorem candsDup_split : (t : CNode) → ∀ (tag : String) (sOK : Bool) (q : List Nat)
    (pn : List Nat × String), q ∈ dupTs tag sOK t → pn ∈ cands (duplicateAt t q) →
    (∃ rest, pn.1 = q ++ newRepIx t q :: rest) ∨ (∃ p2, (p2, pn.2) ∈ cands t)
  | leafE n mi ma rs => by
    intro tag sOK q pn hq _
    simp [dupTs] at hq
  | seqC mi ma cs => by
    intro tag sOK q pn hq hpn
    have hq2 : q ∈ (if sOK && maxLt 1 ma && hasLeafNamed tag (seqC mi ma cs)
        then [([] : List Nat)] else []) ++ dupTsSeq tag cs 0 := hq
    rcases List.mem_append.1 hq2 with hl | hr
    · have hq0 : q = [] := by
        by_cases hcnd : (sOK && maxLt 1 ma && hasLeafNamed tag (seqC mi ma cs)) = true
        · rw [if_pos hcnd] at hl; simpa using hl
        · rw [if_neg hcnd] at hl; simp at hl
      subst hq0
      have hdup : duplicateAt (seqC mi ma cs) [] =
          dupC [seqC mi ma cs, freshOf (seqC mi ma cs)] := rfl
      rw [hdup] at hpn
      have hpn2 : pn ∈ candsSeq [seqC mi ma cs, freshOf (seqC mi ma cs)] 0 := hpn
      rcases candsSeq_pair_mem (seqC mi ma cs) (freshOf (seqC mi ma cs))
          (total_freshOf _) pn hpn2 with ⟨p2, hp, hm⟩ | ⟨p2, hp, hm⟩
      · right
        exact ⟨p2, hm⟩
      · left
        refine ⟨p2, ?_⟩
        rw [hp]
        rfl
    · rcases candsDup_seqAux cs tag 0 q hr with ⟨j, c, q2, hqe, hg, hcon⟩
      simp only [Nat.zero_add] at hqe
      subst hqe
      have hdup : duplicateAt (seqC mi ma cs) (j :: q2) =
          seqC mi ma (setNth cs j (duplicateAt c q2)) := by
        simp only [duplicateAt, hg]
      rw [hdup] at hpn
      have hpn2 : pn ∈ candsSeq (setNth cs j (duplicateAt c q2)) 0 := hpn
      have hK : newRepIx (seqC mi ma cs) (j :: q2) = newRepIx c q2 := by
        unfold newRepIx
        have hgat : getAt (seqC mi ma cs) (j :: q2) = getAt c q2 := by
          simp only [getAt]
          rw [hg]
          rfl
        rw [hgat]
      rcases candsSeq_setNth_split cs 0 j c (duplicateAt c q2) pn hg
          (total_duplicateAt q2 c) (minOcc_duplicateAt q2 c) hpn2 with
        ⟨p2, hp, hm, hlift⟩ | hout
      · rcases hcon (p2, pn.2) hm with ⟨rest2, hrest⟩ | ⟨p3, hm3⟩
        · left
          refine ⟨rest2, ?_⟩
          rw [hp, hK]
          have hrest2 : p2 = q2 ++ newRepIx c q2 :: rest2 := hrest
          rw [hrest2]
          simp
        · right
          have := hlift p3 pn.2 hm3
          exact ⟨(0 + j) :: p3, this⟩
      · right
        exact ⟨pn.1, hout⟩
  | choiceC mi ma ch cs => by
    intro tag sOK q pn hq hpn
    cases ch with
    | none =>
      have hq2 : q ∈ dupTsAll tag cs 0 := hq
      rcases candsDup_allAux cs tag 0 q hq2 with ⟨j, c, q2, hqe, hg, hcon⟩
      simp only [Nat.zero_add] at hqe
      subst hqe
      have hdup : duplicateAt (choiceC mi ma none cs) (j :: q2) =
          choiceC mi ma none (setNth cs j (duplicateAt c q2)) := by
        simp only [duplicateAt, hg]
      rw [hdup] at hpn
      have hpn2 : pn ∈ candsAll (setNth cs j (duplicateAt c q2)) 0 := hpn
      have hK : newRepIx (choiceC mi ma none cs) (j :: q2) = newRepIx c q2 := by
        unfold newRepIx
        have hgat : getAt (choiceC mi ma none cs) (j :: q2) = getAt c q2 := by
          simp only [getAt]
          rw [hg]
          rfl
        rw [hgat]
      rcases candsAll_setNth_split cs 0 j c (duplicateAt c q2) pn hg hpn2 with
        ⟨p2, hp, hm, hlift⟩ | hout
      · rcases hcon (p2, pn.2) hm with ⟨rest2, hrest⟩ | ⟨p3, hm3⟩
        · left
          refine ⟨rest2, ?_⟩
          rw [hp, hK]
          have hrest2 : p2 = q2 ++ newRepIx c q2 :: rest2 := hrest
          rw [hrest2]
          simp
        · right
          have := hlift p3 pn.2 hm3
          exact ⟨(0 + j) :: p3, this⟩
      · right
        exact ⟨pn.1, hout⟩
    | some k =>
      have hq2 : q ∈ (dupTsAll tag cs 0).filter (fun p => p.head? == some k) := hq
      have hqAll : q ∈ dupTsAll tag cs 0 := List.mem_of_mem_filter hq2
      have hqHead : (q.head? == some k) = true := (List.mem_filter.1 hq2).2
      rcases candsDup_allAux cs tag 0 q hqAll with ⟨j, c, q2, hqe, hg, hcon⟩
      simp only [Nat.zero_add] at hqe
      subst hqe
      have hjk : j = k := by simpa using hqHead
      have hdup : duplicateAt (choiceC mi ma (some k) cs) (j :: q2) =
          choiceC mi ma (some k) (setNth cs j (duplicateAt c q2)) := by
        simp only [duplicateAt, hg]
      rw [hdup] at hpn
      have hpn2 : pn ∈ (candsAll (setNth cs j (duplicateAt c q2)) 0).filter
          (fun pn => pn.1.head? == some k) := hpn
      have hpnAll : pn ∈ candsAll (setNth cs j (duplicateAt c q2)) 0 :=
        List.mem_of_mem_filter hpn2
      have hpnHead : (pn.1.head? == some k) = true := (List.mem_filter.1 hpn2).2
      have hK : newRepIx (choiceC mi ma (some k) cs) (j :: q2) = newRepIx c q2 := by
        unfold newRepIx
        have hgat : getAt (choiceC mi ma (some k) cs) (j :: q2) = getAt c q2 := by
          simp only [getAt]
          rw [hg]
          rfl
        rw [hgat]
      rcases candsAll_setNth_split cs 0 j c (duplicateAt c q2) pn hg hpnAll with
        ⟨p2, hp, hm, hlift⟩ | hout
      · rcases hcon (p2, pn.2) hm with ⟨rest2, hrest⟩ | ⟨p3, hm3⟩
        · left
          refine ⟨rest2, ?_⟩
          rw [hp, hK]
          have hrest2 : p2 = q2 ++ newRepIx c q2 :: rest2 := hrest
          rw [hrest2]
          simp
        · right
          have hmem := hlift p3 pn.2 hm3
          refine ⟨(0 + j) :: p3, ?_⟩
          show ((0 + j) :: p3, pn.2) ∈ (candsAll cs 0).filter (fun pn => pn.1.head? == some k)
          apply List.mem_filter.2
          refine ⟨hmem, ?_⟩
          show (((0 + j) :: p3).head? == some k) = true
          simp [hjk]
      · right
        refine ⟨pn.1, ?_⟩
        show (pn.1, pn.2) ∈ (candsAll cs 0).filter (fun pn => pn.1.head? == some k)
        apply List.mem_filter.2
        exact ⟨hout, hpnHead⟩
  | groupC gn mi ma c => by
    intro tag sOK q pn hq hpn
    have hq2 : q ∈ (if sOK && maxLt 1 ma && hasLeafNamed tag c
        then [([] : List Nat)] else []) ++ (dupTs tag true c).map (fun p => 0 :: p) := hq
    rcases List.mem_append.1 hq2 with hl | hr
    · have hq0 : q = [] := by
        by_cases hcnd : (sOK && maxLt 1 ma && hasLeafNamed tag c) = true
        · rw [if_pos hcnd] at hl; simpa using hl
        · rw [if_neg hcnd] at hl; simp at hl
      subst hq0
      have hdup : duplicateAt (groupC gn mi ma c) [] =
          dupC [groupC gn mi ma c, freshOf (groupC gn mi ma c)] := rfl
      rw [hdup] at hpn
      have hpn2 : pn ∈ candsSeq [groupC gn mi ma c, freshOf (groupC gn mi ma c)] 0 := hpn
      rcases candsSeq_pair_mem (groupC gn mi ma c) (freshOf (groupC gn mi ma c))
          (total_freshOf _) pn hpn2 with ⟨p2, hp, hm⟩ | ⟨p2, hp, hm⟩
      · right
        exact ⟨p2, hm⟩
      · left
        refine ⟨p2, ?_⟩
        rw [hp]
        rfl
    · rcases List.mem_map.1 hr with ⟨q2, hq2m, hqe⟩
      subst hqe
      have hdup : duplicateAt (groupC gn mi ma c) (0 :: q2) =
          groupC gn mi ma (duplicateAt c q2) := by
        simp only [duplicateAt, if_pos]
      rw [hdup] at hpn
      have hpn2 : pn ∈ (cands (duplicateAt c q2)).map (fun pn => (0 :: pn.1, pn.2)) := hpn
      rcases List.mem_map.1 hpn2 with ⟨pn2, hm, he⟩
      have hK : newRepIx (groupC gn mi ma c) (0 :: q2) = newRepIx c q2 := by
        unfold newRepIx
        have hgat : getAt (groupC gn mi ma c) (0 :: q2) = getAt c q2 := by
          simp only [getAt, if_pos]
        rw [hgat]
      rcases candsDup_split c tag true q2 pn2 hq2m hm with ⟨rest2, hrest⟩ | ⟨p3, hm3⟩
      · left
        refine ⟨rest2, ?_⟩
        rw [← he, hK]
        show 0 :: pn2.1 = (0 :: q2) ++ newRepIx c q2 :: rest2
        rw [hrest]
        simp
      · right
        refine ⟨0 :: p3, ?_⟩
        show (0 :: p3, pn.2) ∈ (cands c).map (fun pn => (0 :: pn.1, pn.2))
        apply List.mem_map.2
        refine ⟨(p3, pn.2), ?_, rfl⟩
        have hsnd : pn2.2 = pn.2 := by rw [← he]
        rw [← hsnd]
        exact hm3
  | dupC cs => by
    intro tag sOK q pn hq hpn
    cases cs with
    | nil =>
      have hq2 : q ∈ ([] : List (List Nat)) ++ dupTsDup tag ([] : List CNode) 0 := hq
      simp [dupTsDup] at hq2
    | cons c0 cs2 =>
      have hq2 : q ∈ (if maxLt (c0 :: cs2).length (maxOccOf c0) && hasLeafNamed tag c0
          then [([] : List Nat)] else []) ++ dupTsDup tag (c0 :: cs2) 0 := hq
      rcases List.mem_append.1 hq2 with hl | hr
      · have hq0 : q = [] := by
          by_cases hcnd : (maxLt (c0 :: cs2).length (maxOccOf c0) && hasLeafNamed tag c0) = true
          · rw [if_pos hcnd] at hl; simpa using hl
          · rw [if_neg hcnd] at hl; simp at hl
        subst hq0
        have hdup : duplicateAt (dupC (c0 :: cs2)) [] =
            dupC ((c0 :: cs2) ++ [freshOf c0]) := rfl
        rw [hdup] at hpn
        have hpn2 : pn ∈ candsSeq ((c0 :: cs2) ++ [freshOf c0]) 0 := hpn
        rw [candsSeq_append_snoc (c0 :: cs2) 0 (freshOf c0) (total_freshOf c0)] at hpn2
        rcases List.mem_append.1 hpn2 with hin | hnew
        · right
          exact ⟨pn.1, hin⟩
        · rcases List.mem_map.1 hnew with ⟨pn2, hm, he⟩
          left
          refine ⟨pn2.1, ?_⟩
          rw [← he]
          show (0 + (c0 :: cs2).length) :: pn2.1 = [] ++ newRepIx (dupC (c0 :: cs2)) [] :: pn2.1
          have hK : newRepIx (dupC (c0 :: cs2)) [] = (c0 :: cs2).length := rfl
          rw [hK]
          simp
      · rcases candsDup_dupAux (c0 :: cs2) tag 0 q hr with ⟨j, c, q2, hqe, hg, hcon⟩
        simp only [Nat.zero_add] at hqe
        subst hqe
        have hdup : duplicateAt (dupC (c0 :: cs2)) (j :: q2) =
            dupC (setNth (c0 :: cs2) j (duplicateAt c q2)) := by
          simp only [duplicateAt, hg]
        rw [hdup] at hpn
        have hpn2 : pn ∈ candsSeq (setNth (c0 :: cs2) j (duplicateAt c q2)) 0 := hpn
        have hK : newRepIx (dupC (c0 :: cs2)) (j :: q2) = newRepIx c q2 := by
          unfold newRepIx
          have hgat : getAt (dupC (c0 :: cs2)) (j :: q2) = getAt c q2 := by
            simp only [getAt]
            rw [hg]
            rfl
          rw [hgat]
        rcases candsSeq_setNth_split (c0 :: cs2) 0 j c (duplicateAt c q2) pn hg
            (total_duplicateAt q2 c) (minOcc_duplicateAt q2 c) hpn2 with
          ⟨p2, hp, hm, hlift⟩ | hout
        · rcases hcon (p2, pn.2) hm with ⟨rest2, hrest⟩ | ⟨p3, hm3⟩
          · left
            refine ⟨rest2, ?_⟩
            rw [hp, hK]
            have hrest2 : p2 = q2 ++ newRepIx c q2 :: rest2 := hrest
            rw [hrest2]
            simp
          · right
            have := hlift p3 pn.2 hm3
            exact ⟨(0 + j) :: p3, this⟩
        · right
          exact ⟨pn.1, hout⟩

theorem candsDup_seqAux : (cs : List CNode) → ∀ (tag : String) (a : Nat) (q : List Nat),
    q ∈ dupTsSeq tag cs a →
    ∃ j c q2, q = (a + j) :: q2 ∧ cs.get? j = some c ∧
      ∀ pn2 : List Nat × String, pn2 ∈ cands (duplicateAt c q2) →
        (∃ rest2, pn2.1 = q2 ++ newRepIx c q2 :: rest2) ∨ (∃ p2, (p2, pn2.2) ∈ cands c)
  | [] => by intro tag a q hq; simp [dupTsSeq] at hq
  | c :: rest => by
    intro tag a q hq
    have hq2 : q ∈ (if minOccOf c == 0 && decide (totalL rest > 0) then []
        else (dupTs tag true c).map (fun p => a :: p)) ++ dupTsSeq tag rest (a + 1) := hq
    rcases List.mem_append.1 hq2 with hl | hr
    · by_cases hcnd : (minOccOf c == 0 && decide (totalL rest > 0)) = true
      · rw [if_pos hcnd] at hl; simp at hl
      · rw [if_neg hcnd] at hl
        rcases List.mem_map.1 hl with ⟨q2, hm, he⟩
        refine ⟨0, c, q2, ?_, rfl, ?_⟩
        · rw [← he]; simp
        · intro pn2 hpn2
          exact candsDup_split c tag true q2 pn2 hm hpn2
    · rcases candsDup_seqAux rest tag (a + 1) q hr with ⟨j, c2, q2, hqe, hg, hcon⟩
      refine ⟨j + 1, c2, q2, ?_, hg, hcon⟩
      rw [hqe]
      have harith : a + 1 + j = a + (j + 1) := by omega
      rw [harith]

theorem candsDup_dupAux : (cs : List CNode) → ∀ (tag : String) (a : Nat) (q : List Nat),
    q ∈ dupTsDup tag cs a →
    ∃ j c q2, q = (a + j) :: q2 ∧ cs.get? j = some c ∧
      ∀ pn2 : List Nat × String, pn2 ∈ cands (duplicateAt c q2) →
        (∃ rest2, pn2.1 = q2 ++ newRepIx c q2 :: rest2) ∨ (∃ p2, (p2, pn2.2) ∈ cands c)
  | [] => by intro tag a q hq; simp [dupTsDup] at hq
  | c :: rest => by
    intro tag a q hq
    have hq2 : q ∈ (if minOccOf c == 0 && decide (totalL rest > 0) then []
        else (dupTs tag false c).map (fun p => a :: p)) ++ dupTsDup tag rest (a + 1) := hq
    rcases List.mem_append.1 hq2 with hl | hr
    · by_cases hcnd : (minOccOf c == 0 && decide (totalL rest > 0)) = true
      · rw [if_pos hcnd] at hl; simp at hl
      · rw [if_neg hcnd] at hl
        rcases List.mem_map.1 hl with ⟨q2, hm, he⟩
        refine ⟨0, c, q2, ?_, rfl, ?_⟩
        · rw [← he]; simp
        · intro pn2 hpn2
          exact candsDup_split c tag false q2 pn2 hm hpn2
    · rcases candsDup_dupAux rest tag (a + 1) q hr with ⟨j, c2, q2, hqe, hg, hcon⟩
      refine ⟨j + 1, c2, q2, ?_, hg, hcon⟩
      rw [hqe]
      have harith : a + 1 + j = a + (j + 1) := by omega
      rw [harith]

theorem candsDup_allAux : (cs : List CNode) → ∀ (tag : String) (a : Nat) (q : List Nat),
    q ∈ dupTsAll tag cs a →
    ∃ j c q2, q = (a + j) :: q2 ∧ cs.get? j = some c ∧
      ∀ pn2 : List Nat × String, pn2 ∈ cands (duplicateAt c q2) →
        (∃ rest2, pn2.1 = q2 ++ newRepIx c q2 :: rest2) ∨ (∃ p2, (p2, pn2.2) ∈ cands c)
  | [] => by intro tag a q hq; simp [dupTsAll] at hq
  | c :: rest => by
    intro tag a q hq
    have hq2 : q ∈ (dupTs tag true c).map (fun p => a :: p) ++ dupTsAll tag rest (a + 1) := hq
    rcases List.mem_append.1 hq2 with hl | hr
    · rcases List.mem_map.1 hl with ⟨q2, hm, he⟩
      refine ⟨0, c, q2, ?_, rfl, ?_⟩
      · rw [← he]; simp
      · intro pn2 hpn2
        exact candsDup_split c tag true q2 pn2 hm hpn2
    · rcases candsDup_allAux rest tag (a + 1) q hr with ⟨j, c2, q2, hqe, hg, hcon⟩
      refine ⟨j + 1, c2, q2, ?_, hg, hcon⟩
      rw [hqe]
      have harith : a + 1 + j = a + (j + 1) := by omega
      rw [harith]
end

end CNode

end MusicXml

namespace MusicXml

namespace CNode

theorem get?_concat_len : ∀ (l : List CNode) (x : CNode),
    (l ++ [x]).get? l.length = some x := by
  intro l
  induction l with
  | nil => intro x; rfl
  | cons c rest ih => intro x; exact ih x

theorem setNth_concat_len : ∀ (l : List CNode) (x y : CNode),
    setNth (l ++ [x]) l.length y = l ++ [y] := by
  intro l
  induction l with
  | nil => intro x y; rfl
  | cons c rest ih =>
    intro x y
    show c :: setNth (rest ++ [x]) rest.length y = c :: (rest ++ [y])
    rw [ih x y]

theorem total_attachAt_ge : ∀ (p : List Nat) (t : CNode) (r : Nat),
    total t ≤ total (attachAt r t p) := by
  intro p
  induction p with
  | nil =>
    intro t r
    cases t with
    | leafE n mi ma rs =>
      show rs.length ≤ (rs ++ [r]).length
      rw [List.length_append]
      omega
    | seqC mi ma cs => exact Nat.le_refl _
    | choiceC mi ma ch cs => exact Nat.le_refl _
    | groupC g mi ma c => exact Nat.le_refl _
    | dupC cs => exact Nat.le_refl _
  | cons i p ih =>
    intro t r
    cases t with
    | leafE n mi ma rs => exact Nat.le_refl _
    | seqC mi ma cs =>
      rcases hg : cs.get? i with _ | c
      · simp only [attachAt, hg]
        exact Nat.le_refl _
      · simp only [attachAt, hg]
        show totalL cs ≤ totalL (setNth cs i (attachAt r c p))
        have h1 := totalL_setNth cs i c (attachAt r c p) hg
        have h2 := ih c r
        omega
    | choiceC mi ma ch cs =>
      rcases hg : cs.get? i with _ | c
      · simp only [attachAt, hg]
        exact Nat.le_refl _
      · simp only [attachAt, hg]
        show totalL cs ≤ totalL (setNth cs i (attachAt r c p))
        have h1 := totalL_setNth cs i c (attachAt r c p) hg
        have h2 := ih c r
        omega
    | groupC g mi ma c =>
      by_cases hi : i = 0
      · simp only [attachAt, hi, if_pos]
        show total c ≤ total (attachAt r c p)
        exact ih c r
      · simp only [attachAt, hi, if_neg, not_false_iff]
        exact Nat.le_refl _
    | dupC cs =>
      rcases hg : cs.get? i with _ | c
      · simp only [attachAt, hg]
        exact Nat.le_refl _
      · simp only [attachAt, hg]
        show totalL cs ≤ totalL (setNth cs i (attachAt r c p))
        have h1 := totalL_setNth cs i c (attachAt r c p) hg
        have h2 := ih c r
        omega

theorem attachAt_shape : ∀ (p : List Nat) (t : CNode) (r : Nat),
    isLeafb (attachAt r t p) = isLeafb t ∧ isDupb (attachAt r t p) = isDupb t := by
  intro p
  cases p with
  | nil =>
    intro t r
    cases t <;> exact ⟨rfl, rfl⟩
  | cons i q =>
    intro t r
    cases t with
    | leafE n mi ma rs => exact ⟨rfl, rfl⟩
    | seqC mi ma cs =>
      rcases hg : cs.get? i with _ | c <;> simp [attachAt, hg, isLeafb, isDupb]
    | choiceC mi ma ch cs =>
      rcases hg : cs.get? i with _ | c <;> simp [attachAt, hg, isLeafb, isDupb]
    | groupC g mi ma c =>
      by_cases hi : i = 0 <;> simp [attachAt, hi, isLeafb, isDupb]
    | dupC cs =>
      rcases hg : cs.get? i with _ | c <;> simp [attachAt, hg, isLeafb, isDupb]

theorem freshOf_shape (t : CNode) (hl : isLeafb t = false) (hd : isDupb t = false) :
    isLeafb (freshOf t) = false ∧ isDupb (freshOf t) = false := by
  cases t with
  | leafE n mi ma rs => exact Bool.noConfusion hl
  | seqC mi ma cs => exact ⟨rfl, rfl⟩
  | choiceC mi ma ch cs => exact ⟨rfl, rfl⟩
  | groupC g mi ma c => exact ⟨rfl, rfl⟩
  | dupC cs => exact Bool.noConfusion hd

theorem dupAll_get (cs : List CNode) (i : Nat) (c : CNode)
    (hall : cs.all (fun c => !(leafData c).isEmpty) = true)
    (hg : cs.get? i = some c) : leafData c ≠ [] := by
  have h1 := List.all_eq_true.1 hall c (List.get?_mem hg)
  intro hcon
  rw [hcon] at h1
  exact Bool.noConfusion h1

theorem dupAll_setNth_ne (cs : List CNode) (i : Nat) (c2 : CNode)
    (hall : cs.all (fun c => !(leafData c).isEmpty) = true)
    (hne : leafData c2 ≠ []) :
    (setNth cs i c2).all (fun c => !(leafData c).isEmpty) = true := by
  rw [List.all_eq_true]
  intro x hx
  rcases mem_setNth cs i c2 x hx with h1 | h1
  · subst h1
    simpa using hne
  · exact List.all_eq_true.1 hall x h1

theorem dupAll_eraseIdx (cs : List CNode) (i : Nat)
    (hall : cs.all (fun c => !(leafData c).isEmpty) = true) :
    (cs.eraseIdx i).all (fun c => !(leafData c).isEmpty) = true := by
  rw [List.all_eq_true]
  intro x hx
  exact List.all_eq_true.1 hall x (mem_eraseIdx cs i x hx)

theorem dupAll_append_ne (cs : List CNode) (x : CNode)
    (hall : cs.all (fun c => !(leafData c).isEmpty) = true)
    (hne : leafData x ≠ []) :
    (cs ++ [x]).all (fun c => !(leafData c).isEmpty) = true := by
  rw [List.all_eq_true]
  intro y hy
  rcases List.mem_append.1 hy with h1 | h1
  · exact List.all_eq_true.1 hall y h1
  · have h2 : y = x := by simpa using h1
    subst h2
    simpa using hne

theorem repAll_get (cs : List CNode) (i : Nat) (c : CNode)
    (hall : cs.all (fun c => !isLeafb c && !isDupb c) = true)
    (hg : cs.get? i = some c) : isLeafb c = false ∧ isDupb c = false := by
  have h1 := List.all_eq_true.1 hall c (List.get?_mem hg)
  rw [Bool.and_eq_true] at h1
  constructor
  · have := h1.1
    cases hx : isLeafb c
    · rfl
    · rw [hx] at this; exact Bool.noConfusion this
  · have := h1.2
    cases hx : isDupb c
    · rfl
    · rw [hx] at this; exact Bool.noConfusion this

theorem repAll_setNth (cs : List CNode) (i : Nat) (c2 : CNode)
    (hall : cs.all (fun c => !isLeafb c && !isDupb c) = true)
    (hl : isLeafb c2 = false) (hd : isDupb c2 = false) :
    (setNth cs i c2).all (fun c => !isLeafb c && !isDupb c) = true := by
  rw [List.all_eq_true]
  intro x hx
  rcases mem_setNth cs i c2 x hx with h1 | h1
  · subst h1
    rw [Bool.and_eq_true]
    exact ⟨by rw [hl]; rfl, by rw [hd]; rfl⟩
  · exact List.all_eq_true.1 hall x h1

theorem repAll_eraseIdx (cs : List CNode) (i : Nat)
    (hall : cs.all (fun c => !isLeafb c && !isDupb c) = true) :
    (cs.eraseIdx i).all (fun c => !isLeafb c && !isDupb c) = true := by
  rw [List.all_eq_true]
  intro x hx
  exact List.all_eq_true.1 hall x (mem_eraseIdx cs i x hx)

theorem repAll_append (cs : List CNode) (x : CNode)
    (hall : cs.all (fun c => !isLeafb c && !isDupb c) = true)
    (hl : isLeafb x = false) (hd : isDupb x = false) :
    (cs ++ [x]).all (fun c => !isLeafb c && !isDupb c) = true := by
  rw [List.all_eq_true]
  intro y hy
  rcases List.mem_append.1 hy with h1 | h1
  · exact List.all_eq_true.1 hall y h1
  · have h2 : y = x := by simpa using h1
    subst h2
    rw [Bool.and_eq_true]
    exact ⟨by rw [hl]; rfl, by rw [hd]; rfl⟩

theorem dupOKb_attachAt : ∀ (p : List Nat) (t : CNode) (r : Nat),
    dupOKb t = true → dupOKb (attachAt r t p) = true := by
  intro p
  induction p with
  | nil =>
    intro t r hd
    cases t with
    | leafE n mi ma rs => rfl
    | seqC mi ma cs => exact hd
    | choiceC mi ma ch cs => exact hd
    | groupC g mi ma c => exact hd
    | dupC cs => exact hd
  | cons i p ih =>
    intro t r hd
    cases t with
    | leafE n mi ma rs => rfl
    | seqC mi ma cs =>
      rcases hg : cs.get? i with _ | c
      · simp only [attachAt, hg]
        exact hd
      · simp only [attachAt, hg]
        show dupOKbL (setNth cs i (attachAt r c p)) = true
        exact dupOKbL_setNth cs i _ hd (ih c r (dupOKbL_get cs i c hd hg))
    | choiceC mi ma ch cs =>
      rcases hg : cs.get? i with _ | c
      · simp only [attachAt, hg]
        exact hd
      · simp only [attachAt, hg]
        show dupOKbL (setNth cs i (attachAt r c p)) = true
        exact dupOKbL_setNth cs i _ hd (ih c r (dupOKbL_get cs i c hd hg))
    | groupC g mi ma c =>
      by_cases hi : i = 0
      · simp only [attachAt, hi, if_pos]
        show dupOKb (attachAt r c p) = true
        exact ih c r hd
      · simp only [attachAt, hi, if_neg, not_false_iff]
        exact hd
    | dupC cs =>
      rcases hg : cs.get? i with _ | c
      · simp only [attachAt, hg]
        exact hd
      · simp only [attachAt, hg]
        unfold dupOKb at hd
        rw [Bool.and_eq_true, Bool.and_eq_true, Bool.and_eq_true] at hd
        unfold dupOKb
        rw [Bool.and_eq_true, Bool.and_eq_true, Bool.and_eq_true]
        refine ⟨⟨⟨?_, ?_⟩, ?_⟩, ?_⟩
        · have h1 : cs.isEmpty = false := by
            have hx1 := hd.1.1.1
            cases hx : cs.isEmpty
            · rfl
            · rw [hx] at hx1; exact Bool.noConfusion hx1
          have h2 : cs ≠ [] := by
            intro hcon; rw [hcon] at h1; exact Bool.noConfusion h1
          have hlen2 := length_setNth cs i (attachAt r c p)
          have h3 : setNth cs i (attachAt r c p) ≠ [] := by
            intro hcon
            have hz : (setNth cs i (attachAt r c p)).length = 0 := by rw [hcon]; rfl
            rw [hlen2] at hz
            exact h2 (List.length_eq_zero.1 hz)
          cases hx : (setNth cs i (attachAt r c p)).isEmpty
          · rfl
          · rw [List.isEmpty_iff] at hx
            exact absurd hx h3
        · apply dupAll_setNth_ne cs i _ hd.1.1.2
          have hcne : leafData c ≠ [] := dupAll_get cs i c hd.1.1.2 hg
          have hlen := leafData_attachAt_len p c r
          intro hcon
          rw [hcon] at hlen
          have : (leafData c).length = 0 := by
            have h0 : ([] : List (String × Nat)).length = 0 := rfl
            omega
          exact hcne (List.length_eq_zero.1 this)
        · have hce := countEmpties_setNth cs i c (attachAt r c p) hg
          have hge := total_attachAt_ge p c r
          have h1 : countEmpties (setNth cs i (attachAt r c p)) ≤ countEmpties cs := by
            by_cases hz : total (attachAt r c p) = 0
            · have hz2 : total c = 0 := by omega
              rw [if_pos hz, if_pos hz2] at hce
              omega
            · rw [if_neg hz] at hce
              by_cases hz2 : total c = 0
              · rw [if_pos hz2] at hce; omega
              · rw [if_neg hz2] at hce; omega
          have h2 : countEmpties cs ≤ 1 := by simpa using hd.1.2
          simp only [decide_eq_true_eq]
          omega
        · exact dupOKbL_setNth cs i _ hd.2 (ih c r (dupOKbL_get cs i c hd.2 hg))

theorem repOK_attachAt : ∀ (p : List Nat) (t : CNode) (r : Nat),
    repOK t = true → repOK (attachAt r t p) = true := by
  intro p
  induction p with
  | nil =>
    intro t r hd
    cases t with
    | leafE n mi ma rs => rfl
    | seqC mi ma cs => exact hd
    | choiceC mi ma ch cs => exact hd
    | groupC g mi ma c => exact hd
    | dupC cs => exact hd
  | cons i p ih =>
    intro t r hd
    cases t with
    | leafE n mi ma rs => rfl
    | seqC mi ma cs =>
      rcases hg : cs.get? i with _ | c
      · simp only [attachAt, hg]
        exact hd
      · simp only [attachAt, hg]
        show repOKL (setNth cs i (attachAt r c p)) = true
        exact repOKL_setNth cs i _ hd (ih c r (repOKL_get cs i c hd hg))
    | choiceC mi ma ch cs =>
      rcases hg : cs.get? i with _ | c
      · simp only [attachAt, hg]
        exact hd
      · simp only [attachAt, hg]
        show repOKL (setNth cs i (attachAt r c p)) = true
        exact repOKL_setNth cs i _ hd (ih c r (repOKL_get cs i c hd hg))
    | groupC g mi ma c =>
      by_cases hi : i = 0
      · simp only [attachAt, hi, if_pos]
        show repOK (attachAt r c p) = true
        exact ih c r hd
      · simp only [attachAt, hi, if_neg, not_false_iff]
        exact hd
    | dupC cs =>
      rcases hg : cs.get? i with _ | c
      · simp only [attachAt, hg]
        exact hd
      · simp only [attachAt, hg]
        unfold repOK at hd
        rw [Bool.and_eq_true] at hd
        unfold repOK
        rw [Bool.and_eq_true]
        constructor
        · rcases repAll_get cs i c hd.1 hg with ⟨hl, hdp⟩
          rcases attachAt_shape p c r with ⟨hl2, hd2⟩
          exact repAll_setNth cs i _ hd.1 (by rw [hl2]; exact hl) (by rw [hd2]; exact hdp)
        · exact repOKL_setNth cs i _ hd.2 (ih c r (repOKL_get cs i c hd.2 hg))

end CNode

end MusicXml

namespace MusicXml

namespace CNode

theorem bnot_isEmpty_of_ne (l : List (String × Nat)) (h : l ≠ []) : (!l.isEmpty) = true := by
  cases hx : l.isEmpty
  · rfl
  · rw [List.isEmpty_iff] at hx
    exact absurd hx h

theorem leafData_ne_of_len (a b : List (String × Nat)) (hlen : a.length = b.length)
    (h : b ≠ []) : a ≠ [] := by
  intro hcon
  rw [hcon] at hlen
  have hz : b.length = 0 := by
    have h0 : ([] : List (String × Nat)).length = 0 := rfl
    omega
  exact h (List.length_eq_zero.1 hz)

mutual
/-- A successful add that materializes a new repetition attaches inside the
fresh clone, and the duplication-health and repetition-shape invariants
survive: the fresh repetition immediately receives the new reference, so at
most one repetition (a pre-existing one) stays completely empty. -/
theorem dupAttach_ok : (t : CNode) → ∀ (tag : String) (sOK : Bool) (q rest : List Nat)
    (r : Nat) (n : String) (mi0 : Nat) (ma0 : Option Nat) (rs0 : List Nat),
    q ∈ dupTs tag sOK t → dupOKb t = true → repOK t = true →
    getAt (duplicateAt t q) (q ++ newRepIx t q :: rest) = some (leafE n mi0 ma0 rs0) →
    dupOKb (attachAt r (duplicateAt t q) (q ++ newRepIx t q :: rest)) = true ∧
    repOK (attachAt r (duplicateAt t q) (q ++ newRepIx t q :: rest)) = true ∧
    (sOK = false →
      isLeafb (attachAt r (duplicateAt t q) (q ++ newRepIx t q :: rest)) = isLeafb t ∧
      isDupb (attachAt r (duplicateAt t q) (q ++ newRepIx t q :: rest)) = isDupb t)
  | leafE nl mil mal rsl => by
    intro tag sOK q rest r n mi0 ma0 rs0 hq _ _ _
    simp [dupTs] at hq
  | seqC mi ma cs => by
    intro tag sOK q rest r n mi0 ma0 rs0 hq hd hr hleaf
    have hq2 : q ∈ (if sOK && maxLt 1 ma && hasLeafNamed tag (seqC mi ma cs)
        then [([] : List Nat)] else []) ++ dupTsSeq tag cs 0 := hq
    rcases List.mem_append.1 hq2 with hl | hrr
    · by_cases hcnd : (sOK && maxLt 1 ma && hasLeafNamed tag (seqC mi ma cs)) = true
      · have hq0 : q = [] := by rw [if_pos hcnd] at hl; simpa using hl
        subst hq0
        rw [Bool.and_eq_true, Bool.and_eq_true] at hcnd
        have hsOK : sOK = true := hcnd.1.1
        have hhas : hasLeafNamed tag (seqC mi ma cs) = true := hcnd.2
        have hlf : getAt (freshOf (seqC mi ma cs)) rest = some (leafE n mi0 ma0 rs0) := hleaf
        have ht0ne : leafData (seqC mi ma cs) ≠ [] :=
          hasLeaf_leafData_ne (seqC mi ma cs) tag hhas
        have hfne : leafData (freshOf (seqC mi ma cs)) ≠ [] :=
          leafData_freshOf_ne (seqC mi ma cs) hd ht0ne
        have hattne : leafData (attachAt r (freshOf (seqC mi ma cs)) rest) ≠ [] :=
          leafData_ne_of_len _ _ (leafData_attachAt_len rest _ r) hfne
        have hatot : total (attachAt r (freshOf (seqC mi ma cs)) rest) =
            total (freshOf (seqC mi ma cs)) + 1 :=
          total_attachAt rest _ r n mi0 ma0 rs0 hlf
        have hfok : dupOKb (freshOf (seqC mi ma cs)) = true :=
          dupOKb_of_dupFree _ (dupFreeb_freshOf _ hd)
        have hfrok : repOK (freshOf (seqC mi ma cs)) = true :=
          repOK_of_dupFree _ (dupFreeb_freshOf _ hd)
        refine ⟨?_, ?_, ?_⟩
        · show dupOKb (dupC [seqC mi ma cs, attachAt r (freshOf (seqC mi ma cs)) rest]) = true
          unfold dupOKb
          rw [Bool.and_eq_true, Bool.and_eq_true, Bool.and_eq_true]
          refine ⟨⟨⟨rfl, ?_⟩, ?_⟩, ?_⟩
          · rw [List.all_eq_true]
            intro x hx
            have hx2 : x = seqC mi ma cs ∨ x = attachAt r (freshOf (seqC mi ma cs)) rest := by
              simpa using hx
            rcases hx2 with h1 | h1
            · subst h1; exact bnot_isEmpty_of_ne _ ht0ne
            · subst h1; exact bnot_isEmpty_of_ne _ hattne
          · rw [countEmpties_cons, countEmpties_cons]
            have hfz := total_freshOf (seqC mi ma cs)
            simp only [decide_eq_true_eq]
            have hnz : ¬ total (attachAt r (freshOf (seqC mi ma cs)) rest) = 0 := by omega
            rw [if_neg hnz]
            by_cases hz : total (seqC mi ma cs) = 0
            · rw [if_pos hz]; show 1 + (0 + countEmpties []) ≤ 1; rfl
            · rw [if_neg hz]; show 0 + (0 + countEmpties []) ≤ 1
              have h0 : countEmpties [] = 0 := rfl
              omega
          · show (dupOKb (seqC mi ma cs) &&
              dupOKbL [attachAt r (freshOf (seqC mi ma cs)) rest]) = true
            rw [Bool.and_eq_true]
            refine ⟨hd, ?_⟩
            show (dupOKb (attachAt r (freshOf (seqC mi ma cs)) rest) && dupOKbL []) = true
            rw [Bool.and_eq_true]
            exact ⟨dupOKb_attachAt rest _ r hfok, rfl⟩
        · show repOK (dupC [seqC mi ma cs, attachAt r (freshOf (seqC mi ma cs)) rest]) = true
          unfold repOK
          rw [Bool.and_eq_true]
          constructor
          · rw [List.all_eq_true]
            intro x hx
            have hx2 : x = seqC mi ma cs ∨ x = attachAt r (freshOf (seqC mi ma cs)) rest := by
              simpa using hx
            rcases hx2 with h1 | h1
            · subst h1; rfl
            · subst h1
              rcases attachAt_shape rest (freshOf (seqC mi ma cs)) r with ⟨hs1, hs2⟩
              rw [Bool.and_eq_true]
              refine ⟨?_, ?_⟩
              · rw [hs1]; rfl
              · rw [hs2]; rfl
          · show (repOK (seqC mi ma cs) &&
              repOKL [attachAt r (freshOf (seqC mi ma cs)) rest]) = true
            rw [Bool.and_eq_true]
            refine ⟨hr, ?_⟩
            show (repOK (attachAt r (freshOf (seqC mi ma cs)) rest) && repOKL []) = true
            rw [Bool.and_eq_true]
            exact ⟨repOK_attachAt rest _ r hfrok, rfl⟩
        · intro hfalse
          rw [hsOK] at hfalse
          exact Bool.noConfusion hfalse
      · rw [if_neg hcnd] at hl; simp at hl
    · rcases dupAttachSeqAux cs tag 0 q hrr with ⟨j, c, q2, hqe, hg, hcon⟩
      simp only [Nat.zero_add] at hqe
      subst hqe
      have hdc : dupOKb c = true := dupOKbL_get cs j c hd hg
      have hrc : repOK c = true := repOKL_get cs j c hr hg
      have hdup : duplicateAt (seqC mi ma cs) (j :: q2) =
          seqC mi ma (setNth cs j (duplicateAt c q2)) := by
        simp only [duplicateAt, hg]
      have hK : newRepIx (seqC mi ma cs) (j :: q2) = newRepIx c q2 := by
        unfold newRepIx
        have hgat : getAt (seqC mi ma cs) (j :: q2) = getAt c q2 := by
          simp only [getAt]
          rw [hg]
          rfl
        rw [hgat]
      rw [hdup, hK, List.cons_append] at hleaf ⊢
      have hget2 : (setNth cs j (duplicateAt c q2)).get? j = some (duplicateAt c q2) :=
        get?_setNth_self cs j c _ hg
      have hlf : getAt (duplicateAt c q2) (q2 ++ newRepIx c q2 :: rest) =
          some (leafE n mi0 ma0 rs0) := by
        have h0 : getAt (seqC mi ma (setNth cs j (duplicateAt c q2)))
            (j :: (q2 ++ newRepIx c q2 :: rest)) =
            getAt (duplicateAt c q2) (q2 ++ newRepIx c q2 :: rest) := by
          simp only [getAt]
          rw [hget2]
          rfl
        rw [h0] at hleaf
        exact hleaf
      rcases hcon rest r n mi0 ma0 rs0 hdc hrc hlf with ⟨hdok, hrok⟩
      have hatt : attachAt r (seqC mi ma (setNth cs j (duplicateAt c q2)))
          (j :: (q2 ++ newRepIx c q2 :: rest)) =
          seqC mi ma (setNth cs j
            (attachAt r (duplicateAt c q2) (q2 ++ newRepIx c q2 :: rest))) := by
        simp only [attachAt, hget2, setNth_setNth]
      rw [hatt]
      refine ⟨?_, ?_, ?_⟩
      · show dupOKbL (setNth cs j
          (attachAt r (duplicateAt c q2) (q2 ++ newRepIx c q2 :: rest))) = true
        exact dupOKbL_setNth cs j _ hd hdok
      · show repOKL (setNth cs j
          (attachAt r (duplicateAt c q2) (q2 ++ newRepIx c q2 :: rest))) = true
        exact repOKL_setNth cs j _ hr hrok
      · intro _
        exact ⟨rfl, rfl⟩
  | choiceC mi ma ch cs => by
    intro tag sOK q rest r n mi0 ma0 rs0 hq hd hr hleaf
    have hq2 : q ∈ dupTsAll tag cs 0 := by
      cases ch with
      | none => exact hq
      | some k => exact List.mem_of_mem_filter hq
    rcases dupAttachAllAux cs tag 0 q hq2 with ⟨j, c, q2, hqe, hg, hcon⟩
    simp only [Nat.zero_add] at hqe
    subst hqe
    have hdc : dupOKb c = true := dupOKbL_get cs j c hd hg
    have hrc : repOK c = true := repOKL_get cs j c hr hg
    have hdup : duplicateAt (choiceC mi ma ch cs) (j :: q2) =
        choiceC mi ma ch (setNth cs j (duplicateAt c q2)) := by
      simp only [duplicateAt, hg]
    have hK : newRepIx (choiceC mi ma ch cs) (j :: q2) = newRepIx c q2 := by
      unfold newRepIx
      have hgat : getAt (choiceC mi ma ch cs) (j :: q2) = getAt c q2 := by
        simp only [getAt]
        rw [hg]
        rfl
      rw [hgat]
    rw [hdup, hK, List.cons_append] at hleaf ⊢
    have hget2 : (setNth cs j (duplicateAt c q2)).get? j = some (duplicateAt c q2) :=
      get?_setNth_self cs j c _ hg
    have hlf : getAt (duplicateAt c q2) (q2 ++ newRepIx c q2 :: rest) =
        some (leafE n mi0 ma0 rs0) := by
      have h0 : getAt (choiceC mi ma ch (setNth cs j (duplicateAt c q2)))
          (j :: (q2 ++ newRepIx c q2 :: rest)) =
          getAt (duplicateAt c q2) (q2 ++ newRepIx c q2 :: rest) := by
        simp only [getAt]
        rw [hget2]
        rfl
      rw [h0] at hleaf
      exact hleaf
    rcases hcon rest r n mi0 ma0 rs0 hdc hrc hlf with ⟨hdok, hrok⟩
    rcases hql : q2 ++ newRepIx c q2 :: rest with _ | ⟨y, ys⟩
    · exfalso
      cases q2 <;> simp at hql
    · rw [hql] at hdok hrok
      have hatt : attachAt r (choiceC mi ma ch (setNth cs j (duplicateAt c q2)))
          (j :: y :: ys) =
          choiceC mi ma ch (setNth cs j
            (attachAt r (duplicateAt c q2) (y :: ys))) := by
        simp only [attachAt, hget2, setNth_setNth]
      rw [hatt]
      refine ⟨?_, ?_, ?_⟩
      · show dupOKbL (setNth cs j (attachAt r (duplicateAt c q2) (y :: ys))) = true
        exact dupOKbL_setNth cs j _ hd hdok
      · show repOKL (setNth cs j (attachAt r (duplicateAt c q2) (y :: ys))) = true
        exact repOKL_setNth cs j _ hr hrok
      · intro _
        exact ⟨rfl, rfl⟩
  | groupC gn mi ma c => by
    intro tag sOK q rest r n mi0 ma0 rs0 hq hd hr hleaf
    have hq2 : q ∈ (if sOK && maxLt 1 ma && hasLeafNamed tag c
        then [([] : List Nat)] else []) ++ (dupTs tag true c).map (fun p => 0 :: p) := hq
    rcases List.mem_append.1 hq2 with hl | hrr
    · by_cases hcnd : (sOK && maxLt 1 ma && hasLeafNamed tag c) = true
      · have hq0 : q = [] := by rw [if_pos hcnd] at hl; simpa using hl
        subst hq0
        rw [Bool.and_eq_true, Bool.and_eq_true] at hcnd
        have hsOK : sOK = true := hcnd.1.1
        have hhas : hasLeafNamed tag c = true := hcnd.2
        have hlf : getAt (freshOf (groupC gn mi ma c)) rest = some (leafE n mi0 ma0 rs0) := hleaf
        have ht0ne : leafData (groupC gn mi ma c) ≠ [] := hasLeaf_leafData_ne c tag hhas
        have hfne : leafData (freshOf (groupC gn mi ma c)) ≠ [] :=
          leafData_freshOf_ne (groupC gn mi ma c) hd ht0ne
        have hattne : leafData (attachAt r (freshOf (groupC gn mi ma c)) rest) ≠ [] :=
          leafData_ne_of_len _ _ (leafData_attachAt_len rest _ r) hfne
        have hatot : total (attachAt r (freshOf (groupC gn mi ma c)) rest) =
            total (freshOf (groupC gn mi ma c)) + 1 :=
          total_attachAt rest _ r n mi0 ma0 rs0 hlf
        have hfok : dupOKb (freshOf (groupC gn mi ma c)) = true :=
          dupOKb_of_dupFree _ (dupFreeb_freshOf _ hd)
        have hfrok : repOK (freshOf (groupC gn mi ma c)) = true :=
          repOK_of_dupFree _ (dupFreeb_freshOf _ hd)
        refine ⟨?_, ?_, ?_⟩
        · show dupOKb (dupC [groupC gn mi ma c,
            attachAt r (freshOf (groupC gn mi ma c)) rest]) = true
          unfold dupOKb
          rw [Bool.and_eq_true, Bool.and_eq_true, Bool.and_eq_true]
          refine ⟨⟨⟨rfl, ?_⟩, ?_⟩, ?_⟩
          · rw [List.all_eq_true]
            intro x hx
            have hx2 : x = groupC gn mi ma c ∨
                x = attachAt r (freshOf (groupC gn mi ma c)) rest := by
              simpa using hx
            rcases hx2 with h1 | h1
            · subst h1; exact bnot_isEmpty_of_ne _ ht0ne
            · subst h1; exact bnot_isEmpty_of_ne _ hattne
          · rw [countEmpties_cons, countEmpties_cons]
            have hfz := total_freshOf (groupC gn mi ma c)
            simp only [decide_eq_true_eq]
            have hnz : ¬ total (attachAt r (freshOf (groupC gn mi ma c)) rest) = 0 := by omega
            rw [if_neg hnz]
            by_cases hz : total (groupC gn mi ma c) = 0
            · rw [if_pos hz]; show 1 + (0 + countEmpties []) ≤ 1; rfl
            · rw [if_neg hz]; show 0 + (0 + countEmpties []) ≤ 1
              have h0 : countEmpties [] = 0 := rfl
              omega
          · show (dupOKb (groupC gn mi ma c) &&
              dupOKbL [attachAt r (freshOf (groupC gn mi ma c)) rest]) = true
            rw [Bool.and_eq_true]
            refine ⟨hd, ?_⟩
            show (dupOKb (attachAt r (freshOf (groupC gn mi ma c)) rest) && dupOKbL []) = true
            rw [Bool.and_eq_true]
            exact ⟨dupOKb_attachAt rest _ r hfok, rfl⟩
        · show repOK (dupC [groupC gn mi ma c,
            attachAt r (freshOf (groupC gn mi ma c)) rest]) = true
          unfold repOK
          rw [Bool.and_eq_true]
          constructor
          · rw [List.all_eq_true]
            intro x hx
            have hx2 : x = groupC gn mi ma c ∨
                x = attachAt r (freshOf (groupC gn mi ma c)) rest := by
              simpa using hx
            rcases hx2 with h1 | h1
            · subst h1; rfl
            · subst h1
              rcases attachAt_shape rest (freshOf (groupC gn mi ma c)) r with ⟨hs1, hs2⟩
              rw [Bool.and_eq_true]
              refine ⟨?_, ?_⟩
              · rw [hs1]; rfl
              · rw [hs2]; rfl
          · show (repOK (groupC gn mi ma c) &&
              repOKL [attachAt r (freshOf (groupC gn mi ma c)) rest]) = true
            rw [Bool.and_eq_true]
            refine ⟨hr, ?_⟩
            show (repOK (attachAt r (freshOf (groupC gn mi ma c)) rest) && repOKL []) = true
            rw [Bool.and_eq_true]
            exact ⟨repOK_attachAt rest _ r hfrok, rfl⟩
        · intro hfalse
          rw [hsOK] at hfalse
          exact Bool.noConfusion hfalse
      · rw [if_neg hcnd] at hl; simp at hl
    · rcases List.mem_map.1 hrr with ⟨q2, hq2m, hqe⟩
      subst hqe
      have hdup : duplicateAt (groupC gn mi ma c) (0 :: q2) =
          groupC gn mi ma (duplicateAt c q2) := by
        simp [duplicateAt]
      have hK : newRepIx (groupC gn mi ma c) (0 :: q2) = newRepIx c q2 := by
        unfold newRepIx
        have hgat : getAt (groupC gn mi ma c) (0 :: q2) = getAt c q2 := by
          simp [getAt]
        rw [hgat]
      rw [hdup, hK, List.cons_append] at hleaf ⊢
      have hlf : getAt (duplicateAt c q2) (q2 ++ newRepIx c q2 :: rest) =
          some (leafE n mi0 ma0 rs0) := by
        have h0 : getAt (groupC gn mi ma (duplicateAt c q2))
            (0 :: (q2 ++ newRepIx c q2 :: rest)) =
            getAt (duplicateAt c q2) (q2 ++ newRepIx c q2 :: rest) := by
          simp [getAt]
        rw [h0] at hleaf
        exact hleaf
      rcases dupAttach_ok c tag true q2 rest r n mi0 ma0 rs0 hq2m hd hr hlf with
        ⟨hdok, hrok, _⟩
      have hatt : attachAt r (groupC gn mi ma (duplicateAt c q2))
          (0 :: (q2 ++ newRepIx c q2 :: rest)) =
          groupC gn mi ma (attachAt r (duplicateAt c q2) (q2 ++ newRepIx c q2 :: rest)) := by
        simp [attachAt]
      rw [hatt]
      exact ⟨hdok, hrok, fun _ => ⟨rfl, rfl⟩⟩
  | dupC cs => by
    intro tag sOK q rest r n mi0 ma0 rs0 hq hd hr hleaf
    cases cs with
    | nil =>
      have hq2 : q ∈ ([] : List (List Nat)) ++ dupTsDup tag ([] : List CNode) 0 := hq
      simp [dupTsDup] at hq2
    | cons c0 cs2 =>
      unfold dupOKb at hd
      rw [Bool.and_eq_true, Bool.and_eq_true, Bool.and_eq_true] at hd
      unfold repOK at hr
      rw [Bool.and_eq_true] at hr
      have hq2 : q ∈ (if maxLt (c0 :: cs2).length (maxOccOf c0) && hasLeafNamed tag c0
          then [([] : List Nat)] else []) ++ dupTsDup tag (c0 :: cs2) 0 := hq
      rcases List.mem_append.1 hq2 with hl | hrr
      · by_cases hcnd : (maxLt (c0 :: cs2).length (maxOccOf c0) && hasLeafNamed tag c0) = true
        · have hq0 : q = [] := by rw [if_pos hcnd] at hl; simpa using hl
          subst hq0
          rw [Bool.and_eq_true] at hcnd
          have hhas : hasLeafNamed tag c0 = true := hcnd.2
          have hdc0 : dupOKb c0 = true := dupOKbL_get (c0 :: cs2) 0 c0 hd.2 rfl
          have hrc0 : repOK c0 = true := repOKL_get (c0 :: cs2) 0 c0 hr.2 rfl
          have hc0ne : leafData c0 ≠ [] := dupAll_get (c0 :: cs2) 0 c0 hd.1.1.2 rfl
          have hfne : leafData (freshOf c0) ≠ [] := leafData_freshOf_ne c0 hdc0 hc0ne
          have hget2 : ((c0 :: cs2) ++ [freshOf c0]).get? (c0 :: cs2).length =
              some (freshOf c0) := get?_concat_len (c0 :: cs2) (freshOf c0)
          have hpath : ([] : List Nat) ++ newRepIx (dupC (c0 :: cs2)) [] :: rest =
              (c0 :: cs2).length :: rest := rfl
          have hdup2 : duplicateAt (dupC (c0 :: cs2)) [] =
              dupC ((c0 :: cs2) ++ [freshOf c0]) := rfl
          rw [hdup2, hpath] at hleaf ⊢
          have hlf : getAt (freshOf c0) rest = some (leafE n mi0 ma0 rs0) := by
            have h0 : getAt (dupC ((c0 :: cs2) ++ [freshOf c0]))
                ((c0 :: cs2).length :: rest) = getAt (freshOf c0) rest := by
              simp only [getAt]
              rw [hget2]
              rfl
            rw [h0] at hleaf
            exact hleaf
          have hattne : leafData (attachAt r (freshOf c0) rest) ≠ [] :=
            leafData_ne_of_len _ _ (leafData_attachAt_len rest _ r) hfne
          have hatot : total (attachAt r (freshOf c0) rest) = total (freshOf c0) + 1 :=
            total_attachAt rest _ r n mi0 ma0 rs0 hlf
          have hatt : attachAt r (dupC ((c0 :: cs2) ++ [freshOf c0]))
              ((c0 :: cs2).length :: rest) =
              dupC ((c0 :: cs2) ++ [attachAt r (freshOf c0) rest]) := by
            simp only [attachAt, hget2, setNth_concat_len]
          rw [hatt]
          refine ⟨?_, ?_, ?_⟩
          · unfold dupOKb
            rw [Bool.and_eq_true, Bool.and_eq_true, Bool.and_eq_true]
            refine ⟨⟨⟨rfl, ?_⟩, ?_⟩, ?_⟩
            · exact dupAll_append_ne (c0 :: cs2) _ hd.1.1.2 hattne
            · rw [countEmpties_append_single]
              have hfz := total_freshOf c0
              simp only [decide_eq_true_eq]
              have hnz : ¬ total (attachAt r (freshOf c0) rest) = 0 := by omega
              rw [if_neg hnz]
              have h2 : countEmpties (c0 :: cs2) ≤ 1 := by simpa using hd.1.2
              omega
            · exact dupOKbL_append_single (c0 :: cs2) _ hd.2
                (dupOKb_attachAt rest _ r (dupOKb_of_dupFree _ (dupFreeb_freshOf c0 hdc0)))
          · unfold repOK
            rw [Bool.and_eq_true]
            constructor
            · rcases repAll_get (c0 :: cs2) 0 c0 hr.1 rfl with ⟨hl0, hd0⟩
              rcases freshOf_shape c0 hl0 hd0 with ⟨hfl, hfd⟩
              rcases attachAt_shape rest (freshOf c0) r with ⟨hal, had⟩
              exact repAll_append (c0 :: cs2) _ hr.1 (by rw [hal]; exact hfl)
                (by rw [had]; exact hfd)
            · exact repOKL_append_single (c0 :: cs2) _ hr.2
                (repOK_attachAt rest _ r (repOK_of_dupFree _ (dupFreeb_freshOf c0 hdc0)))
          · intro _
            exact ⟨rfl, rfl⟩
        · rw [if_neg hcnd] at hl; simp at hl
      · rcases dupAttachDupAux (c0 :: cs2) tag 0 q hrr with ⟨j, c, q2, hqe, hg, hcon⟩
        simp only [Nat.zero_add] at hqe
        subst hqe
        have hdc : dupOKb c = true := dupOKbL_get (c0 :: cs2) j c hd.2 hg
        have hrc : repOK c = true := repOKL_get (c0 :: cs2) j c hr.2 hg
        have hdup : duplicateAt (dupC (c0 :: cs2)) (j :: q2) =
            dupC (setNth (c0 :: cs2) j (duplicateAt c q2)) := by
          simp only [duplicateAt, hg]
        have hK : newRepIx (dupC (c0 :: cs2)) (j :: q2) = newRepIx c q2 := by
          unfold newRepIx
          have hgat : getAt (dupC (c0 :: cs2)) (j :: q2) = getAt c q2 := by
            simp only [getAt]
            rw [hg]
            rfl
          rw [hgat]
        rw [hdup, hK, List.cons_append] at hleaf ⊢
        have hget2 : (setNth (c0 :: cs2) j (duplicateAt c q2)).get? j =
            some (duplicateAt c q2) := get?_setNth_self (c0 :: cs2) j c _ hg
        have hlf : getAt (duplicateAt c q2) (q2 ++ newRepIx c q2 :: rest) =
            some (leafE n mi0 ma0 rs0) := by
          have h0 : getAt (dupC (setNth (c0 :: cs2) j (duplicateAt c q2)))
              (j :: (q2 ++ newRepIx c q2 :: rest)) =
              getAt (duplicateAt c q2) (q2 ++ newRepIx c q2 :: rest) := by
            simp only [getAt]
            rw [hget2]
            rfl
          rw [h0] at hleaf
          exact hleaf
        rcases hcon rest r n mi0 ma0 rs0 hdc hrc hlf with ⟨hdok, hrok, hshl, hshd⟩
        have hatt : attachAt r (dupC (setNth (c0 :: cs2) j (duplicateAt c q2)))
            (j :: (q2 ++ newRepIx c q2 :: rest)) =
            dupC (setNth (c0 :: cs2) j
              (attachAt r (duplicateAt c q2) (q2 ++ newRepIx c q2 :: rest))) := by
          simp only [attachAt, hget2, setNth_setNth]
        rw [hatt]
        have htotY : total (attachAt r (duplicateAt c q2) (q2 ++ newRepIx c q2 :: rest)) =
            total c + 1 := by
          have h1 := total_attachAt (q2 ++ newRepIx c q2 :: rest) (duplicateAt c q2) r
            n mi0 ma0 rs0 hlf
          have h2 := total_duplicateAt q2 c
          omega
        have hlenY : (leafData c).length ≤
            (leafData (attachAt r (duplicateAt c q2) (q2 ++ newRepIx c q2 :: rest))).length := by
          have h1 := leafData_attachAt_len (q2 ++ newRepIx c q2 :: rest) (duplicateAt c q2) r
          have h2 := leafData_dup_ge q2 c
          omega
        have hcne : leafData c ≠ [] := dupAll_get (c0 :: cs2) j c hd.1.1.2 hg
        have hYne : leafData (attachAt r (duplicateAt c q2)
            (q2 ++ newRepIx c q2 :: rest)) ≠ [] := by
          intro hcon2
          rw [hcon2] at hlenY
          have hz : (leafData c).length = 0 := by
            have h0 : ([] : List (String × Nat)).length = 0 := rfl
            omega
          exact hcne (List.length_eq_zero.1 hz)
        refine ⟨?_, ?_, ?_⟩
        · unfold dupOKb
          rw [Bool.and_eq_true, Bool.and_eq_true, Bool.and_eq_true]
          refine ⟨⟨⟨?_, ?_⟩, ?_⟩, ?_⟩
          · cases hx : (setNth (c0 :: cs2) j (attachAt r (duplicateAt c q2)
                (q2 ++ newRepIx c q2 :: rest))).isEmpty
            · rfl
            · rw [List.isEmpty_iff] at hx
              exact absurd hx (by cases j <;> simp [setNth])
          · exact dupAll_setNth_ne (c0 :: cs2) j _ hd.1.1.2 hYne
          · have hce := countEmpties_setNth (c0 :: cs2) j c
              (attachAt r (duplicateAt c q2) (q2 ++ newRepIx c q2 :: rest)) hg
            have hnz : ¬ total (attachAt r (duplicateAt c q2)
                (q2 ++ newRepIx c q2 :: rest)) = 0 := by omega
            rw [if_neg hnz] at hce
            have h2 : countEmpties (c0 :: cs2) ≤ 1 := by simpa using hd.1.2
            simp only [decide_eq_true_eq]
            by_cases hz : total c = 0
            · rw [if_pos hz] at hce; omega
            · rw [if_neg hz] at hce; omega
          · exact dupOKbL_setNth (c0 :: cs2) j _ hd.2 hdok
        · unfold repOK
          rw [Bool.and_eq_true]
          constructor
          · rcases repAll_get (c0 :: cs2) j c hr.1 hg with ⟨hl0, hd0⟩
            exact repAll_setNth (c0 :: cs2) j _ hr.1 (by rw [hshl]; exact hl0)
              (by rw [hshd]; exact hd0)
          · exact repOKL_setNth (c0 :: cs2) j _ hr.2 hrok
        · intro _
          exact ⟨rfl, rfl⟩

theorem dupAttachSeqAux : (cs : List CNode) → ∀ (tag : String) (a : Nat) (q : List Nat),
    q ∈ dupTsSeq tag cs a →
    ∃ j c q2, q = (a + j) :: q2 ∧ cs.get? j = some c ∧
      ∀ (rest : List Nat) (r : Nat) (n : String) (mi0 : Nat) (ma0 : Option Nat)
        (rs0 : List Nat), dupOKb c = true → repOK c = true →
        getAt (duplicateAt c q2) (q2 ++ newRepIx c q2 :: rest) = some (leafE n mi0 ma0 rs0) →
        dupOKb (attachAt r (duplicateAt c q2) (q2 ++ newRepIx c q2 :: rest)) = true ∧
        repOK (attachAt r (duplicateAt c q2) (q2 ++ newRepIx c q2 :: rest)) = true
  | [] => by intro tag a q hq; simp [dupTsSeq] at hq
  | c :: rest => by
    intro tag a q hq
    have hq2 : q ∈ (if minOccOf c == 0 && decide (totalL rest > 0) then []
        else (dupTs tag true c).map (fun p => a :: p)) ++ dupTsSeq tag rest (a + 1) := hq
    rcases List.mem_append.1 hq2 with hl | hr
    · by_cases hcnd : (minOccOf c == 0 && decide (totalL rest > 0)) = true
      · rw [if_pos hcnd] at hl; simp at hl
      · rw [if_neg hcnd] at hl
        rcases List.mem_map.1 hl with ⟨q2, hm, he⟩
        refine ⟨0, c, q2, ?_, rfl, ?_⟩
        · rw [← he]; simp
        · intro rest2 r n mi0 ma0 rs0 hdc hrc hlf
          rcases dupAttach_ok c tag true q2 rest2 r n mi0 ma0 rs0 hm hdc hrc hlf with
            ⟨h1, h2, _⟩
          exact ⟨h1, h2⟩
    · rcases dupAttachSeqAux rest tag (a + 1) q hr with ⟨j, c2, q2, hqe, hg, hcon⟩
      refine ⟨j + 1, c2, q2, ?_, hg, hcon⟩
      rw [hqe]
      have harith : a + 1 + j = a + (j + 1) := by omega
      rw [harith]

theorem dupAttachDupAux : (cs : List CNode) → ∀ (tag : String) (a : Nat) (q : List Nat),
    q ∈ dupTsDup tag cs a →
    ∃ j c q2, q = (a + j) :: q2 ∧ cs.get? j = some c ∧
      ∀ (rest : List Nat) (r : Nat) (n : String) (mi0 : Nat) (ma0 : Option Nat)
        (rs0 : List Nat), dupOKb c = true → repOK c = true →
        getAt (duplicateAt c q2) (q2 ++ newRepIx c q2 :: rest) = some (leafE n mi0 ma0 rs0) →
        dupOKb (attachAt r (duplicateAt c q2) (q2 ++ newRepIx c q2 :: rest)) = true ∧
        repOK (attachAt r (duplicateAt c q2) (q2 ++ newRepIx c q2 :: rest)) = true ∧
        isLeafb (attachAt r (duplicateAt c q2) (q2 ++ newRepIx c q2 :: rest)) = isLeafb c ∧
        isDupb (attachAt r (duplicateAt c q2) (q2 ++ newRepIx c q2 :: rest)) = isDupb c
  | [] => by intro tag a q hq; simp [dupTsDup] at hq
  | c :: rest => by
    intro tag a q hq
    have hq2 : q ∈ (if minOccOf c == 0 && decide (totalL rest > 0) then []
        else (dupTs tag false c).map (fun p => a :: p)) ++ dupTsDup tag rest (a + 1) := hq
    rcases List.mem_append.1 hq2 with hl | hr
    · by_cases hcnd : (minOccOf c == 0 && decide (totalL rest > 0)) = true
      · rw [if_pos hcnd] at hl; simp at hl
      · rw [if_neg hcnd] at hl
        rcases List.mem_map.1 hl with ⟨q2, hm, he⟩
        refine ⟨0, c, q2, ?_, rfl, ?_⟩
        · rw [← he]; simp
        · intro rest2 r n mi0 ma0 rs0 hdc hrc hlf
          rcases dupAttach_ok c tag false q2 rest2 r n mi0 ma0 rs0 hm hdc hrc hlf with
            ⟨h1, h2, h3⟩
          rcases h3 rfl with ⟨h4, h5⟩
          exact ⟨h1, h2, h4, h5⟩
    · rcases dupAttachDupAux rest tag (a + 1) q hr with ⟨j, c2, q2, hqe, hg, hcon⟩
      refine ⟨j + 1, c2, q2, ?_, hg, hcon⟩
      rw [hqe]
      have harith : a + 1 + j = a + (j + 1) := by omega
      rw [harith]

theorem dupAttachAllAux : (cs : List CNode) → ∀ (tag : String) (a : Nat) (q : List Nat),
    q ∈ dupTsAll tag cs a →
    ∃ j c q2, q = (a + j) :: q2 ∧ cs.get? j = some c ∧
      ∀ (rest : List Nat) (r : Nat) (n : String) (mi0 : Nat) (ma0 : Option Nat)
        (rs0 : List Nat), dupOKb c = true → repOK c = true →
        getAt (duplicateAt c q2) (q2 ++ newRepIx c q2 :: rest) = some (leafE n mi0 ma0 rs0) →
        dupOKb (attachAt r (duplicateAt c q2) (q2 ++ newRepIx c q2 :: rest)) = true ∧
        repOK (attachAt r (duplicateAt c q2) (q2 ++ newRepIx c q2 :: rest)) = true
  | [] => by intro tag a q hq; simp [dupTsAll] at hq
  | c :: rest => by
    intro tag a q hq
    have hq2 : q ∈ (dupTs tag true c).map (fun p => a :: p) ++ dupTsAll tag rest (a + 1) := hq
    rcases List.mem_append.1 hq2 with hl | hr
    · rcases List.mem_map.1 hl with ⟨q2, hm, he⟩
      refine ⟨0, c, q2, ?_, rfl, ?_⟩
      · rw [← he]; simp
      · intro rest2 r n mi0 ma0 rs0 hdc hrc hlf
        rcases dupAttach_ok c tag true q2 rest2 r n mi0 ma0 rs0 hm hdc hrc hlf with
          ⟨h1, h2, _⟩
        exact ⟨h1, h2⟩
    · rcases dupAttachAllAux rest tag (a + 1) q hr with ⟨j, c2, q2, hqe, hg, hcon⟩
      refine ⟨j + 1, c2, q2, ?_, hg, hcon⟩
      rw [hqe]
      have harith : a + 1 + j = a + (j + 1) := by omega
      rw [harith]
end

end CNode

end MusicXml

namespace MusicXml

namespace CNode

/-- Case analysis of a successful add: either a reachable Leaf existed and the
reference went there, or no Leaf accepted the tag, one repetition was
materialized, and the reference went to a Leaf inside the fresh repetition. -/
theorem addEl_cases (t : CNode) (tag : String) (fwd : Option Nat) (r : Nat)
    (t2 : CNode) (p : List Nat) (hadd : addEl t tag fwd r = some (t2, p)) :
    ((p, tag) ∈ cands t ∧ t2 = attachAt r t p) ∨
    (∃ q, q ∈ dupTs tag true t ∧ candsFor t tag = [] ∧
      (p, tag) ∈ cands (duplicateAt t q) ∧
      (∃ rest, p = q ++ newRepIx t q :: rest) ∧
      t2 = attachAt r (duplicateAt t q) p) := by
  unfold addEl at hadd
  rcases hcf : candsFor t tag with _ | ⟨pn0, pns⟩
  · rw [hcf] at hadd
    rcases hdt : dupTs tag true t with _ | ⟨q, qs⟩
    · rw [hdt] at hadd
      exact Option.noConfusion hadd
    · rw [hdt] at hadd
      rcases hcf2 : (candsFor (duplicateAt t q) tag).get? (fwd.getD 0) with _ | pn
      · simp only [hcf2] at hadd
        exact Option.noConfusion hadd
      · simp only [hcf2] at hadd
        have hmem : pn ∈ candsFor (duplicateAt t q) tag := List.get?_mem hcf2
        have hmem2 : pn ∈ cands (duplicateAt t q) := (List.mem_filter.1 hmem).1
        have htag : pn.2 = tag := by
          have := (List.mem_filter.1 hmem).2
          simpa using this
        injection hadd with hpair
        injection hpair with h1 h2
        have hq : q ∈ dupTs tag true t := by rw [hdt]; exact List.mem_cons_self q qs
        have hpn_eta : ((p, tag) : List Nat × String) = pn := by
          have : pn = (pn.1, pn.2) := rfl
          rw [this, h2, htag]
        right
        refine ⟨q, List.mem_cons_self q qs, rfl, ?_, ?_, ?_⟩
        · rw [hpn_eta]
          exact hmem2
        · rcases candsDup_split t tag true q pn hq hmem2 with ⟨rest, hrest⟩ | ⟨p2, hm3⟩
          · exact ⟨rest, by rw [← h2]; exact hrest⟩
          · exfalso
            have hm4 : (p2, tag) ∈ candsFor t tag := by
              apply List.mem_filter.2
              refine ⟨?_, by simp⟩
              rw [← htag]
              exact hm3
            rw [hcf] at hm4
            exact absurd hm4 (List.not_mem_nil _)
        · rw [← h1, ← h2]
  · rw [hcf] at hadd
    rcases hget : (pn0 :: pns).get? (fwd.getD 0) with _ | pn
    · simp only [hget] at hadd
      exact Option.noConfusion hadd
    · simp only [hget] at hadd
      injection hadd with hpair
      injection hpair with h1 h2
      have hmem : pn ∈ candsFor t tag := by
        rw [hcf]
        exact List.get?_mem hget
      have hmem2 : pn ∈ cands t := (List.mem_filter.1 hmem).1
      have htag : pn.2 = tag := by
        have := (List.mem_filter.1 hmem).2
        simpa using this
      left
      constructor
      · have hpn_eta : ((p, tag) : List Nat × String) = pn := by
          have : pn = (pn.1, pn.2) := rfl
          rw [this, h2, htag]
        rw [hpn_eta]
        exact hmem2
      · rw [← h1, ← h2]

/-- A successful add preserves duplication health and repetition shape. -/
theorem dupOKb_repOK_addEl (t : CNode) (tag : String) (fwd : Option Nat) (r : Nat)
    (t2 : CNode) (p : List Nat) (hadd : addEl t tag fwd r = some (t2, p))
    (hd : dupOKb t = true) (hr : repOK t = true) :
    dupOKb t2 = true ∧ repOK t2 = true := by
  rcases addEl_cases t tag fwd r t2 p hadd with ⟨_, ht2⟩ | ⟨q, hq, _, hpc, ⟨rest, hrest⟩, ht2⟩
  · subst ht2
    exact ⟨dupOKb_attachAt p t r hd, repOK_attachAt p t r hr⟩
  · subst ht2
    rcases cands_sound (duplicateAt t q) (p, tag) hpc with ⟨mi2, ma2, rs2, hga, _⟩
    rw [hrest] at hga ⊢
    rcases dupAttach_ok t tag true q rest r tag mi2 ma2 rs2 hq hd hr hga with ⟨h1, h2, _⟩
    exact ⟨h1, h2⟩

theorem confbL_get_pair : ∀ (cs gs : List CNode), confbL cs gs = true →
    ∀ (i : Nat) (c : CNode), cs.get? i = some c →
    ∃ gi, gs.get? i = some gi ∧ confb c gi = true := confbL_get

theorem confb_attachAt : ∀ (p : List Nat) (t g : CNode) (r : Nat),
    confb t g = true → confb (attachAt r t p) g = true := by
  intro p
  induction p with
  | nil =>
    intro t g r hc
    cases t with
    | leafE n mi ma rs =>
      cases g with
      | leafE n2 mi2 ma2 rs2 => exact hc
      | seqC mi2 ma2 gs => exact absurd hc (by simp [confb])
      | choiceC mi2 ma2 ch2 gs => exact absurd hc (by simp [confb])
      | groupC g2 mi2 ma2 c2 => exact absurd hc (by simp [confb])
      | dupC gs => exact absurd hc (by simp [confb])
    | seqC mi ma cs => exact hc
    | choiceC mi ma ch cs => exact hc
    | groupC gn mi ma c => exact hc
    | dupC cs => exact hc
  | cons i p ih =>
    intro t g r hc
    cases t with
    | leafE n mi ma rs => exact hc
    | seqC mi ma cs =>
      cases g with
      | leafE n2 mi2 ma2 rs2 => exact absurd hc (by simp [confb])
      | seqC mi2 ma2 gs =>
        have hc2 : (mi == mi2 && ma == ma2 && confbL cs gs) = true := hc
        rw [Bool.and_eq_true, Bool.and_eq_true] at hc2
        rcases hg : cs.get? i with _ | c
        · simp only [attachAt, hg]
          exact hc
        · simp only [attachAt, hg]
          rcases confbL_get cs gs hc2.2 i c hg with ⟨gi, hgi, hcg⟩
          show (mi == mi2 && ma == ma2 && confbL (setNth cs i (attachAt r c p)) gs) = true
          rw [Bool.and_eq_true, Bool.and_eq_true]
          exact ⟨hc2.1, confbL_setNth cs gs i _ gi hc2.2 hgi (ih c gi r hcg)⟩
      | choiceC mi2 ma2 ch2 gs => exact absurd hc (by simp [confb])
      | groupC g2 mi2 ma2 c2 => exact absurd hc (by simp [confb])
      | dupC gs => exact absurd hc (by simp [confb])
    | choiceC mi ma ch cs =>
      cases g with
      | leafE n2 mi2 ma2 rs2 => exact absurd hc (by simp [confb])
      | seqC mi2 ma2 gs => exact absurd hc (by simp [confb])
      | choiceC mi2 ma2 ch2 gs =>
        have hc2 : (mi == mi2 && ma == ma2 && confbL cs gs) = true := hc
        rw [Bool.and_eq_true, Bool.and_eq_true] at hc2
        rcases hg : cs.get? i with _ | c
        · simp only [attachAt, hg]
          exact hc
        · simp only [attachAt, hg]
          rcases confbL_get cs gs hc2.2 i c hg with ⟨gi, hgi, hcg⟩
          show (mi == mi2 && ma == ma2 && confbL (setNth cs i (attachAt r c p)) gs) = true
          rw [Bool.and_eq_true, Bool.and_eq_true]
          exact ⟨hc2.1, confbL_setNth cs gs i _ gi hc2.2 hgi (ih c gi r hcg)⟩
      | groupC g2 mi2 ma2 c2 => exact absurd hc (by simp [confb])
      | dupC gs => exact absurd hc (by simp [confb])
    | groupC gn mi ma c =>
      cases g with
      | leafE n2 mi2 ma2 rs2 => exact absurd hc (by simp [confb])
      | seqC mi2 ma2 gs => exact absurd hc (by simp [confb])
      | choiceC mi2 ma2 ch2 gs => exact absurd hc (by simp [confb])
      | groupC g2 mi2 ma2 c2 =>
        have hc2 : (gn == g2 && mi == mi2 && ma == ma2 && confb c c2) = true := hc
        rw [Bool.and_eq_true, Bool.and_eq_true, Bool.and_eq_true] at hc2
        by_cases hi : i = 0
        · simp only [attachAt, hi, if_pos]
          show (gn == g2 && mi == mi2 && ma == ma2 && confb (attachAt r c p) c2) = true
          rw [Bool.and_eq_true, Bool.and_eq_true, Bool.and_eq_true]
          exact ⟨hc2.1, ih c c2 r hc2.2⟩
        · simp only [attachAt, hi, if_neg, not_false_iff]
          exact hc
      | dupC gs => exact absurd hc (by simp [confb])
    | dupC cs =>
      have hc2 : confbDup cs g = true := hc
      rcases (confbDup_iff cs g).1 hc2 with ⟨hne, hall⟩
      rcases hg : cs.get? i with _ | c
      · simp only [attachAt, hg]
        exact hc
      · simp only [attachAt, hg]
        show confbDup (setNth cs i (attachAt r c p)) g = true
        apply (confbDup_iff _ g).2
        constructor
        · intro hcon
          have hz : (setNth cs i (attachAt r c p)).length = 0 := by rw [hcon]; rfl
          rw [length_setNth] at hz
          exact hne (List.length_eq_zero.1 hz)
        · intro x hx
          rcases mem_setNth cs i _ x hx with h1 | h1
          · subst h1
            exact ih c g r (hall c (List.get?_mem hg))
          · exact hall x h1

theorem confb_duplicateAt : ∀ (q : List Nat) (t g : CNode),
    confb t g = true → confb (duplicateAt t q) g = true := by
  intro q
  induction q with
  | nil =>
    intro t g hc
    cases t with
    | leafE n mi ma rs =>
      show confbDup [leafE n mi ma rs, freshOf (leafE n mi ma rs)] g = true
      apply (confbDup_iff _ g).2
      refine ⟨by simp, ?_⟩
      intro x hx
      have hx2 : x = leafE n mi ma rs ∨ x = freshOf (leafE n mi ma rs) := by simpa using hx
      rcases hx2 with h1 | h1
      · subst h1; exact hc
      · subst h1; exact confb_freshOf _ g hc
    | seqC mi ma cs =>
      show confbDup [seqC mi ma cs, freshOf (seqC mi ma cs)] g = true
      apply (confbDup_iff _ g).2
      refine ⟨by simp, ?_⟩
      intro x hx
      have hx2 : x = seqC mi ma cs ∨ x = freshOf (seqC mi ma cs) := by simpa using hx
      rcases hx2 with h1 | h1
      · subst h1; exact hc
      · subst h1; exact confb_freshOf _ g hc
    | choiceC mi ma ch cs =>
      show confbDup [choiceC mi ma ch cs, freshOf (choiceC mi ma ch cs)] g = true
      apply (confbDup_iff _ g).2
      refine ⟨by simp, ?_⟩
      intro x hx
      have hx2 : x = choiceC mi ma ch cs ∨ x = freshOf (choiceC mi ma ch cs) := by simpa using hx
      rcases hx2 with h1 | h1
      · subst h1; exact hc
      · subst h1; exact confb_freshOf _ g hc
    | groupC gn mi ma c =>
      show confbDup [groupC gn mi ma c, freshOf (groupC gn mi ma c)] g = true
      apply (confbDup_iff _ g).2
      refine ⟨by simp, ?_⟩
      intro x hx
      have hx2 : x = groupC gn mi ma c ∨ x = freshOf (groupC gn mi ma c) := by simpa using hx
      rcases hx2 with h1 | h1
      · subst h1; exact hc
      · subst h1; exact confb_freshOf _ g hc
    | dupC cs =>
      cases cs with
      | nil => exact hc
      | cons c0 cs2 =>
        have hc2 : confbDup (c0 :: cs2) g = true := hc
        rcases (confbDup_iff _ g).1 hc2 with ⟨_, hall⟩
        show confbDup ((c0 :: cs2) ++ [freshOf c0]) g = true
        apply (confbDup_iff _ g).2
        refine ⟨by simp, ?_⟩
        intro x hx
        rcases List.mem_append.1 hx with h1 | h1
        · exact hall x h1
        · have h2 : x = freshOf c0 := by simpa using h1
          subst h2
          exact confb_freshOf c0 g (hall c0 (List.mem_cons_self c0 cs2))
  | cons i q ih =>
    intro t g hc
    cases t with
    | leafE n mi ma rs => exact hc
    | seqC mi ma cs =>
      cases g with
      | leafE n2 mi2 ma2 rs2 => exact absurd hc (by simp [confb])
      | seqC mi2 ma2 gs =>
        have hc2 : (mi == mi2 && ma == ma2 && confbL cs gs) = true := hc
        rw [Bool.and_eq_true, Bool.and_eq_true] at hc2
        rcases hg : cs.get? i with _ | c
        · simp only [duplicateAt, hg]
          exact hc
        · simp only [duplicateAt, hg]
          rcases confbL_get cs gs hc2.2 i c hg with ⟨gi, hgi, hcg⟩
          show (mi == mi2 && ma == ma2 && confbL (setNth cs i (duplicateAt c q)) gs) = true
          rw [Bool.and_eq_true, Bool.and_eq_true]
          exact ⟨hc2.1, confbL_setNth cs gs i _ gi hc2.2 hgi (ih c gi hcg)⟩
      | choiceC mi2 ma2 ch2 gs => exact absurd hc (by simp [confb])
      | groupC g2 mi2 ma2 c2 => exact absurd hc (by simp [confb])
      | dupC gs => exact absurd hc (by simp [confb])
    | choiceC mi ma ch cs =>
      cases g with
      | leafE n2 mi2 ma2 rs2 => exact absurd hc (by simp [confb])
      | seqC mi2 ma2 gs => exact absurd hc (by simp [confb])
      | choiceC mi2 ma2 ch2 gs =>
        have hc2 : (mi == mi2 && ma == ma2 && confbL cs gs) = true := hc
        rw [Bool.and_eq_true, Bool.and_eq_true] at hc2
        rcases hg : cs.get? i with _ | c
        · simp only [duplicateAt, hg]
          exact hc
        · simp only [duplicateAt, hg]
          rcases confbL_get cs gs hc2.2 i c hg with ⟨gi, hgi, hcg⟩
          show (mi == mi2 && ma == ma2 && confbL (setNth cs i (duplicateAt c q)) gs) = true
          rw [Bool.and_eq_true, Bool.and_eq_true]
          exact ⟨hc2.1, confbL_setNth cs gs i _ gi hc2.2 hgi (ih c gi hcg)⟩
      | groupC g2 mi2 ma2 c2 => exact absurd hc (by simp [confb])
      | dupC gs => exact absurd hc (by simp [confb])
    | groupC gn mi ma c =>
      cases g with
      | leafE n2 mi2 ma2 rs2 => exact absurd hc (by simp [confb])
      | seqC mi2 ma2 gs => exact absurd hc (by simp [confb])
      | choiceC mi2 ma2 ch2 gs => exact absurd hc (by simp [confb])
      | groupC g2 mi2 ma2 c2 =>
        have hc2 : (gn == g2 && mi == mi2 && ma == ma2 && confb c c2) = true := hc
        rw [Bool.and_eq_true, Bool.and_eq_true, Bool.and_eq_true] at hc2
        by_cases hi : i = 0
        · simp only [duplicateAt, hi, if_pos]
          show (gn == g2 && mi == mi2 && ma == ma2 && confb (duplicateAt c q) c2) = true
          rw [Bool.and_eq_true, Bool.and_eq_true, Bool.and_eq_true]
          exact ⟨hc2.1, ih c c2 hc2.2⟩
        · simp only [duplicateAt, hi, if_neg, not_false_iff]
          exact hc
      | dupC gs => exact absurd hc (by simp [confb])
    | dupC cs =>
      have hc2 : confbDup cs g = true := hc
      rcases (confbDup_iff cs g).1 hc2 with ⟨hne, hall⟩
      rcases hg : cs.get? i with _ | c
      · simp only [duplicateAt, hg]
        exact hc
      · simp only [duplicateAt, hg]
        show confbDup (setNth cs i (duplicateAt c q)) g = true
        apply (confbDup_iff _ g).2
        constructor
        · intro hcon
          have hz : (setNth cs i (duplicateAt c q)).length = 0 := by rw [hcon]; rfl
          rw [length_setNth] at hz
          exact hne (List.length_eq_zero.1 hz)
        · intro x hx
          rcases mem_setNth cs i _ x hx with h1 | h1
          · subst h1
            exact ih c g (hall c (List.get?_mem hg))
          · exact hall x h1

theorem confb_addEl (t g : CNode) (tag : String) (fwd : Option Nat) (r : Nat)
    (t2 : CNode) (p : List Nat) (hadd : addEl t tag fwd r = some (t2, p))
    (hc : confb t g = true) : confb t2 g = true := by
  rcases addEl_cases t tag fwd r t2 p hadd with ⟨_, ht2⟩ | ⟨q, _, _, _, _, ht2⟩
  · subst ht2
    exact confb_attachAt p t g r hc
  · subst ht2
    exact confb_attachAt p _ g r (confb_duplicateAt q t g hc)

theorem refsL_setNth_eq : ∀ (cs : List CNode) (i : Nat) (c c2 : CNode),
    cs.get? i = some c → refsOf c2 = refsOf c →
    refsL (setNth cs i c2) = refsL cs := by
  intro cs
  induction cs with
  | nil => intro i c c2 h _; exact Option.noConfusion h
  | cons c0 rest ih =>
    intro i c c2 h he
    cases i with
    | zero =>
      have h2 : c0 = c := Option.some.inj h
      subst h2
      show refsOf c2 ++ refsL rest = refsOf c0 ++ refsL rest
      rw [he]
    | succ j =>
      have h2 : rest.get? j = some c := h
      show refsOf c0 ++ refsL (setNth rest j c2) = refsOf c0 ++ refsL rest
      rw [ih j c c2 h2 he]

theorem refsOf_duplicateAt : ∀ (q : List Nat) (t : CNode),
    refsOf (duplicateAt t q) = refsOf t := by
  intro q
  induction q with
  | nil =>
    intro t
    cases t with
    | leafE n mi ma rs =>
      show refsOf (leafE n mi ma rs) ++ (refsOf (freshOf (leafE n mi ma rs)) ++ []) = _
      rw [refsOf_freshOf]
      rw [List.append_nil, List.append_nil]
    | seqC mi ma cs =>
      show refsOf (seqC mi ma cs) ++ (refsOf (freshOf (seqC mi ma cs)) ++ []) = _
      rw [refsOf_freshOf]
      rw [List.append_nil, List.append_nil]
    | choiceC mi ma ch cs =>
      show refsOf (choiceC mi ma ch cs) ++ (refsOf (freshOf (choiceC mi ma ch cs)) ++ []) = _
      rw [refsOf_freshOf]
      rw [List.append_nil, List.append_nil]
    | groupC gn mi ma c =>
      show refsOf (groupC gn mi ma c) ++ (refsOf (freshOf (groupC gn mi ma c)) ++ []) = _
      rw [refsOf_freshOf]
      rw [List.append_nil, List.append_nil]
    | dupC cs =>
      cases cs with
      | nil => rfl
      | cons c0 cs2 =>
        show refsL ((c0 :: cs2) ++ [freshOf c0]) = refsL (c0 :: cs2)
        rw [refsL_append]
        have h1 : refsL [freshOf c0] = refsOf (freshOf c0) ++ [] := rfl
        rw [h1, refsOf_freshOf]
        rw [List.append_nil, List.append_nil]
  | cons i q ih =>
    intro t
    cases t with
    | leafE n mi ma rs => rfl
    | seqC mi ma cs =>
      rcases hg : cs.get? i with _ | c
      · simp only [duplicateAt, hg]
      · simp only [duplicateAt, hg]
        show refsL (setNth cs i (duplicateAt c q)) = refsL cs
        exact refsL_setNth_eq cs i c _ hg (ih c)
    | choiceC mi ma ch cs =>
      rcases hg : cs.get? i with _ | c
      · simp only [duplicateAt, hg]
      · simp only [duplicateAt, hg]
        show refsL (setNth cs i (duplicateAt c q)) = refsL cs
        exact refsL_setNth_eq cs i c _ hg (ih c)
    | groupC gn mi ma c =>
      by_cases hi : i = 0
      · simp only [duplicateAt, hi, if_pos]
        show refsOf (duplicateAt c q) = refsOf c
        exact ih c
      · simp only [duplicateAt, hi, if_neg, not_false_iff]
    | dupC cs =>
      rcases hg : cs.get? i with _ | c
      · simp only [duplicateAt, hg]
      · simp only [duplicateAt, hg]
        show refsL (setNth cs i (duplicateAt c q)) = refsL cs
        exact refsL_setNth_eq cs i c _ hg (ih c)

theorem refs_attachAt_count : ∀ (p : List Nat) (t : CNode) (r : Nat)
    (n : String) (mi : Nat) (ma : Option Nat) (rs : List Nat) (x : Nat),
    getAt t p = some (leafE n mi ma rs) →
    (refsOf (attachAt r t p)).count x =
      (refsOf t).count x + (if x = r then 1 else 0) := by
  intro p
  induction p with
  | nil =>
    intro t r n mi ma rs x hq
    simp [getAt] at hq
    subst hq
    show ((rs ++ [r]).count x) = rs.count x + _
    rw [List.count_append]
    by_cases hx : x = r
    · subst hx
      rw [if_pos rfl]
      simp
    · rw [if_neg hx]
      have h1 : [r].count x = 0 := by
        simp [List.count_singleton]
        intro hcon
        exact hx hcon.symm
      omega
  | cons i p ih =>
    intro t r n mi ma rs x hq
    cases t with
    | leafE n2 mi2 ma2 rs2 => exact absurd hq (by simp [getAt])
    | seqC mi2 ma2 cs =>
      simp only [getAt] at hq
      rcases hg : cs.get? i with _ | c
      · rw [hg] at hq; exact absurd hq (by simp)
      · rw [hg] at hq; simp at hq
        simp only [attachAt, hg]
        show (refsL (setNth cs i (attachAt r c p))).count x = (refsL cs).count x + _
        have h1 := refsL_setNth_count cs i c (attachAt r c p) x hg
        have h2 := ih c r n mi ma rs x hq
        omega
    | choiceC mi2 ma2 ch cs =>
      simp only [getAt] at hq
      rcases hg : cs.get? i with _ | c
      · rw [hg] at hq; exact absurd hq (by simp)
      · rw [hg] at hq; simp at hq
        simp only [attachAt, hg]
        show (refsL (setNth cs i (attachAt r c p))).count x = (refsL cs).count x + _
        have h1 := refsL_setNth_count cs i c (attachAt r c p) x hg
        have h2 := ih c r n mi ma rs x hq
        omega
    | groupC g mi2 ma2 c =>
      simp only [getAt] at hq
      by_cases hi : i = 0
      · rw [if_pos hi] at hq
        simp only [attachAt, hi, if_pos]
        show (refsOf (attachAt r c p)).count x = (refsOf c).count x + _
        exact ih c r n mi ma rs x hq
      · rw [if_neg hi] at hq; exact absurd hq (by simp)
    | dupC cs =>
      simp only [getAt] at hq
      rcases hg : cs.get? i with _ | c
      · rw [hg] at hq; exact absurd hq (by simp)
      · rw [hg] at hq; simp at hq
        simp only [attachAt, hg]
        show (refsL (setNth cs i (attachAt r c p))).count x = (refsL cs).count x + _
        have h1 := refsL_setNth_count cs i c (attachAt r c p) x hg
        have h2 := ih c r n mi ma rs x hq
        omega

theorem refs_addEl_count (t : CNode) (tag : String) (fwd : Option Nat) (r : Nat)
    (t2 : CNode) (p : List Nat) (hadd : addEl t tag fwd r = some (t2, p)) (x : Nat) :
    (refsOf t2).count x = (refsOf t).count x + (if x = r then 1 else 0) := by
  rcases addEl_cases t tag fwd r t2 p hadd with ⟨hpc, ht2⟩ | ⟨q, _, _, hpc, _, ht2⟩
  · subst ht2
    rcases cands_sound t (p, tag) hpc with ⟨mi2, ma2, rs2, hga, _⟩
    exact refs_attachAt_count p t r tag mi2 ma2 rs2 x hga
  · subst ht2
    rcases cands_sound (duplicateAt t q) (p, tag) hpc with ⟨mi2, ma2, rs2, hga, _⟩
    have h1 := refs_attachAt_count p (duplicateAt t q) r tag mi2 ma2 rs2 x hga
    rw [refsOf_duplicateAt] at h1
    exact h1

end CNode

end MusicXml

namespace MusicXml

namespace CNode

theorem eraseIdx_setNth : ∀ (cs : List CNode) (i : Nat) (x : CNode),
    (setNth cs i x).eraseIdx i = cs.eraseIdx i := by
  intro cs
  induction cs with
  | nil => intro i x; rfl
  | cons c rest ih =>
    intro i x
    cases i with
    | zero => rfl
    | succ j =>
      show c :: (setNth rest j x).eraseIdx j = c :: rest.eraseIdx j
      rw [ih j x]

theorem leafDataL_setNth_ne : ∀ (cs : List CNode) (i : Nat) (c2 : CNode),
    leafData c2 ≠ [] → i < cs.length → leafDataL (setNth cs i c2) ≠ [] := by
  intro cs
  induction cs with
  | nil => intro i c2 _ hlt; exact absurd hlt (by simp)
  | cons c0 rest ih =>
    intro i c2 hne hlt
    cases i with
    | zero =>
      show leafData c2 ++ leafDataL rest ≠ []
      intro hcon
      rcases List.append_eq_nil.1 hcon with ⟨h1, _⟩
      exact hne h1
    | succ j =>
      show leafData c0 ++ leafDataL (setNth rest j c2) ≠ []
      intro hcon
      rcases List.append_eq_nil.1 hcon with ⟨_, h2⟩
      have hlt2 : j < rest.length := by
        rw [List.length_cons] at hlt
        omega
      exact ih j c2 hne hlt2 h2

theorem leafDataL_ne_of_all : ∀ (cs : List CNode), cs ≠ [] →
    cs.all (fun c => !(leafData c).isEmpty) = true → leafDataL cs ≠ [] := by
  intro cs
  cases cs with
  | nil => intro h _; exact absurd rfl h
  | cons c0 rest =>
    intro _ hall
    have h1 : leafData c0 ≠ [] := by
      have := List.all_eq_true.1 hall c0 (List.mem_cons_self c0 rest)
      intro hcon
      rw [hcon] at this
      exact Bool.noConfusion this
    show leafData c0 ++ leafDataL rest ≠ []
    intro hcon
    rcases List.append_eq_nil.1 hcon with ⟨h2, _⟩
    exact h1 h2

theorem countEmpties_le_length (cs : List CNode) : countEmpties cs ≤ cs.length :=
  List.length_filter_le _ cs

theorem refsL_get_count_le : ∀ (cs : List CNode) (i : Nat) (c : CNode) (x : Nat),
    cs.get? i = some c → (refsOf c).count x ≤ (refsL cs).count x := by
  intro cs
  induction cs with
  | nil => intro i c x h; exact Option.noConfusion h
  | cons c0 rest ih =>
    intro i c x h
    cases i with
    | zero =>
      have h2 : c0 = c := Option.some.inj h
      subst h2
      rw [show refsL (c0 :: rest) = refsOf c0 ++ refsL rest from rfl, List.count_append]
      omega
    | succ j =>
      have h2 : rest.get? j = some c := h
      rw [show refsL (c0 :: rest) = refsOf c0 ++ refsL rest from rfl, List.count_append]
      have := ih j c x h2
      omega

theorem refs_getAt_count_ge : ∀ (p : List Nat) (t : CNode)
    (n : String) (mi : Nat) (ma : Option Nat) (rs : List Nat) (x : Nat),
    getAt t p = some (leafE n mi ma rs) → rs.count x ≤ (refsOf t).count x := by
  intro p
  induction p with
  | nil =>
    intro t n mi ma rs x hq
    simp [getAt] at hq
    subst hq
    exact Nat.le_refl _
  | cons i p ih =>
    intro t n mi ma rs x hq
    cases t with
    | leafE n2 mi2 ma2 rs2 => exact absurd hq (by simp [getAt])
    | seqC mi2 ma2 cs =>
      simp only [getAt] at hq
      rcases hg : cs.get? i with _ | c
      · rw [hg] at hq; exact absurd hq (by simp)
      · rw [hg] at hq; simp at hq
        have h1 := ih c n mi ma rs x hq
        have h2 := refsL_get_count_le cs i c x hg
        show rs.count x ≤ (refsL cs).count x
        omega
    | choiceC mi2 ma2 ch cs =>
      simp only [getAt] at hq
      rcases hg : cs.get? i with _ | c
      · rw [hg] at hq; exact absurd hq (by simp)
      · rw [hg] at hq; simp at hq
        have h1 := ih c n mi ma rs x hq
        have h2 := refsL_get_count_le cs i c x hg
        show rs.count x ≤ (refsL cs).count x
        omega
    | groupC g mi2 ma2 c =>
      simp only [getAt] at hq
      by_cases hi : i = 0
      · rw [if_pos hi] at hq
        exact ih c n mi ma rs x hq
      · rw [if_neg hi] at hq; exact absurd hq (by simp)
    | dupC cs =>
      simp only [getAt] at hq
      rcases hg : cs.get? i with _ | c
      · rw [hg] at hq; exact absurd hq (by simp)
      · rw [hg] at hq; simp at hq
        have h1 := ih c n mi ma rs x hq
        have h2 := refsL_get_count_le cs i c x hg
        show rs.count x ≤ (refsL cs).count x
        omega

theorem confb_eraseRef (r : Nat) (c gi : CNode) :
    confb (eraseRef r c) gi = confb c gi := by
  cases c <;> cases gi <;> rfl

theorem detachAt_shape : ∀ (p : List Nat) (t : CNode) (r : Nat),
    isLeafb (detachAt r t p) = isLeafb t ∧ isDupb (detachAt r t p) = isDupb t := by
  intro p
  cases p with
  | nil =>
    intro t r
    cases t <;> exact ⟨rfl, rfl⟩
  | cons i q =>
    intro t r
    cases t with
    | leafE n mi ma rs => exact ⟨rfl, rfl⟩
    | seqC mi ma cs =>
      rcases hg : cs.get? i with _ | c <;> simp [detachAt, hg, isLeafb, isDupb]
    | choiceC mi ma ch cs =>
      rcases hg : cs.get? i with _ | c <;> simp [detachAt, hg, isLeafb, isDupb]
    | groupC g mi ma c =>
      by_cases hi : i = 0 <;> simp [detachAt, hi, isLeafb, isDupb]
    | dupC cs =>
      rcases hg : cs.get? i with _ | c <;> simp [detachAt, hg, isLeafb, isDupb]

theorem pruneUp_shape : ∀ (q : List Nat) (t : CNode),
    isLeafb (pruneUp t q) = isLeafb t ∧ isDupb (pruneUp t q) = isDupb t := by
  intro q
  cases q with
  | nil =>
    intro t
    cases t <;> exact ⟨rfl, rfl⟩
  | cons i q2 =>
    intro t
    cases t with
    | leafE n mi ma rs => exact ⟨rfl, rfl⟩
    | seqC mi ma cs =>
      rcases hg : cs.get? i with _ | c <;> simp [pruneUp, hg, isLeafb, isDupb]
    | choiceC mi ma ch cs =>
      rcases hg : cs.get? i with _ | c <;> simp [pruneUp, hg, isLeafb, isDupb]
    | groupC g mi ma c =>
      by_cases hi : i = 0 <;> simp [pruneUp, hi, isLeafb, isDupb]
    | dupC cs =>
      rcases hg : cs.get? i with _ | c
      · have he : pruneUp (dupC cs) (i :: q2) = dupC cs := by
          show (match cs.get? i with
            | none => dupC cs
            | some c =>
              if cs.length > 1 && (firstLeafCount (pruneUp c q2) == some 0)
              then dupC (cs.eraseIdx i)
              else dupC (setNth cs i (pruneUp c q2))) = dupC cs
          rw [hg]
        rw [he]
        exact ⟨rfl, rfl⟩
      · have he : pruneUp (dupC cs) (i :: q2) =
            (if cs.length > 1 && (firstLeafCount (pruneUp c q2) == some 0)
             then dupC (cs.eraseIdx i)
             else dupC (setNth cs i (pruneUp c q2))) := by
          show (match cs.get? i with
            | none => dupC cs
            | some c =>
              if cs.length > 1 && (firstLeafCount (pruneUp c q2) == some 0)
              then dupC (cs.eraseIdx i)
              else dupC (setNth cs i (pruneUp c q2))) = _
          rw [hg]
        rw [he]
        by_cases hcond : (cs.length > 1 && (firstLeafCount (pruneUp c q2) == some 0)) = true
        · rw [if_pos hcond]
          exact ⟨rfl, rfl⟩
        · rw [if_neg hcond]
          exact ⟨rfl, rfl⟩

end CNode

end MusicXml

namespace MusicXml

namespace CNode

theorem bnot_isEmptyC_of_ne (l : List CNode) (h : l ≠ []) : (!l.isEmpty) = true := by
  cases hx : l.isEmpty
  · rfl
  · rw [List.isEmpty_iff] at hx
    exact absurd hx h

theorem get?_some_lt (cs : List CNode) (i : Nat) (c : CNode)
    (hg : cs.get? i = some c) : i < cs.length := by
  by_contra hge
  push_neg at hge
  rw [List.get?_eq_none.2 hge] at hg
  exact Option.noConfusion hg

/-- One full remove step below the state layer: locate the Leaf, reset chosen
where needed, detach, prune upward. Conformance, duplication health,
repetition shape and the presence of at least one Leaf survive, and reference
counts drop by exactly the removed reference at most. -/
theorem removeStep_ok : ∀ (p : List Nat) (t g : CNode) (r : Nat)
    (n : String) (mi0 : Nat) (ma0 : Option Nat) (rs0 : List Nat),
    getAt t p = some (leafE n mi0 ma0 rs0) → r ∈ rs0 →
    confb t g = true → dupOKb t = true → repOK t = true →
    confb (pruneUp (detachAt r t p) p.dropLast) g = true ∧
    dupOKb (pruneUp (detachAt r t p) p.dropLast) = true ∧
    repOK (pruneUp (detachAt r t p) p.dropLast) = true ∧
    leafData (pruneUp (detachAt r t p) p.dropLast) ≠ [] ∧
    (∀ x, (refsOf (pruneUp (detachAt r t p) p.dropLast)).count x +
      (if x = r then 1 else 0) ≤ (refsOf t).count x) := by
  intro p
  induction p with
  | nil =>
    intro t g r n mi0 ma0 rs0 hq hm hc hd hr
    simp [getAt] at hq
    subst hq
    refine ⟨?_, rfl, rfl, ?_, ?_⟩
    · show confb (eraseRef r (leafE n mi0 ma0 rs0)) g = true
      rw [confb_eraseRef]
      exact hc
    · show [(n, (rs0.erase r).length)] ≠ []
      simp
    · intro x
      show (rs0.erase r).count x + _ ≤ rs0.count x
      by_cases hx : x = r
      · subst hx
        rw [if_pos rfl, List.count_erase_self]
        have h1 : rs0.count x ≠ 0 := by
          intro h0
          rw [List.count_eq_zero] at h0
          exact h0 hm
        omega
      · rw [if_neg hx, List.count_erase_of_ne hx]
        omega
  | cons i ptail ih =>
    intro t g r n mi0 ma0 rs0 hq hm hc hd hr
    cases ptail with
    | nil =>
      cases t with
      | leafE n2 mi2 ma2 rs2 => exact absurd hq (by simp [getAt])
      | seqC mi2 ma2 cs =>
        simp only [getAt] at hq
        rcases hg : cs.get? i with _ | c
        · rw [hg] at hq; exact absurd hq (by simp)
        · rw [hg] at hq
          have hcl : c = leafE n mi0 ma0 rs0 := by
            have h3 : some c = some (leafE n mi0 ma0 rs0) := hq
            exact Option.some.inj h3
          subst hcl
          cases g with
          | leafE n3 mi3 ma3 rs3 => exact absurd hc (by simp [confb])
          | seqC mi3 ma3 gs =>
            have hc2 : (mi2 == mi3 && ma2 == ma3 && confbL cs gs) = true := hc
            rw [Bool.and_eq_true, Bool.and_eq_true] at hc2
            simp only [detachAt, hg]
            have hlt : i < cs.length := get?_some_lt cs i _ hg
            refine ⟨?_, ?_, ?_, ?_, ?_⟩
            · show (mi2 == mi3 && ma2 == ma3 &&
                confbL (setNth cs i (leafE n mi0 ma0 (rs0.erase r))) gs) = true
              rw [Bool.and_eq_true, Bool.and_eq_true]
              rcases confbL_get cs gs hc2.2 i _ hg with ⟨gi, hgi, hcg⟩
              refine ⟨hc2.1, confbL_setNth cs gs i _ gi hc2.2 hgi ?_⟩
              rw [show (leafE n mi0 ma0 (rs0.erase r)) =
                eraseRef r (leafE n mi0 ma0 rs0) from rfl, confb_eraseRef]
              exact hcg
            · show dupOKbL (setNth cs i (leafE n mi0 ma0 (rs0.erase r))) = true
              exact dupOKbL_setNth cs i _ hd rfl
            · show repOKL (setNth cs i (leafE n mi0 ma0 (rs0.erase r))) = true
              exact repOKL_setNth cs i _ hr rfl
            · show leafDataL (setNth cs i (leafE n mi0 ma0 (rs0.erase r))) ≠ []
              refine leafDataL_setNth_ne cs i _ ?_ hlt
              show [(n, (rs0.erase r).length)] ≠ []
              simp
            · intro x
              show (refsL (setNth cs i (leafE n mi0 ma0 (rs0.erase r)))).count x + _ ≤
                (refsL cs).count x
              have h1 := refsL_setNth_count cs i _ (leafE n mi0 ma0 (rs0.erase r)) x hg
              have h2 : (refsOf (leafE n mi0 ma0 (rs0.erase r))).count x +
                  (if x = r then 1 else 0) ≤ (refsOf (leafE n mi0 ma0 rs0)).count x := by
                show (rs0.erase r).count x + _ ≤ rs0.count x
                by_cases hx : x = r
                · subst hx
                  rw [if_pos rfl, List.count_erase_self]
                  have h3 : rs0.count x ≠ 0 := by
                    intro h0
                    rw [List.count_eq_zero] at h0
                    exact h0 hm
                  omega
                · rw [if_neg hx, List.count_erase_of_ne hx]
                  omega
              omega
          | choiceC mi3 ma3 ch3 gs => exact absurd hc (by simp [confb])
          | groupC g3 mi3 ma3 c3 => exact absurd hc (by simp [confb])
          | dupC gs => exact absurd hc (by simp [confb])
      | choiceC mi2 ma2 ch cs =>
        simp only [getAt] at hq
        rcases hg : cs.get? i with _ | c
        · rw [hg] at hq; exact absurd hq (by simp)
        · rw [hg] at hq
          have hcl : c = leafE n mi0 ma0 rs0 := by
            have h3 : some c = some (leafE n mi0 ma0 rs0) := hq
            exact Option.some.inj h3
          subst hcl
          cases g with
          | leafE n3 mi3 ma3 rs3 => exact absurd hc (by simp [confb])
          | seqC mi3 ma3 gs => exact absurd hc (by simp [confb])
          | choiceC mi3 ma3 ch3 gs =>
            have hc2 : (mi2 == mi3 && ma2 == ma3 && confbL cs gs) = true := hc
            rw [Bool.and_eq_true, Bool.and_eq_true] at hc2
            simp only [detachAt, hg]
            have hlt : i < cs.length := get?_some_lt cs i _ hg
            refine ⟨?_, ?_, ?_, ?_, ?_⟩
            · show (mi2 == mi3 && ma2 == ma3 &&
                confbL (setNth cs i (leafE n mi0 ma0 (rs0.erase r))) gs) = true
              rw [Bool.and_eq_true, Bool.and_eq_true]
              rcases confbL_get cs gs hc2.2 i _ hg with ⟨gi, hgi, hcg⟩
              refine ⟨hc2.1, confbL_setNth cs gs i _ gi hc2.2 hgi ?_⟩
              rw [show (leafE n mi0 ma0 (rs0.erase r)) =
                eraseRef r (leafE n mi0 ma0 rs0) from rfl, confb_eraseRef]
              exact hcg
            · show dupOKbL (setNth cs i (leafE n mi0 ma0 (rs0.erase r))) = true
              exact dupOKbL_setNth cs i _ hd rfl
            · show repOKL (setNth cs i (leafE n mi0 ma0 (rs0.erase r))) = true
              exact repOKL_setNth cs i _ hr rfl
            · show leafDataL (setNth cs i (leafE n mi0 ma0 (rs0.erase r))) ≠ []
              refine leafDataL_setNth_ne cs i _ ?_ hlt
              show [(n, (rs0.erase r).length)] ≠ []
              simp
            · intro x
              show (refsL (setNth cs i (leafE n mi0 ma0 (rs0.erase r)))).count x + _ ≤
                (refsL cs).count x
              have h1 := refsL_setNth_count cs i _ (leafE n mi0 ma0 (rs0.erase r)) x hg
              have h2 : (refsOf (leafE n mi0 ma0 (rs0.erase r))).count x +
                  (if x = r then 1 else 0) ≤ (refsOf (leafE n mi0 ma0 rs0)).count x := by
                show (rs0.erase r).count x + _ ≤ rs0.count x
                by_cases hx : x = r
                · subst hx
                  rw [if_pos rfl, List.count_erase_self]
                  have h3 : rs0.count x ≠ 0 := by
                    intro h0
                    rw [List.count_eq_zero] at h0
                    exact h0 hm
                  omega
                · rw [if_neg hx, List.count_erase_of_ne hx]
                  omega
              omega
          | groupC g3 mi3 ma3 c3 => exact absurd hc (by simp [confb])
          | dupC gs => exact absurd hc (by simp [confb])
      | groupC gn mi2 ma2 c =>
        simp only [getAt] at hq
        by_cases hi : i = 0
        · rw [if_pos hi] at hq
          have hcl : c = leafE n mi0 ma0 rs0 := by
            have h3 : some c = some (leafE n mi0 ma0 rs0) := hq
            exact Option.some.inj h3
          subst hcl
          cases g with
          | leafE n3 mi3 ma3 rs3 => exact absurd hc (by simp [confb])
          | seqC mi3 ma3 gs => exact absurd hc (by simp [confb])
          | choiceC mi3 ma3 ch3 gs => exact absurd hc (by simp [confb])
          | groupC g3 mi3 ma3 c3 =>
            have hc2 : (gn == g3 && mi2 == mi3 && ma2 == ma3 &&
              confb (leafE n mi0 ma0 rs0) c3) = true := hc
            rw [Bool.and_eq_true, Bool.and_eq_true, Bool.and_eq_true] at hc2
            simp only [detachAt, hi, if_pos]
            refine ⟨?_, rfl, rfl, ?_, ?_⟩
            · show (gn == g3 && mi2 == mi3 && ma2 == ma3 &&
                confb (leafE n mi0 ma0 (rs0.erase r)) c3) = true
              rw [Bool.and_eq_true, Bool.and_eq_true, Bool.and_eq_true]
              refine ⟨hc2.1, ?_⟩
              rw [show (leafE n mi0 ma0 (rs0.erase r)) =
                eraseRef r (leafE n mi0 ma0 rs0) from rfl, confb_eraseRef]
              exact hc2.2
            · show [(n, (rs0.erase r).length)] ≠ []
              simp
            · intro x
              show (rs0.erase r).count x + _ ≤ rs0.count x
              by_cases hx : x = r
              · subst hx
                rw [if_pos rfl, List.count_erase_self]
                have h3 : rs0.count x ≠ 0 := by
                  intro h0
                  rw [List.count_eq_zero] at h0
                  exact h0 hm
                omega
              · rw [if_neg hx, List.count_erase_of_ne hx]
                omega
          | dupC gs => exact absurd hc (by simp [confb])
        · rw [if_neg hi] at hq; exact absurd hq (by simp)
      | dupC cs =>
        simp only [getAt] at hq
        rcases hg : cs.get? i with _ | c
        · rw [hg] at hq; exact absurd hq (by simp)
        · rw [hg] at hq
          have hcl : c = leafE n mi0 ma0 rs0 := by
            have h3 : some c = some (leafE n mi0 ma0 rs0) := hq
            exact Option.some.inj h3
          subst hcl
          exfalso
          unfold repOK at hr
          rw [Bool.and_eq_true] at hr
          rcases repAll_get cs i _ hr.1 hg with ⟨hl0, _⟩
          exact Bool.noConfusion hl0
    | cons i2 prest =>
      cases t with
      | leafE n2 mi2 ma2 rs2 => exact absurd hq (by simp [getAt])
      | seqC mi2 ma2 cs =>
        simp only [getAt] at hq
        rcases hg : cs.get? i with _ | c
        · rw [hg] at hq; exact absurd hq (by simp)
        · rw [hg] at hq; simp at hq
          cases g with
          | leafE n3 mi3 ma3 rs3 => exact absurd hc (by simp [confb])
          | seqC mi3 ma3 gs =>
            have hc2 : (mi2 == mi3 && ma2 == ma3 && confbL cs gs) = true := hc
            rw [Bool.and_eq_true, Bool.and_eq_true] at hc2
            rcases confbL_get cs gs hc2.2 i c hg with ⟨gi, hgi, hcg⟩
            have hdc : dupOKb c = true := dupOKbL_get cs i c hd hg
            have hrc : repOK c = true := repOKL_get cs i c hr hg
            rcases ih c gi r n mi0 ma0 rs0 hq hm hcg hdc hrc with
              ⟨confU, dupU, repU, leafU, countU⟩
            have hlt : i < cs.length := get?_some_lt cs i c hg
            have hdl : (i :: i2 :: prest).dropLast = i :: (i2 :: prest).dropLast := rfl
            rw [hdl]
            simp only [detachAt, hg]
            have hgetL : (setNth cs i (detachAt r c (i2 :: prest))).get? i =
                some (detachAt r c (i2 :: prest)) := get?_setNth_self cs i c _ hg
            have hpr : pruneUp (seqC mi2 ma2 (setNth cs i (detachAt r c (i2 :: prest))))
                (i :: (i2 :: prest).dropLast) =
                seqC mi2 ma2 (setNth cs i
                  (pruneUp (detachAt r c (i2 :: prest)) ((i2 :: prest).dropLast))) := by
              simp only [pruneUp, hgetL, setNth_setNth]
            rw [hpr]
            refine ⟨?_, ?_, ?_, ?_, ?_⟩
            · show (mi2 == mi3 && ma2 == ma3 && confbL (setNth cs i _) gs) = true
              rw [Bool.and_eq_true, Bool.and_eq_true]
              exact ⟨hc2.1, confbL_setNth cs gs i _ gi hc2.2 hgi confU⟩
            · exact dupOKbL_setNth cs i _ hd dupU
            · exact repOKL_setNth cs i _ hr repU
            · exact leafDataL_setNth_ne cs i _ leafU hlt
            · intro x
              have h1 := refsL_setNth_count cs i c
                (pruneUp (detachAt r c (i2 :: prest)) ((i2 :: prest).dropLast)) x hg
              have h2 := countU x
              show (refsL (setNth cs i _)).count x + _ ≤ (refsL cs).count x
              omega
          | choiceC mi3 ma3 ch3 gs => exact absurd hc (by simp [confb])
          | groupC g3 mi3 ma3 c3 => exact absurd hc (by simp [confb])
          | dupC gs => exact absurd hc (by simp [confb])
      | choiceC mi2 ma2 ch cs =>
        simp only [getAt] at hq
        rcases hg : cs.get? i with _ | c
        · rw [hg] at hq; exact absurd hq (by simp)
        · rw [hg] at hq; simp at hq
          cases g with
          | leafE n3 mi3 ma3 rs3 => exact absurd hc (by simp [confb])
          | seqC mi3 ma3 gs => exact absurd hc (by simp [confb])
          | choiceC mi3 ma3 ch3 gs =>
            have hc2 : (mi2 == mi3 && ma2 == ma3 && confbL cs gs) = true := hc
            rw [Bool.and_eq_true, Bool.and_eq_true] at hc2
            rcases confbL_get cs gs hc2.2 i c hg with ⟨gi, hgi, hcg⟩
            have hdc : dupOKb c = true := dupOKbL_get cs i c hd hg
            have hrc : repOK c = true := repOKL_get cs i c hr hg
            rcases ih c gi r n mi0 ma0 rs0 hq hm hcg hdc hrc with
              ⟨confU, dupU, repU, leafU, countU⟩
            have hlt : i < cs.length := get?_some_lt cs i c hg
            have hdl : (i :: i2 :: prest).dropLast = i :: (i2 :: prest).dropLast := rfl
            rw [hdl]
            simp only [detachAt, hg]
            have hgetL : (setNth cs i (detachAt r c (i2 :: prest))).get? i =
                some (detachAt r c (i2 :: prest)) := get?_setNth_self cs i c _ hg
            have hpr : pruneUp (choiceC mi2 ma2 ch
                (setNth cs i (detachAt r c (i2 :: prest))))
                (i :: (i2 :: prest).dropLast) =
                choiceC mi2 ma2 ch (setNth cs i
                  (pruneUp (detachAt r c (i2 :: prest)) ((i2 :: prest).dropLast))) := by
              simp only [pruneUp, hgetL, setNth_setNth]
            rw [hpr]
            refine ⟨?_, ?_, ?_, ?_, ?_⟩
            · show (mi2 == mi3 && ma2 == ma3 && confbL (setNth cs i _) gs) = true
              rw [Bool.and_eq_true, Bool.and_eq_true]
              exact ⟨hc2.1, confbL_setNth cs gs i _ gi hc2.2 hgi confU⟩
            · exact dupOKbL_setNth cs i _ hd dupU
            · exact repOKL_setNth cs i _ hr repU
            · exact leafDataL_setNth_ne cs i _ leafU hlt
            · intro x
              have h1 := refsL_setNth_count cs i c
                (pruneUp (detachAt r c (i2 :: prest)) ((i2 :: prest).dropLast)) x hg
              have h2 := countU x
              show (refsL (setNth cs i _)).count x + _ ≤ (refsL cs).count x
              omega
          | groupC g3 mi3 ma3 c3 => exact absurd hc (by simp [confb])
          | dupC gs => exact absurd hc (by simp [confb])
      | groupC gn mi2 ma2 c =>
        simp only [getAt] at hq
        by_cases hi : i = 0
        · rw [if_pos hi] at hq
          cases g with
          | leafE n3 mi3 ma3 rs3 => exact absurd hc (by simp [confb])
          | seqC mi3 ma3 gs => exact absurd hc (by simp [confb])
          | choiceC mi3 ma3 ch3 gs => exact absurd hc (by simp [confb])
          | groupC g3 mi3 ma3 c3 =>
            have hc2 : (gn == g3 && mi2 == mi3 && ma2 == ma3 && confb c c3) = true := hc
            rw [Bool.and_eq_true, Bool.and_eq_true, Bool.and_eq_true] at hc2
            rcases ih c c3 r n mi0 ma0 rs0 hq hm hc2.2 hd hr with
              ⟨confU, dupU, repU, leafU, countU⟩
            have hdl : (i :: i2 :: prest).dropLast = i :: (i2 :: prest).dropLast := rfl
            rw [hdl]
            simp only [detachAt, hi, if_pos]
            have hpr : pruneUp (groupC gn mi2 ma2 (detachAt r c (i2 :: prest)))
                (0 :: (i2 :: prest).dropLast) =
                groupC gn mi2 ma2
                  (pruneUp (detachAt r c (i2 :: prest)) ((i2 :: prest).dropLast)) := by
              simp [pruneUp]
            rw [hpr]
            refine ⟨?_, dupU, repU, leafU, countU⟩
            show (gn == g3 && mi2 == mi3 && ma2 == ma3 && confb _ c3) = true
            rw [Bool.and_eq_true, Bool.and_eq_true, Bool.and_eq_true]
            exact ⟨hc2.1, confU⟩
          | dupC gs => exact absurd hc (by simp [confb])
        · rw [if_neg hi] at hq; exact absurd hq (by simp)
      | dupC cs =>
        simp only [getAt] at hq
        rcases hg : cs.get? i with _ | c
        · rw [hg] at hq; exact absurd hq (by simp)
        · rw [hg] at hq; simp at hq
          have hcdup : confbDup cs g = true := hc
          rcases (confbDup_iff cs g).1 hcdup with ⟨hneC, hallC⟩
          unfold dupOKb at hd
          rw [Bool.and_eq_true, Bool.and_eq_true, Bool.and_eq_true] at hd
          unfold repOK at hr
          rw [Bool.and_eq_true] at hr
          have hdc : dupOKb c = true := dupOKbL_get cs i c hd.2 hg
          have hrc : repOK c = true := repOKL_get cs i c hr.2 hg
          have hcg : confb c g = true := hallC c (List.get?_mem hg)
          rcases ih c g r n mi0 ma0 rs0 hq hm hcg hdc hrc with
            ⟨confU, dupU, repU, leafU, countU⟩
          have hlt : i < cs.length := get?_some_lt cs i c hg
          have hdl : (i :: i2 :: prest).dropLast = i :: (i2 :: prest).dropLast := rfl
          rw [hdl]
          simp only [detachAt, hg]
          have hgetL : (setNth cs i (detachAt r c (i2 :: prest))).get? i =
              some (detachAt r c (i2 :: prest)) := get?_setNth_self cs i c _ hg
          have hctot : 1 ≤ total c := by
            have h1 := total_ge_of_getAt (i2 :: prest) c n mi0 ma0 rs0 hq
            have h2 : rs0 ≠ [] := List.ne_nil_of_mem hm
            have h3 : 0 < rs0.length := List.length_pos.2 h2
            omega
          have hpr : pruneUp (dupC (setNth cs i (detachAt r c (i2 :: prest))))
              (i :: (i2 :: prest).dropLast) =
              (if (setNth cs i (detachAt r c (i2 :: prest))).length > 1 &&
                  (firstLeafCount (pruneUp (detachAt r c (i2 :: prest))
                    ((i2 :: prest).dropLast)) == some 0)
               then dupC ((setNth cs i (detachAt r c (i2 :: prest))).eraseIdx i)
               else dupC (setNth (setNth cs i (detachAt r c (i2 :: prest))) i
                 (pruneUp (detachAt r c (i2 :: prest)) ((i2 :: prest).dropLast)))) := by
            show (match (setNth cs i (detachAt r c (i2 :: prest))).get? i with
              | none => dupC (setNth cs i (detachAt r c (i2 :: prest)))
              | some c2 =>
                if (setNth cs i (detachAt r c (i2 :: prest))).length > 1 &&
                    (firstLeafCount (pruneUp c2 ((i2 :: prest).dropLast)) == some 0)
                then dupC ((setNth cs i (detachAt r c (i2 :: prest))).eraseIdx i)
                else dupC (setNth (setNth cs i (detachAt r c (i2 :: prest))) i
                  (pruneUp c2 ((i2 :: prest).dropLast)))) = _
            rw [hgetL]
          rw [hpr, eraseIdx_setNth, setNth_setNth]
          by_cases hcond : ((setNth cs i (detachAt r c (i2 :: prest))).length > 1 &&
              (firstLeafCount (pruneUp (detachAt r c (i2 :: prest))
                ((i2 :: prest).dropLast)) == some 0)) = true
          · rw [if_pos hcond]
            rw [Bool.and_eq_true] at hcond
            have hlen2 : 1 < cs.length := by
              have := hcond.1
              rw [length_setNth] at this
              simpa using this
            refine ⟨?_, ?_, ?_, ?_, ?_⟩
            · apply (confbDup_iff _ g).2
              refine ⟨eraseIdx_ne_nil cs i hlen2, ?_⟩
              intro x hx
              exact hallC x (mem_eraseIdx cs i x hx)
            · unfold dupOKb
              rw [Bool.and_eq_true, Bool.and_eq_true, Bool.and_eq_true]
              refine ⟨⟨⟨?_, ?_⟩, ?_⟩, ?_⟩
              · exact bnot_isEmptyC_of_ne _ (eraseIdx_ne_nil cs i hlen2)
              · exact dupAll_eraseIdx cs i hd.1.1.2
              · have hce := countEmpties_eraseIdx cs i c hg
                have hcz : ¬ total c = 0 := by omega
                rw [if_neg hcz] at hce
                have h2 : countEmpties cs ≤ 1 := by simpa using hd.1.2
                simp only [decide_eq_true_eq]
                omega
              · exact dupOKbL_eraseIdx cs i hd.2
            · unfold repOK
              rw [Bool.and_eq_true]
              exact ⟨repAll_eraseIdx cs i hr.1, repOKL_eraseIdx cs i hr.2⟩
            · exact leafDataL_ne_of_all (cs.eraseIdx i)
                (eraseIdx_ne_nil cs i hlen2) (dupAll_eraseIdx cs i hd.1.1.2)
            · intro x
              have h1 := refsL_eraseIdx_count cs i c x hg
              have h2 : (if x = r then 1 else 0) ≤ (refsOf c).count x := by
                by_cases hx : x = r
                · subst hx
                  rw [if_pos rfl]
                  have h3 := refs_getAt_count_ge (i2 :: prest) c n mi0 ma0 rs0 x hq
                  have h4 : rs0.count x ≠ 0 := by
                    intro h0
                    rw [List.count_eq_zero] at h0
                    exact h0 hm
                  omega
                · rw [if_neg hx]
                  omega
              show (refsL (cs.eraseIdx i)).count x + _ ≤ (refsL cs).count x
              omega
          · rw [if_neg hcond]
            have hUtotcase : cs.length ≤ 1 ∨
                total (pruneUp (detachAt r c (i2 :: prest)) ((i2 :: prest).dropLast)) ≠ 0 := by
              by_cases hlen1 : 1 < cs.length
              · right
                intro htz
                apply hcond
                rw [Bool.and_eq_true]
                constructor
                · rw [length_setNth]
                  simpa using hlen1
                · have := firstLeafCount_zero_of_empty _ leafU htz
                  simp [this]
              · left
                omega
            refine ⟨?_, ?_, ?_, ?_, ?_⟩
            · apply (confbDup_iff _ g).2
              constructor
              · intro hcon
                have hz : (setNth cs i (pruneUp (detachAt r c (i2 :: prest))
                    ((i2 :: prest).dropLast))).length = 0 := by rw [hcon]; rfl
                rw [length_setNth] at hz
                exact hneC (List.length_eq_zero.1 hz)
              · intro x hx
                rcases mem_setNth cs i _ x hx with h1 | h1
                · subst h1
                  exact confU
                · exact hallC x h1
            · unfold dupOKb
              rw [Bool.and_eq_true, Bool.and_eq_true, Bool.and_eq_true]
              refine ⟨⟨⟨?_, ?_⟩, ?_⟩, ?_⟩
              · cases hx : (setNth cs i (pruneUp (detachAt r c (i2 :: prest))
                    ((i2 :: prest).dropLast))).isEmpty
                · rfl
                · rw [List.isEmpty_iff] at hx
                  have hz : (setNth cs i (pruneUp (detachAt r c (i2 :: prest))
                      ((i2 :: prest).dropLast))).length = 0 := by rw [hx]; rfl
                  rw [length_setNth] at hz
                  exact absurd (List.length_eq_zero.1 hz) hneC
              · exact dupAll_setNth_ne cs i _ hd.1.1.2 leafU
              · simp only [decide_eq_true_eq]
                rcases hUtotcase with hlen1 | hUnz
                · have h1 := countEmpties_le_length
                    (setNth cs i (pruneUp (detachAt r c (i2 :: prest))
                      ((i2 :: prest).dropLast)))
                  rw [length_setNth] at h1
                  omega
                · have hce := countEmpties_setNth cs i c
                    (pruneUp (detachAt r c (i2 :: prest)) ((i2 :: prest).dropLast)) hg
                  have hcz : ¬ total c = 0 := by omega
                  rw [if_neg hcz, if_neg hUnz] at hce
                  have h2 : countEmpties cs ≤ 1 := by simpa using hd.1.2
                  omega
              · exact dupOKbL_setNth cs i _ hd.2 dupU
            · unfold repOK
              rw [Bool.and_eq_true]
              constructor
              · rcases repAll_get cs i c hr.1 hg with ⟨hl0, hd0⟩
                rcases detachAt_shape (i2 :: prest) c r with ⟨hdl1, hdd1⟩
                rcases pruneUp_shape ((i2 :: prest).dropLast)
                  (detachAt r c (i2 :: prest)) with ⟨hpl1, hpd1⟩
                refine repAll_setNth cs i _ hr.1 ?_ ?_
                · rw [hpl1, hdl1]; exact hl0
                · rw [hpd1, hdd1]; exact hd0
              · exact repOKL_setNth cs i _ hr.2 repU
            · exact leafDataL_setNth_ne cs i _ leafU hlt
            · intro x
              have h1 := refsL_setNth_count cs i c
                (pruneUp (detachAt r c (i2 :: prest)) ((i2 :: prest).dropLast)) x hg
              have h2 := countU x
              show (refsL (setNth cs i _)).count x + _ ≤ (refsL cs).count x
              omega

end CNode

end MusicXml

namespace MusicXml

namespace CNode

mutual
theorem pathOfRef_complete : (t : CNode) → ∀ (r : Nat),
    pathOfRef r t = none → r ∉ refsOf t
  | leafE n mi ma rs => by
    intro r h
    unfold pathOfRef at h
    by_cases hm : r ∈ rs
    · rw [if_pos hm] at h
      exact Option.noConfusion h
    · exact hm
  | seqC mi ma cs => by
    intro r h
    exact pathOfRefL_complete cs r 0 h
  | choiceC mi ma ch cs => by
    intro r h
    exact pathOfRefL_complete cs r 0 h
  | groupC g mi ma c => by
    intro r h
    unfold pathOfRef at h
    rcases hpc : pathOfRef r c with _ | p2
    · exact pathOfRef_complete c r hpc
    · rw [hpc] at h
      exact Option.noConfusion h
  | dupC cs => by
    intro r h
    exact pathOfRefL_complete cs r 0 h

theorem pathOfRefL_complete : (cs : List CNode) → ∀ (r i : Nat),
    pathOfRefL r cs i = none → r ∉ refsL cs
  | [] => by
    intro r i _
    exact List.not_mem_nil r
  | c :: rest => by
    intro r i h
    unfold pathOfRefL at h
    rcases hpc : pathOfRef r c with _ | p2
    · rw [hpc] at h
      have h1 := pathOfRef_complete c r hpc
      have h2 := pathOfRefL_complete rest r (i + 1) h
      show r ∉ refsOf c ++ refsL rest
      intro hmem
      rcases List.mem_append.1 hmem with h3 | h3
      · exact h1 h3
      · exact h2 h3
    · rw [hpc] at h
      exact Option.noConfusion h
end

theorem count_singleton_ite (x r : Nat) :
    ([r] : List Nat).count x = if x = r then 1 else 0 := by
  by_cases hx : x = r
  · subst hx
    rw [if_pos rfl]
    simp
  · rw [if_neg hx]
    simp [List.count_cons]
    intro hcon
    exact hx hcon.symm

end CNode

/-- One successful add_child at the state layer: the container invariants
survive and the new reference is appended to _unordered_children. -/
theorem addChild_inv (s : XState) (g : CNode) (r : Nat) (tag : String)
    (fwd : Option Nat) (t : CNode) (hcont : s.container = some t)
    (hc : CNode.confb t g = true) (hch : CNode.chosenOKb t = true)
    (hd : CNode.dupOKb t = true) (hrp : CNode.repOK t = true)
    (hcnt : ∀ x, (CNode.refsOf t).count x = s.unordered.count x)
    (s2 : XState) (hstep : s.addChild r tag fwd = (s2, none)) :
    ∃ t2, s2.container = some t2 ∧ CNode.confb t2 g = true ∧
      CNode.chosenOKb t2 = true ∧ CNode.dupOKb t2 = true ∧ CNode.repOK t2 = true ∧
      (∀ x, (CNode.refsOf t2).count x = s2.unordered.count x) ∧
      s2.unordered = s.unordered ++ [r] := by
  unfold XState.addChild at hstep
  rw [hcont] at hstep
  dsimp only at hstep
  rcases haddEl : CNode.addEl t tag fwd r with _ | tp
  · rw [haddEl] at hstep
    injection hstep with _ h2
    exact Option.noConfusion h2
  · rcases tp with ⟨t2, p⟩
    rw [haddEl] at hstep
    injection hstep with h1 _
    rw [← h1]
    refine ⟨t2, rfl, ?_, ?_, ?_, ?_, ?_, rfl⟩
    · exact CNode.confb_addEl t g tag fwd r t2 p haddEl hc
    · exact CNode.chosenOKb_addEl t tag fwd r t2 p haddEl hch
    · exact (CNode.dupOKb_repOK_addEl t tag fwd r t2 p haddEl hd hrp).1
    · exact (CNode.dupOKb_repOK_addEl t tag fwd r t2 p haddEl hd hrp).2
    · intro x
      have h2 := CNode.refs_addEl_count t tag fwd r t2 p haddEl x
      show (CNode.refsOf t2).count x = (s.unordered ++ [r]).count x
      rw [List.count_append, CNode.count_singleton_ite]
      have h3 := hcnt x
      omega

/-- One remove of an attached reference at the state layer: it succeeds, the
reference leaves _unordered_children, and the container invariants survive
(the tree's reference counts stay bounded by the remaining unordered
children). -/
theorem removeChild_inv (s : XState) (g : CNode) (r : Nat) (t : CNode)
    (hcont : s.container = some t) (hmem : r ∈ s.unordered)
    (hc : CNode.confb t g = true) (hch : CNode.chosenOKb t = true)
    (hd : CNode.dupOKb t = true) (hrp : CNode.repOK t = true)
    (hcnt : ∀ x, (CNode.refsOf t).count x ≤ s.unordered.count x) :
    (s.removeChild r).2 = none ∧
    (s.removeChild r).1.unordered = s.unordered.erase r ∧
    ∃ t2, (s.removeChild r).1.container = some t2 ∧ CNode.confb t2 g = true ∧
      CNode.chosenOKb t2 = true ∧ CNode.dupOKb t2 = true ∧ CNode.repOK t2 = true ∧
      (∀ x, (CNode.refsOf t2).count x ≤ (s.unordered.erase r).count x) := by
  unfold XState.removeChild
  rw [if_pos hmem, hcont]
  dsimp only
  rcases hrem : CNode.removeEl t r with _ | t2
  · refine ⟨rfl, rfl, t, rfl, hc, hch, hd, hrp, ?_⟩
    unfold CNode.removeEl at hrem
    rcases hp : CNode.pathOfRef r t with _ | p
    · have hnot := CNode.pathOfRef_complete t r hp
      intro x
      by_cases hx : x = r
      · subst hx
        have h1 : (CNode.refsOf t).count x = 0 := by
          rw [List.count_eq_zero]
          exact hnot
        omega
      · rw [List.count_erase_of_ne hx]
        exact hcnt x
    · rw [hp] at hrem
      exact Option.noConfusion hrem
  · unfold CNode.removeEl at hrem
    rcases hp : CNode.pathOfRef r t with _ | p
    · rw [hp] at hrem
      exact Option.noConfusion hrem
    · rw [hp] at hrem
      injection hrem with h1
      rcases CNode.pathOfRef_sound t r p hp with ⟨n, mi0, ma0, rs0, hga, hm0⟩
      rcases CNode.removeStep_ok p t g r n mi0 ma0 rs0 hga hm0 hc hd hrp with
        ⟨confU, dupU, repU, _, countU⟩
      have hchU : CNode.chosenOKb t2 = true := by
        apply CNode.chosenOKb_removeEl t r t2 _ hch
        unfold CNode.removeEl
        rw [hp]
        dsimp only
        rw [h1]
      refine ⟨rfl, rfl, t2, rfl, ?_, hchU, ?_, ?_, ?_⟩
      · rw [← h1]; exact confU
      · rw [← h1]; exact dupU
      · rw [← h1]; exact repU
      · intro x
        have h2 := countU x
        rw [h1] at h2
        by_cases hx : x = r
        · subst hx
          rw [if_pos rfl] at h2
          rw [List.count_erase_self]
          have h3 : s.unordered.count x ≠ 0 := by
            intro h0
            rw [List.count_eq_zero] at h0
            exact h0 hmem
          have h4 := hcnt x
          omega
        · rw [if_neg hx] at h2
          rw [List.count_erase_of_ne hx]
          have h4 := hcnt x
          omega

end MusicXml

namespace MusicXml

theorem runAdds_inv : ∀ (L : List (Nat × String × Option Nat)) (s : XState) (g t : CNode),
    s.container = some t → CNode.confb t g = true → CNode.chosenOKb t = true →
    CNode.dupOKb t = true → CNode.repOK t = true →
    (∀ x, (CNode.refsOf t).count x = s.unordered.count x) →
    ∀ s2, runAdds s L = some s2 →
    ∃ t2, s2.container = some t2 ∧ CNode.confb t2 g = true ∧ CNode.chosenOKb t2 = true ∧
      CNode.dupOKb t2 = true ∧ CNode.repOK t2 = true ∧
      (∀ x, (CNode.refsOf t2).count x = s2.unordered.count x) ∧
      s2.unordered = s.unordered ++ L.map (fun a => a.1) := by
  intro L
  induction L with
  | nil =>
    intro s g t hcont hc hch hd hrp hcnt s2 hrun
    have hs : s = s2 := by
      have h2 : some s = some s2 := hrun
      exact Option.some.inj h2
    subst hs
    exact ⟨t, hcont, hc, hch, hd, hrp, hcnt, by simp⟩
  | cons a rest ihL =>
    intro s g t hcont hc hch hd hrp hcnt s2 hrun
    rcases a with ⟨r, tag, fwd⟩
    have hrun2 : (match s.addChild r tag fwd with
      | (s3, none) => runAdds s3 rest
      | (_, some _) => none) = some s2 := hrun
    rcases hstep : s.addChild r tag fwd with ⟨s3, e⟩
    rw [hstep] at hrun2
    cases e with
    | some err => exact Option.noConfusion hrun2
    | none =>
      rcases addChild_inv s g r tag fwd t hcont hc hch hd hrp hcnt s3 hstep with
        ⟨t3, hcont3, hc3, hch3, hd3, hrp3, hcnt3, hu3⟩
      rcases ihL s3 g t3 hcont3 hc3 hch3 hd3 hrp3 hcnt3 s2 hrun2 with
        ⟨t2, hcont2, hc2, hch2, hd2, hrp2, hcnt2, hu2⟩
      refine ⟨t2, hcont2, hc2, hch2, hd2, hrp2, hcnt2, ?_⟩
      rw [hu2, hu3]
      simp

theorem runRems_inv : ∀ (v : List Nat) (s : XState) (g t : CNode),
    s.container = some t → s.unordered = v.reverse → v.Nodup →
    CNode.confb t g = true → CNode.chosenOKb t = true →
    CNode.dupOKb t = true → CNode.repOK t = true →
    (∀ x, (CNode.refsOf t).count x ≤ s.unordered.count x) →
    ∃ s2, runRems s v = some s2 ∧ s2.unordered = [] ∧
      ∃ t2, s2.container = some t2 ∧ CNode.confb t2 g = true ∧
        CNode.chosenOKb t2 = true ∧ CNode.dupOKb t2 = true ∧
        (∀ x, (CNode.refsOf t2).count x ≤ s2.unordered.count x) := by
  intro v
  induction v with
  | nil =>
    intro s g t hcont hu _ hc hch hd hrp hcnt
    refine ⟨s, rfl, ?_, t, hcont, hc, hch, hd, hcnt⟩
    rw [hu]
    rfl
  | cons r v2 ihv =>
    intro s g t hcont hu hnd hc hch hd hrp hcnt
    have hmem : r ∈ s.unordered := by
      rw [hu]
      show r ∈ (r :: v2).reverse
      simp
    rcases removeChild_inv s g r t hcont hmem hc hch hd hrp hcnt with
      ⟨herr, huerase, t3, hcont3, hc3, hch3, hd3, hrp3, hcnt3⟩
    rcases hstep : s.removeChild r with ⟨s3, e⟩
    rw [hstep] at herr huerase hcont3
    have he : e = none := herr
    subst he
    have hnotin : r ∉ v2.reverse := by
      intro hcon
      rw [List.mem_reverse] at hcon
      exact (List.nodup_cons.1 hnd).1 hcon
    have hu3 : s3.unordered = v2.reverse := by
      have h1 : s3.unordered = s.unordered.erase r := huerase
      rw [h1, hu]
      show ((r :: v2).reverse).erase r = v2.reverse
      rw [List.reverse_cons]
      rw [List.erase_append_right _ hnotin]
      have h2 : ([r] : List Nat).erase r = [] := by simp
      rw [h2]
      exact List.append_nil _
    have hcnt3b : ∀ x, (CNode.refsOf t3).count x ≤ s3.unordered.count x := by
      intro x
      have h1 : s3.unordered = s.unordered.erase r := huerase
      rw [h1]
      exact hcnt3 x
    rcases ihv s3 g t3 hcont3 hu3 (List.nodup_cons.1 hnd).2 hc3 hch3 hd3 hrp3 hcnt3b with
      ⟨s2, hrun2, hu2, hrest⟩
    refine ⟨s2, ?_, hu2, hrest⟩
    show (match s.removeChild r with
      | (s3, none) => runRems s3 v2
      | (_, some _) => none) = some s2
    rw [hstep]
    exact hrun2

/-- C3: for every freshly instantiated container tree and every sequence of
successful add_child calls with pairwise distinct children, removing the same
children in reverse order succeeds and returns the tree to a state
structurally equal to the freshly-instantiated state — the same attached
count in every Leaf and the same chosen value in every Choice (and no
unordered children left). This holds although a remove may prune a repetition
that still holds later references (the C9 defect): such references simply
disappear early, their own removes then leave the tree untouched, and the
remaining removals still drain the tree completely. -/
theorem add_then_reverse_remove_roundtrip (g : CNode)
    (adds : List (Nat × String × Option Nat)) (s1 : XState)
    (hg : CNode.grammarOKb g = true)
    (hnd : (adds.map (fun a => a.1)).Nodup)
    (hrun : runAdds (initSt g) adds = some s1) :
    ∃ s2, runRems s1 (adds.map (fun a => a.1)).reverse = some s2 ∧
      s2.unordered = [] ∧
      ∃ t2, s2.container = some t2 ∧ CNode.structEq t2 g := by
  have hdf := CNode.dupFreeb_of_grammarOK g hg
  rcases runAdds_inv adds (initSt g) g g rfl
    (CNode.confb_refl_of_grammar g hg) (CNode.chosenOKb_of_grammarOK g hg)
    (CNode.dupOKb_of_dupFree g hdf) (CNode.repOK_of_dupFree g hdf)
    (by
      intro x
      rw [CNode.refsOf_grammar g hg]
      rfl) s1 hrun with
    ⟨t1, hcont1, hc1, hch1, hd1, hrp1, hcnt1, hu1⟩
  have hu1b : s1.unordered = adds.map (fun a => a.1) := by
    rw [hu1]
    rfl
  have hndrev : ((adds.map (fun a => a.1)).reverse).Nodup := by
    rw [List.nodup_reverse]
    exact hnd
  have hu1c : s1.unordered = ((adds.map (fun a => a.1)).reverse).reverse := by
    rw [List.reverse_reverse]
    exact hu1b
  rcases runRems_inv ((adds.map (fun a => a.1)).reverse) s1 g t1 hcont1 hu1c hndrev
    hc1 hch1 hd1 hrp1 (fun x => le_of_eq (hcnt1 x)) with
    ⟨s2, hrun2, hu2, t2, hcont2, hc2, hch2, hd2, hcnt2⟩
  refine ⟨s2, hrun2, hu2, t2, hcont2, ?_⟩
  have hrefs : CNode.refsOf t2 = [] := by
    cases href : CNode.refsOf t2 with
    | nil => rfl
    | cons a rs =>
      exfalso
      have h1 := hcnt2 a
      rw [hu2, href] at h1
      have h2 : List.count a ([] : List Nat) = 0 := rfl
      have h3 : (a :: rs).count a = rs.count a + 1 := List.count_cons_self a rs
      omega
  have htot : CNode.total t2 = 0 := by
    rw [CNode.total_eq_refs_length, hrefs]
    rfl
  have hfe := CNode.final_eq t2 g hc2 htot hch2 hd2 hg
  exact ⟨hfe.1, hfe.2⟩

theorem add_then_reverse_remove_roundtrip_wit :
    ∃ s2, runRems
      { container := some (CNode.seqC 1 (some 1) [CNode.leafE "a" 1 (some 1) [5]]),
        unordered := [5], attrs := [], val := none }
      (([((5 : Nat), ("a" : String), (none : Option Nat))].map (fun a => a.1)).reverse) =
        some s2 ∧
      s2.unordered = [] ∧
      ∃ t2, s2.container = some t2 ∧ CNode.structEq t2 Gram.gSat :=
  add_then_reverse_remove_roundtrip Gram.gSat [(5, "a", none)]
    { container := some (CNode.seqC 1 (some 1) [CNode.leafE "a" 1 (some 1) [5]]),
      unordered := [5], attrs := [], val := none }
    (by rfl) (by decide) (by rfl)

end MusicXml
